import Mathlib

/-!
# PRAcTISE: the array-backed indexed max-heap (`src/array_heap.c`)

A shallow embedding of the indexed binary heap that tracks one deadline per
processor, followed by the properties proved about it.

Conventions of the embedding.

* C `int` values (indices, processor ids, `size`) are Lean integers.  Every
  index the code computes is at most `2 * nproc + 2`, so the model is exact as
  long as that number fits in an `int`.  The child indices are computed on
  32-bit `int` in the namespace `Machine`, and `machine_heap_set_eq` proves that
  `heap_set` is the same function there for `nproc <= 2 ^ 30 - 1`.
* A call of a locking function is modelled from a state whose lock is free.
* `__u64` deadlines are natural numbers; the code never does arithmetic on
  them, it only copies them, compares them with `cmp_dl` and tests equality.
* The two heap-allocated arrays are lists of length `nproc`.  A read or a write
  outside `[0, length)` is a fault, and a faulting run is `none`.
* A C truth value (`is_valid`, `was_valid`, the result of `cmp_dl`) is a `Bool`.
* The recursion of `max_heapify` and the two sift-up loops carry a step budget;
  exhausting the budget is `none` as well, so a result `some _` always means
  that the code ran to completion without a fault.
-/

namespace ArrayHeap

/-! ## Data model (`array_heap.h`) -/

/-- The macro `IDX_INVALID`. -/
def IDX_INVALID : Int := -1

/-- The struct `array_item`: a deadline and the processor that holds it. -/
structure item where
  dl : Nat
  cpu : Int
deriving DecidableEq, Inhabited

/-- The struct `heap_struct`.  The field `lock` is the spinlock, `true` when held. -/
structure array_heap_t where
  lock : Bool
  size : Int
  cpu_to_idx : List Int
  elements : List item
  cmp_dl : Nat → Nat → Bool

/-- Array read `l[i]`; a fault outside the bounds of the block. -/
def rd {α : Type} (l : List α) (i : Int) : Option α :=
  if 0 ≤ i then l[i.toNat]? else none

/-- Array write `l[i] = v`; a fault outside the bounds of the block. -/
def wr {α : Type} (l : List α) (i : Int) (v : α) : Option (List α) :=
  if 0 ≤ i ∧ i < l.length then some (l.set i.toNat v) else none

/-- The spinlock is taken: the state in which `pthread_spin_lock` returns.  The C
call returns only once the lock is free, so this is the effect of the call on a
state with `lock = false`; the properties of the locking functions are stated
for such states, and `Checked.pthread_spin_lock` records the call on a held
lock as a run that does not return. -/
def pthread_spin_lock (h : array_heap_t) : array_heap_t :=
  { h with lock := true }

/-- The spinlock is released. -/
def pthread_spin_unlock (h : array_heap_t) : array_heap_t :=
  { h with lock := false }

/-! ## Operations (`array_heap.c`) -/

/-- In C `(i - 1) >> 1`, an arithmetic shift: the floor of `(i - 1) / 2`. -/
def parent (i : Int) : Int := (i - 1) / 2

/-- In C `(i << 1) + 1`, here on mathematical integers: the value of the C
expression for `0 <= i <= 2 ^ 30 - 1`.  `Machine.left_child` is the computation
on `int`. -/
def left_child (i : Int) : Int := 2 * i + 1

/-- In C `(i << 1) + 2`, here on mathematical integers: the value of the C
expression for `0 <= i <= 2 ^ 30 - 2`.  `Machine.right_child` is the computation
on `int`. -/
def right_child (i : Int) : Int := 2 * i + 2

/-- Swaps the entries at `a` and `b` and the reverse-index cells of their processors. -/
def exchange (h : array_heap_t) (a b : Int) : Option array_heap_t := do
  let ea ← rd h.elements a
  let eb ← rd h.elements b
  let els ← wr h.elements b { dl := ea.dl, cpu := ea.cpu }
  let els ← wr els a { dl := eb.dl, cpu := eb.cpu }
  let cpu_tmp ← rd h.cpu_to_idx eb.cpu
  let idx_a ← rd h.cpu_to_idx ea.cpu
  let c2i ← wr h.cpu_to_idx eb.cpu idx_a
  let c2i ← wr c2i ea.cpu cpu_tmp
  pure { h with elements := els, cpu_to_idx := c2i }

/-- The initial state.  `mem i` is the indeterminate content of cell `i` of the
freshly allocated `elements` block; `cpu_to_idx` is what the initialising loop
leaves behind. -/
def array_heap_init (mem : Nat → item) (nproc : Nat) (cmp_dl : Nat → Nat → Bool) :
    array_heap_t :=
  { lock := false
    size := 0
    cpu_to_idx := List.replicate nproc IDX_INVALID
    elements := (List.range nproc).map mem
    cmp_dl := cmp_dl }

/-- The recursion of `max_heapify` with a step budget. -/
def max_heapify_fuel : Nat → array_heap_t → Int → Option array_heap_t
  | 0, _, _ => none
  | fuel + 1, h, idx => do
    let l := left_child idx
    let r := right_child idx
    let c1 ← if l < h.size then do
        let x ← rd h.elements idx
        let y ← rd h.elements l
        pure (h.cmp_dl x.dl y.dl)
      else pure false
    let largest := if c1 then l else idx
    let c2 ← if r < h.size then do
        let x ← rd h.elements largest
        let y ← rd h.elements r
        pure (h.cmp_dl x.dl y.dl)
      else pure false
    let largest := if c2 then r else largest
    if largest ≠ idx then do
      let h ← exchange h largest idx
      max_heapify_fuel fuel h largest
    else pure h

/-- Moves the entry at `idx` down until no child beats it.  Every recursive call
is on an index larger than the previous one and below `size`. -/
def max_heapify (h : array_heap_t) (idx : Int) : Option array_heap_t :=
  max_heapify_fuel (h.size.toNat + 1) h idx

/-- The loop `while (idx > 0 && cmp_dl(parent, idx)) { exchange; idx = parent(idx); }`
of `heap_change_key` and of the removal path of `heap_set`, with a step budget.
Returns the state and the final value of `idx`. -/
def sift_up_fuel : Nat → array_heap_t → Int → Option (array_heap_t × Int)
  | 0, _, _ => none
  | fuel + 1, h, idx =>
    if idx > 0 then do
      let x ← rd h.elements (parent idx)
      let y ← rd h.elements idx
      if h.cmp_dl x.dl y.dl then do
        let h ← exchange h idx (parent idx)
        sift_up_fuel fuel h (parent idx)
      else pure (h, idx)
    else pure (h, idx)

/-- The sift-up loop; `idx` decreases at every iteration. -/
def sift_up (h : array_heap_t) (idx : Int) : Option (array_heap_t × Int) :=
  sift_up_fuel (idx.toNat + 1) h idx

/-- The assignment `h->elements[idx].dl = v`. -/
def set_dl (h : array_heap_t) (idx : Int) (v : Nat) : Option array_heap_t := do
  let e ← rd h.elements idx
  let els ← wr h.elements idx { e with dl := v }
  pure { h with elements := els }

/-- The assignment `h->elements[idx].cpu = c`. -/
def set_cpu (h : array_heap_t) (idx : Int) (c : Int) : Option array_heap_t := do
  let e ← rd h.elements idx
  let els ← wr h.elements idx { e with cpu := c }
  pure { h with elements := els }

/-- The assignment `h->cpu_to_idx[cpu] = v`. -/
def set_idx (h : array_heap_t) (cpu : Int) (v : Int) : Option array_heap_t := do
  let c2i ← wr h.cpu_to_idx cpu v
  pure { h with cpu_to_idx := c2i }

/-- Sets a new key for the element at position `idx`. -/
def heap_change_key (h : array_heap_t) (idx : Int) (new_dl : Nat) (was_valid : Bool) :
    Option array_heap_t := do
  let e ← rd h.elements idx
  if h.cmp_dl new_dl e.dl && was_valid then do
    let h ← set_dl h idx new_dl
    max_heapify h idx
  else do
    let h ← set_dl h idx new_dl
    let (h, _) ← sift_up h idx
    pure h

/-- Insert, update or remove the entry of `cpu`.  The second component is the
returned `int`; `none` there is the value of the local `idx`, which no path
assigns. -/
def heap_set (h : array_heap_t) (cpu : Int) (dline : Nat) (is_valid : Bool) :
    Option (array_heap_t × Option Int) := do
  let h := pthread_spin_lock h
  let old_idx ← rd h.cpu_to_idx cpu
  if !is_valid && old_idx == IDX_INVALID then
    pure (pthread_spin_unlock h, some (-1))
  else if !is_valid then do
    let last ← rd h.elements (h.size - 1)
    let new_cpu := last.cpu
    let last ← rd h.elements (h.size - 1)
    let h ← set_dl h old_idx last.dl
    let h ← set_cpu h old_idx new_cpu
    let h := { h with size := h.size - 1 }
    let h ← set_idx h new_cpu old_idx
    let h ← set_idx h cpu IDX_INVALID
    let (h, old_idx) ← sift_up h old_idx
    let h ← max_heapify h old_idx
    pure (pthread_spin_unlock h, some (-1))
  else do
    let h ← if old_idx == IDX_INVALID then do
        let h := { h with size := h.size + 1 }
        let h ← set_dl h (h.size - 1) 0
        let h ← set_cpu h (h.size - 1) cpu
        let h ← set_idx h cpu (h.size - 1)
        heap_change_key h (h.size - 1) dline false
      else heap_change_key h old_idx dline true
    pure (pthread_spin_unlock h, none)

/-- The processor stored at the root; reads `elements[0]` without the lock. -/
def heap_maximum (h : array_heap_t) : Option Int := do
  let e ← rd h.elements 0
  pure e.cpu

/-- The root processor, or `-1` for an empty heap. -/
def array_heap_find (h : array_heap_t) : Option Int :=
  if h.size > 0 then heap_maximum h else pure (-1)

/-- Does `cpu` hold exactly the deadline `dline`?  Returns the flag. -/
def array_heap_check_cpu (h : array_heap_t) (cpu : Int) (dline : Nat) :
    Option (array_heap_t × Int) := do
  let h := pthread_spin_lock h
  let i ← rd h.cpu_to_idx cpu
  let e ← rd h.elements i
  let flag : Int := if e.dl = dline then 1 else 0
  pure (pthread_spin_unlock h, flag)

/-- What `array_heap_save` prints: the size, the occupied slots in array order
as `(cpu, dl)` and the whole reverse index. -/
structure dump where
  size : Int
  slots : List (Int × Nat)
  index : List Int
deriving DecidableEq

/-- The loop `for (i = 0; i < h->size; i++)` of `array_heap_save`; `n` iterations
remain and `i` is the loop variable. -/
def save_slots (h : array_heap_t) : Nat → Int → Option (List (Int × Nat))
  | 0, _ => pure []
  | n + 1, i => do
    let e ← rd h.elements i
    let e2 ← rd h.elements i
    let rest ← save_slots h n (i + 1)
    pure ((e.cpu, e2.dl) :: rest)

/-- The loop `for (i = 0; i < nproc; i++)` of `array_heap_save`. -/
def save_index (h : array_heap_t) : Nat → Int → Option (List Int)
  | 0, _ => pure []
  | n + 1, i => do
    let v ← rd h.cpu_to_idx i
    let rest ← save_index h n (i + 1)
    pure (v :: rest)

/-- Writes the heap to a sink; the text written is returned as a `dump`. -/
def array_heap_save (h : array_heap_t) (nproc : Nat) : Option (array_heap_t × dump) := do
  let h := pthread_spin_lock h
  let slots ← save_slots h h.size.toNat 0
  let index ← save_index h nproc 0
  pure (pthread_spin_unlock h, { size := h.size, slots := slots, index := index })

/-- The wrapper `print_array_heap`: `array_heap_save` to standard output. -/
def print_array_heap (h : array_heap_t) (nproc : Nat) : Option (array_heap_t × dump) :=
  array_heap_save h nproc

/-- One iteration of the loop of `array_heap_check` for loop variable `i`:
`true` when one of the three tests fires (`flag = 0; goto out`). -/
def check_iter (h : array_heap_t) (i : Int) : Option Bool := do
  let ci ← rd h.cpu_to_idx i
  let bad ← if ci ≠ IDX_INVALID then do
      let ci ← rd h.cpu_to_idx i
      let e ← rd h.elements ci
      pure (decide (e.cpu ≠ i))
    else pure false
  if bad then pure true
  else do
    let bad ← if left_child i < h.size then do
        let x ← rd h.elements i
        let y ← rd h.elements (left_child i)
        if h.cmp_dl x.dl y.dl then do
          let ci ← rd h.cpu_to_idx i
          pure (decide (ci ≠ IDX_INVALID))
        else pure false
      else pure false
    if bad then pure true
    else if right_child i < h.size then do
      let x ← rd h.elements i
      let y ← rd h.elements (right_child i)
      if h.cmp_dl x.dl y.dl then do
        let ci ← rd h.cpu_to_idx i
        pure (decide (ci ≠ IDX_INVALID))
      else pure false
    else pure false

/-- The loop `for (i = 0; i < nproc; i++)` of `array_heap_check`; `n` iterations
remain.  Returns the value of `flag` at the label `out`. -/
def check_loop (h : array_heap_t) : Nat → Int → Option Int
  | 0, _ => pure 1
  | n + 1, i => do
    let bad ← check_iter h i
    if bad then pure 0 else check_loop h n (i + 1)

/-- The self-check: returns `flag`, after dumping the heap when it is `0`. -/
def array_heap_check (h : array_heap_t) (nproc : Nat) : Option (array_heap_t × Int) := do
  let h := pthread_spin_lock h
  let flag ← check_loop h nproc 0
  let h := pthread_spin_unlock h
  if flag = 0 then do
    let (h, _) ← print_array_heap h nproc
    pure (h, flag)
  else pure (h, flag)

/-! ## Reachable states -/

/-- The states produced by `array_heap_init` followed by finitely many calls of
`heap_set` with a processor id in `[0, nproc)`. -/
inductive Reachable (nproc : Nat) (cmp : Nat → Nat → Bool) : array_heap_t → Prop
  | init (mem : Nat → item) : Reachable nproc cmp (array_heap_init mem nproc cmp)
  | step {h h' : array_heap_t} {cpu : Int} {dline : Nat} {is_valid : Bool}
      {r : Option Int} :
      Reachable nproc cmp h → 0 ≤ cpu → cpu < nproc →
      heap_set h cpu dline is_valid = some (h', r) → Reachable nproc cmp h'

/-! ## Predicates and auxiliary states of the specification -/

/-- The entry at slot `i`, with a default outside the block. -/
def el (h : array_heap_t) (i : Int) : item := h.elements.getD i.toNat default

/-- The reverse-index cell of processor `p`, with a default outside the block. -/
def ix (h : array_heap_t) (p : Int) : Int := h.cpu_to_idx.getD p.toNat IDX_INVALID

/-- The state `exchange h a b` produces when none of its accesses faults. -/
def xchg (h : array_heap_t) (a b : Int) : array_heap_t :=
  { h with
    elements := (h.elements.set b.toNat (el h a)).set a.toNat (el h b)
    cpu_to_idx := (h.cpu_to_idx.set (el h b).cpu.toNat (ix h (el h a).cpu)).set
      (el h a).cpu.toNat (ix h (el h b).cpu) }

/-- The two arrays have `nproc` cells, `size` is within the capacity, every
occupied slot holds a valid processor whose reverse-index cell points back at
the slot, and every reverse-index cell is the sentinel or points at a slot of
its own processor. -/
structure Consistent (nproc : Nat) (h : array_heap_t) : Prop where
  len_idx : h.cpu_to_idx.length = nproc
  len_el : h.elements.length = nproc
  size_nonneg : 0 ≤ h.size
  size_le : h.size ≤ nproc
  cpu_ok : ∀ i, 0 ≤ i → i < h.size →
    0 ≤ (el h i).cpu ∧ (el h i).cpu < nproc ∧ ix h (el h i).cpu = i
  idx_ok : ∀ p, 0 ≤ p → p < (nproc : Int) →
    ix h p = IDX_INVALID ∨ (0 ≤ ix h p ∧ ix h p < h.size ∧ (el h (ix h p)).cpu = p)

/-- The deadline recorded for processor `p`, `none` when `p` is absent. -/
def dl_of (h : array_heap_t) (p : Int) : Option Nat :=
  if ix h p = IDX_INVALID then none else some (el h (ix h p)).dl

/-- The state `h'` is consistent and has the size, the lock, the comparator and
the deadline of every processor of `h`. -/
structure Same (nproc : Nat) (h h' : array_heap_t) : Prop where
  cons : Consistent nproc h'
  size_eq : h'.size = h.size
  lock_eq : h'.lock = h.lock
  cmp_eq : h'.cmp_dl = h.cmp_dl
  dl_eq : ∀ p, 0 ≤ p → p < (nproc : Int) → dl_of h' p = dl_of h p

/-- The index `max_heapify` selects among `idx` and its two children. -/
def largest_of (h : array_heap_t) (idx : Int) : Int :=
  let lg := if left_child idx < h.size ∧
      h.cmp_dl (el h idx).dl (el h (left_child idx)).dl = true then left_child idx else idx
  if right_child idx < h.size ∧
      h.cmp_dl (el h lg).dl (el h (right_child idx)).dl = true then right_child idx else lg

/-- A strict weak order: irreflexive, transitive, and with a transitive
incomparability relation.  A comparator of 64-bit deadlines is one of natural
numbers that looks at its arguments modulo `2 ^ 64`. -/
structure StrictWeakOrder (cmp : Nat → Nat → Bool) : Prop where
  irrefl : ∀ a, cmp a a = false
  trans : ∀ a b c, cmp a b = true → cmp b c = true → cmp a c = true
  incomp_trans : ∀ a b c, cmp a b = false → cmp b a = false → cmp b c = false →
    cmp c b = false → cmp a c = false ∧ cmp c a = false

/-- The entry at `i` does not beat the entry at its parent. -/
def EdgeOK (h : array_heap_t) (i : Int) : Prop :=
  h.cmp_dl (el h (parent i)).dl (el h i).dl = false

/-- The max-heap order of the code: no entry below the root beats its parent. -/
def Heap (h : array_heap_t) : Prop :=
  ∀ i, 1 ≤ i → i < h.size → EdgeOK h i

/-- No child of `idx` beats the parent of `idx`. -/
def GrandOK (h : array_heap_t) (idx : Int) : Prop :=
  1 ≤ idx → ∀ c, c < h.size → parent c = idx →
    h.cmp_dl (el h (parent idx)).dl (el h c).dl = false

/-- The heap order holds on every edge that does not touch `idx`. -/
def HeapExcept (h : array_heap_t) (idx : Int) : Prop :=
  (∀ i, 1 ≤ i → i < h.size → i ≠ idx → parent i ≠ idx → EdgeOK h i) ∧ GrandOK h idx

/-- The heap order holds on every edge but the one from `idx` to its parent. -/
def UpOnly (h : array_heap_t) (idx : Int) : Prop :=
  (∀ i, 1 ≤ i → i < h.size → i ≠ idx → EdgeOK h i) ∧ GrandOK h idx

/-- The heap order holds on every edge but those from `idx` to its children. -/
def DownOnly (h : array_heap_t) (idx : Int) : Prop :=
  (∀ i, 1 ≤ i → i < h.size → parent i ≠ idx → EdgeOK h i) ∧ GrandOK h idx

/-- The state of the insertion path just before its sift-up loop: the new entry
sits in the first free slot with its deadline already set. -/
def ins_state (h : array_heap_t) (cpu : Int) (dline : Nat) : array_heap_t :=
  { lock := true
    size := h.size + 1
    cpu_to_idx := h.cpu_to_idx.set cpu.toNat h.size
    elements := h.elements.set h.size.toNat { dl := dline, cpu := cpu }
    cmp_dl := h.cmp_dl }

/-- The state of the update path after the new deadline is written at `idx`. -/
def upd_state (h : array_heap_t) (idx : Int) (dline : Nat) : array_heap_t :=
  { lock := true
    size := h.size
    cpu_to_idx := h.cpu_to_idx
    elements := h.elements.set idx.toNat { dl := dline, cpu := (el h idx).cpu }
    cmp_dl := h.cmp_dl }

/-- The state of the removal path just before its sift-up loop: the last entry
has been copied over the entry of `cpu` and the heap is one slot shorter. -/
def rem_state (h : array_heap_t) (cpu : Int) : array_heap_t :=
  { lock := true
    size := h.size - 1
    cpu_to_idx := (h.cpu_to_idx.set (el h (h.size - 1)).cpu.toNat (ix h cpu)).set
      cpu.toNat IDX_INVALID
    elements := h.elements.set (ix h cpu).toNat (el h (h.size - 1))
    cmp_dl := h.cmp_dl }

/-- The (deadline, processor) pairs stored in `elements[0 .. size)`. -/
def entries (h : array_heap_t) : List item := h.elements.take h.size.toNat

/-- The comparator "deadline less-than". -/
def lt_cmp (a b : Nat) : Bool := decide (a < b)

/-- The comparator "deadline less-than or equal", which is not strict. -/
def le_cmp (a b : Nat) : Bool := decide (a ≤ b)

/-- A freshly allocated block that happens to hold zeros. -/
def zero_mem : Nat → item := fun _ => { dl := 0, cpu := 0 }

/-- Capacity 2, comparator `lt_cmp`, after `heap_set(0, 10, 1)`. -/
def lt_one : array_heap_t :=
  { lock := false, size := 1, cpu_to_idx := [0, -1],
    elements := [{ dl := 10, cpu := 0 }, { dl := 0, cpu := 0 }], cmp_dl := lt_cmp }

/-- Capacity 2, comparator `lt_cmp`, after `heap_set(0, 10, 1)` and `heap_set(1, 5, 1)`. -/
def lt_two : array_heap_t :=
  { lock := false, size := 2, cpu_to_idx := [0, 1],
    elements := [{ dl := 10, cpu := 0 }, { dl := 5, cpu := 1 }], cmp_dl := lt_cmp }

/-- Capacity 2, comparator `le_cmp`, after `heap_set(0, 5, 1)`. -/
def le_one : array_heap_t :=
  { lock := false, size := 1, cpu_to_idx := [0, -1],
    elements := [{ dl := 5, cpu := 0 }, { dl := 0, cpu := 0 }], cmp_dl := le_cmp }

/-- Capacity 2, comparator `le_cmp`, after `heap_set(0, 5, 1)` and `heap_set(1, 5, 1)`:
the tie moved processor 1 to the root. -/
def le_two : array_heap_t :=
  { lock := false, size := 2, cpu_to_idx := [1, 0],
    elements := [{ dl := 5, cpu := 1 }, { dl := 5, cpu := 0 }], cmp_dl := le_cmp }

/-- The state `heap_set(0, _, 0)` produces from `le_two`. -/
def le_three : array_heap_t :=
  { lock := false, size := 1, cpu_to_idx := [0, -1],
    elements := [{ dl := 5, cpu := 0 }, { dl := 5, cpu := 1 }], cmp_dl := le_cmp }

/-! ## Further comparators, runs and states used by the properties -/

/-- The comparator "deadline greater-than". -/
def gt_cmp (a b : Nat) : Bool := decide (b < a)

/-- Runs a list of `heap_set` calls `(cpu, dline, is_valid)` from left to right. -/
def run_ops (h : array_heap_t) : List (Int × Nat × Bool) → Option array_heap_t
  | [] => some h
  | (cpu, dline, v) :: ops => do
    let (h1, _) ← heap_set h cpu dline v
    run_ops h1 ops

/-- Scenario 1 of the specification: the four insertions (p0,10), (p1,5), (p2,20), (p3,1). -/
def scenario_ops : List (Int × Nat × Bool) :=
  [(0, 10, true), (1, 5, true), (2, 20, true), (3, 1, true)]

/-- Capacity 4, comparator `lt_cmp`, after the four insertions of scenario 1. -/
def sc_full : array_heap_t :=
  { lock := false, size := 4, cpu_to_idx := [2, 1, 0, 3],
    elements := [{ dl := 20, cpu := 2 }, { dl := 5, cpu := 1 }, { dl := 10, cpu := 0 },
      { dl := 1, cpu := 3 }], cmp_dl := lt_cmp }

/-- The state `sc_full` after `heap_set(3, _, 0)`. -/
def sc_removed : array_heap_t :=
  { lock := false, size := 3, cpu_to_idx := [2, 1, 0, -1],
    elements := [{ dl := 20, cpu := 2 }, { dl := 5, cpu := 1 }, { dl := 10, cpu := 0 },
      { dl := 1, cpu := 3 }], cmp_dl := lt_cmp }

/-- The state `sc_removed` after `heap_set(1, 30, 1)`. -/
def sc_updated : array_heap_t :=
  { lock := false, size := 3, cpu_to_idx := [2, 0, 1, -1],
    elements := [{ dl := 30, cpu := 1 }, { dl := 20, cpu := 2 }, { dl := 10, cpu := 0 },
      { dl := 1, cpu := 3 }], cmp_dl := lt_cmp }

/-- Capacity 3 with processors 1 and 2 present and processor 0 absent; the entry
at index 0 is beaten by its left child under `lt_cmp`.  The two arrays are
consistent with each other. -/
def unordered : array_heap_t :=
  { lock := false, size := 2, cpu_to_idx := [-1, 0, 1],
    elements := [{ dl := 5, cpu := 1 }, { dl := 10, cpu := 2 }, { dl := 0, cpu := 0 }],
    cmp_dl := lt_cmp }

/-- Capacity 6, comparator `lt_cmp`, after inserting (p0,20), (p1,5), (p2,15),
(p3,3), (p4,4), (p5,12): no insertion moved an entry. -/
def up_before : array_heap_t :=
  { lock := false, size := 6, cpu_to_idx := [0, 1, 2, 3, 4, 5],
    elements := [{ dl := 20, cpu := 0 }, { dl := 5, cpu := 1 }, { dl := 15, cpu := 2 },
      { dl := 3, cpu := 3 }, { dl := 4, cpu := 4 }, { dl := 12, cpu := 5 }], cmp_dl := lt_cmp }

/-- The state `up_before` after `heap_set(3, _, 0)`: the entry of processor 5,
relocated from slot 5 to the freed slot 3, has moved up to slot 1. -/
def up_after : array_heap_t :=
  { lock := false, size := 5, cpu_to_idx := [0, 3, 2, -1, 4, 1],
    elements := [{ dl := 20, cpu := 0 }, { dl := 12, cpu := 5 }, { dl := 15, cpu := 2 },
      { dl := 5, cpu := 1 }, { dl := 4, cpu := 4 }, { dl := 12, cpu := 5 }], cmp_dl := lt_cmp }

/-- What `max_heapify` alone makes of the removal of processor 3 from
`up_before`: the relocated entry stays in slot 3 below a smaller parent. -/
def up_without_sift : array_heap_t :=
  { lock := true, size := 5, cpu_to_idx := [0, 1, 2, -1, 4, 3],
    elements := [{ dl := 20, cpu := 0 }, { dl := 5, cpu := 1 }, { dl := 15, cpu := 2 },
      { dl := 12, cpu := 5 }, { dl := 4, cpu := 4 }, { dl := 12, cpu := 5 }], cmp_dl := lt_cmp }

/-- Capacity 4, comparator `lt_cmp`, after inserting (p0,20), (p1,10), (p2,15), (p3,5). -/
def down_before : array_heap_t :=
  { lock := false, size := 4, cpu_to_idx := [0, 1, 2, 3],
    elements := [{ dl := 20, cpu := 0 }, { dl := 10, cpu := 1 }, { dl := 15, cpu := 2 },
      { dl := 5, cpu := 3 }], cmp_dl := lt_cmp }

/-- The state `down_before` after `heap_set(0, _, 0)`: the entry of processor 3,
relocated from slot 3 to the freed slot 0, has moved down to slot 2. -/
def down_after : array_heap_t :=
  { lock := false, size := 3, cpu_to_idx := [-1, 1, 0, 2],
    elements := [{ dl := 15, cpu := 2 }, { dl := 10, cpu := 1 }, { dl := 5, cpu := 3 },
      { dl := 5, cpu := 3 }], cmp_dl := lt_cmp }

/-- The state the sift-up loop alone leaves for the removal of processor 0 from
`down_before`: the relocated entry stays at the root below two larger children. -/
def down_without_heapify : array_heap_t :=
  { lock := true, size := 3, cpu_to_idx := [-1, 1, 2, 0],
    elements := [{ dl := 5, cpu := 3 }, { dl := 10, cpu := 1 }, { dl := 15, cpu := 2 },
      { dl := 5, cpu := 3 }], cmp_dl := lt_cmp }

/-! ## The instrumented model: budget and lock discipline made observable

The operations once more, now with the reason of a failed run recorded and with
every access to `size`, `elements` and `cpu_to_idx` made through an accessor
that demands the lock.  `heap_maximum` and `array_heap_find` read without the
lock, as in the source. -/

/-- Why a run stops without a result. -/
inductive fault_kind where
  | bounds
  | budget
  | unlocked
  | deadlock
deriving DecidableEq

namespace Checked

/-- A guarded access: fails with `unlocked` when the lock is free. -/
def held (h : array_heap_t) : Except fault_kind Unit :=
  if h.lock then pure () else throw fault_kind.unlocked

/-- Taking the spinlock; a sequential run that finds it held never gets it. -/
def pthread_spin_lock (h : array_heap_t) : Except fault_kind array_heap_t :=
  if h.lock then throw fault_kind.deadlock else pure { h with lock := true }

/-- Releasing the spinlock, which has to be held. -/
def pthread_spin_unlock (h : array_heap_t) : Except fault_kind array_heap_t :=
  if h.lock then pure { h with lock := false } else throw fault_kind.unlocked

/-- Guarded read of `h->size`. -/
def load_size (h : array_heap_t) : Except fault_kind Int := do
  held h
  pure h.size

/-- Guarded write of `h->size`. -/
def store_size (h : array_heap_t) (v : Int) : Except fault_kind array_heap_t := do
  held h
  pure { h with size := v }

/-- Guarded read of `h->elements[i]`. -/
def load_el (h : array_heap_t) (i : Int) : Except fault_kind item := do
  held h
  match rd h.elements i with
  | some e => pure e
  | none => throw fault_kind.bounds

/-- Guarded write of `h->elements[i]`. -/
def store_el (h : array_heap_t) (i : Int) (e : item) : Except fault_kind array_heap_t := do
  held h
  match wr h.elements i e with
  | some l => pure { h with elements := l }
  | none => throw fault_kind.bounds

/-- Guarded read of `h->cpu_to_idx[p]`. -/
def load_idx (h : array_heap_t) (p : Int) : Except fault_kind Int := do
  held h
  match rd h.cpu_to_idx p with
  | some v => pure v
  | none => throw fault_kind.bounds

/-- Guarded write of `h->cpu_to_idx[p]`. -/
def store_idx (h : array_heap_t) (p : Int) (v : Int) : Except fault_kind array_heap_t := do
  held h
  match wr h.cpu_to_idx p v with
  | some l => pure { h with cpu_to_idx := l }
  | none => throw fault_kind.bounds

/-- The function `exchange`. -/
def exchange (h : array_heap_t) (a b : Int) : Except fault_kind array_heap_t := do
  let ea ← load_el h a
  let eb ← load_el h b
  let h ← store_el h b { dl := ea.dl, cpu := ea.cpu }
  let h ← store_el h a { dl := eb.dl, cpu := eb.cpu }
  let cpu_tmp ← load_idx h eb.cpu
  let idx_a ← load_idx h ea.cpu
  let h ← store_idx h eb.cpu idx_a
  store_idx h ea.cpu cpu_tmp

/-- The recursion of `max_heapify`; an exhausted budget is the fault `budget`. -/
def max_heapify_fuel : Nat → array_heap_t → Int → Except fault_kind array_heap_t
  | 0, _, _ => throw fault_kind.budget
  | fuel + 1, h, idx => do
    let l := left_child idx
    let r := right_child idx
    let sz ← load_size h
    let c1 ← (if l < sz then (do
        let x ← load_el h idx
        let y ← load_el h l
        pure (h.cmp_dl x.dl y.dl))
      else pure false)
    let largest := if c1 then l else idx
    let sz ← load_size h
    let c2 ← (if r < sz then (do
        let x ← load_el h largest
        let y ← load_el h r
        pure (h.cmp_dl x.dl y.dl))
      else pure false)
    let largest := if c2 then r else largest
    if largest ≠ idx then do
      let h ← exchange h largest idx
      max_heapify_fuel fuel h largest
    else pure h

/-- The function `max_heapify`, with the budget of the main model. -/
def max_heapify (h : array_heap_t) (idx : Int) : Except fault_kind array_heap_t :=
  max_heapify_fuel (h.size.toNat + 1) h idx

/-- The sift-up loop of `heap_change_key` and of the removal path. -/
def sift_up_fuel : Nat → array_heap_t → Int → Except fault_kind (array_heap_t × Int)
  | 0, _, _ => throw fault_kind.budget
  | fuel + 1, h, idx =>
    if idx > 0 then do
      let x ← load_el h (parent idx)
      let y ← load_el h idx
      if h.cmp_dl x.dl y.dl then do
        let h ← exchange h idx (parent idx)
        sift_up_fuel fuel h (parent idx)
      else pure (h, idx)
    else pure (h, idx)

/-- The sift-up loop, with the budget of the main model. -/
def sift_up (h : array_heap_t) (idx : Int) : Except fault_kind (array_heap_t × Int) :=
  sift_up_fuel (idx.toNat + 1) h idx

/-- The assignment `h->elements[idx].dl = v`. -/
def set_dl (h : array_heap_t) (idx : Int) (v : Nat) : Except fault_kind array_heap_t := do
  let e ← load_el h idx
  store_el h idx { e with dl := v }

/-- The assignment `h->elements[idx].cpu = c`. -/
def set_cpu (h : array_heap_t) (idx : Int) (c : Int) : Except fault_kind array_heap_t := do
  let e ← load_el h idx
  store_el h idx { e with cpu := c }

/-- The function `heap_change_key`. -/
def heap_change_key (h : array_heap_t) (idx : Int) (new_dl : Nat) (was_valid : Bool) :
    Except fault_kind array_heap_t := do
  let e ← load_el h idx
  if h.cmp_dl new_dl e.dl && was_valid then do
    let h ← set_dl h idx new_dl
    max_heapify h idx
  else do
    let h ← set_dl h idx new_dl
    let (h, _) ← sift_up h idx
    pure h

/-- The function `heap_set`. -/
def heap_set (h : array_heap_t) (cpu : Int) (dline : Nat) (is_valid : Bool) :
    Except fault_kind (array_heap_t × Option Int) := do
  let h ← pthread_spin_lock h
  let old_idx ← load_idx h cpu
  if !is_valid && old_idx == IDX_INVALID then do
    let h ← pthread_spin_unlock h
    pure (h, some (-1))
  else if !is_valid then do
    let sz ← load_size h
    let last ← load_el h (sz - 1)
    let new_cpu := last.cpu
    let sz ← load_size h
    let last ← load_el h (sz - 1)
    let h ← set_dl h old_idx last.dl
    let h ← set_cpu h old_idx new_cpu
    let sz ← load_size h
    let h ← store_size h (sz - 1)
    let h ← store_idx h new_cpu old_idx
    let h ← store_idx h cpu IDX_INVALID
    let (h, old_idx) ← sift_up h old_idx
    let h ← max_heapify h old_idx
    let h ← pthread_spin_unlock h
    pure (h, some (-1))
  else do
    let h ← (if old_idx == IDX_INVALID then (do
        let sz ← load_size h
        let h ← store_size h (sz + 1)
        let sz ← load_size h
        let h ← set_dl h (sz - 1) 0
        let sz ← load_size h
        let h ← set_cpu h (sz - 1) cpu
        let sz ← load_size h
        let h ← store_idx h cpu (sz - 1)
        let sz ← load_size h
        heap_change_key h (sz - 1) dline false)
      else heap_change_key h old_idx dline true)
    let h ← pthread_spin_unlock h
    pure (h, none)

/-- The function `heap_maximum`: reads `elements[0]` without the lock. -/
def heap_maximum (h : array_heap_t) : Except fault_kind Int :=
  match rd h.elements 0 with
  | some e => pure e.cpu
  | none => throw fault_kind.bounds

/-- The function `array_heap_find`: reads `size` without the lock. -/
def array_heap_find (h : array_heap_t) : Except fault_kind Int :=
  if h.size > 0 then heap_maximum h else pure (-1)

/-- The function `array_heap_check_cpu`. -/
def array_heap_check_cpu (h : array_heap_t) (cpu : Int) (dline : Nat) :
    Except fault_kind (array_heap_t × Int) := do
  let h ← pthread_spin_lock h
  let i ← load_idx h cpu
  let e ← load_el h i
  let flag : Int := if e.dl = dline then 1 else 0
  let h ← pthread_spin_unlock h
  pure (h, flag)

/-- The first loop of `array_heap_save`. -/
def save_slots (h : array_heap_t) : Nat → Int → Except fault_kind (List (Int × Nat))
  | 0, _ => pure []
  | n + 1, i => do
    let e ← load_el h i
    let e2 ← load_el h i
    let rest ← save_slots h n (i + 1)
    pure ((e.cpu, e2.dl) :: rest)

/-- The second loop of `array_heap_save`. -/
def save_index (h : array_heap_t) : Nat → Int → Except fault_kind (List Int)
  | 0, _ => pure []
  | n + 1, i => do
    let v ← load_idx h i
    let rest ← save_index h n (i + 1)
    pure (v :: rest)

/-- The function `array_heap_save`. -/
def array_heap_save (h : array_heap_t) (nproc : Nat) :
    Except fault_kind (array_heap_t × dump) := do
  let h ← pthread_spin_lock h
  let sz ← load_size h
  let slots ← save_slots h sz.toNat 0
  let index ← save_index h nproc 0
  let h' ← pthread_spin_unlock h
  pure (h', { size := sz, slots := slots, index := index })

/-- The function `print_array_heap`. -/
def print_array_heap (h : array_heap_t) (nproc : Nat) :
    Except fault_kind (array_heap_t × dump) :=
  array_heap_save h nproc

/-- One iteration of the loop of `array_heap_check`. -/
def check_iter (h : array_heap_t) (i : Int) : Except fault_kind Bool := do
  let ci ← load_idx h i
  let bad ← (if ci ≠ IDX_INVALID then (do
      let ci ← load_idx h i
      let e ← load_el h ci
      pure (decide (e.cpu ≠ i)))
    else pure false)
  if bad then pure true
  else do
    let sz ← load_size h
    let bad ← (if left_child i < sz then (do
        let x ← load_el h i
        let y ← load_el h (left_child i)
        if h.cmp_dl x.dl y.dl then do
          let ci ← load_idx h i
          pure (decide (ci ≠ IDX_INVALID))
        else pure false)
      else pure false)
    if bad then pure true
    else do
      let sz ← load_size h
      if right_child i < sz then do
        let x ← load_el h i
        let y ← load_el h (right_child i)
        if h.cmp_dl x.dl y.dl then do
          let ci ← load_idx h i
          pure (decide (ci ≠ IDX_INVALID))
        else pure false
      else pure false

/-- The loop of `array_heap_check`. -/
def check_loop (h : array_heap_t) : Nat → Int → Except fault_kind Int
  | 0, _ => pure 1
  | n + 1, i => do
    let bad ← check_iter h i
    if bad then pure 0 else check_loop h n (i + 1)

/-- The function `array_heap_check`. -/
def array_heap_check (h : array_heap_t) (nproc : Nat) :
    Except fault_kind (array_heap_t × Int) := do
  let h ← pthread_spin_lock h
  let flag ← check_loop h nproc 0
  let h ← pthread_spin_unlock h
  if flag = 0 then do
    let (h, _) ← print_array_heap h nproc
    pure (h, flag)
  else pure (h, flag)

end Checked

/-- The result of a run succeeds with a value that satisfies `Q`, or fails with
a fault that satisfies `E`. -/
def Post {α : Type} (E : fault_kind → Prop) (r : Except fault_kind α) (Q : α → Prop) : Prop :=
  match r with
  | Except.ok a => Q a
  | Except.error e => E e

/-- The faults an operation may end in when the lock flag is `b` throughout: an
access outside a block, or a guarded access while the lock is free. -/
def inner_fault (b : Bool) (e : fault_kind) : Prop :=
  e = fault_kind.bounds ∨ (e = fault_kind.unlocked ∧ b = false)

/-- A run of the instrumented model and a run of the plain model agree: a result
of the first is matched by a result of the second related by `R`, and a fault
of the first by a failed run of the second. -/
def SimR {α α' : Type} (R : α → α' → Prop) (x : Except fault_kind α) (y : Option α') : Prop :=
  match x with
  | Except.ok a => ∃ a', y = some a' ∧ R a a'
  | Except.error _ => y = none

/-! ## Child indices on the 32-bit `int` of the source

The operations above compute `(i << 1) + 1` and `(i << 1) + 2` on mathematical
integers.  Here they are computed on `int`, together with the operations that
use them; the two agree for capacities up to `2 ^ 30 - 1`. -/

/-- The value of an `int` computation whose mathematical result is `x`: the
representative of `x` modulo `2 ^ 32` in `[-2 ^ 31, 2 ^ 31)`.  Signed overflow
is undefined in C; the two's-complement targets wrap, which is what is modelled
here. -/
def int32 (x : Int) : Int := (x + 2147483648) % 4294967296 - 2147483648

namespace Machine

/-- The function `left_child` on `int`: `(i << 1) + 1`. -/
def left_child (i : Int) : Int := int32 (int32 (i * 2) + 1)

/-- The function `right_child` on `int`: `(i << 1) + 2`. -/
def right_child (i : Int) : Int := int32 (int32 (i * 2) + 2)

/-- The recursion of `max_heapify` with a step budget, child indices on `int`. -/
def max_heapify_fuel : Nat → array_heap_t → Int → Option array_heap_t
  | 0, _, _ => none
  | fuel + 1, h, idx => do
    let l := left_child idx
    let r := right_child idx
    let c1 ← (if l < h.size then (do
        let x ← rd h.elements idx
        let y ← rd h.elements l
        pure (h.cmp_dl x.dl y.dl))
      else pure false)
    let largest := if c1 then l else idx
    let c2 ← (if r < h.size then (do
        let x ← rd h.elements largest
        let y ← rd h.elements r
        pure (h.cmp_dl x.dl y.dl))
      else pure false)
    let largest := if c2 then r else largest
    if largest ≠ idx then do
      let h ← exchange h largest idx
      max_heapify_fuel fuel h largest
    else pure h

/-- The function `max_heapify`, child indices on `int`. -/
def max_heapify (h : array_heap_t) (idx : Int) : Option array_heap_t :=
  max_heapify_fuel (h.size.toNat + 1) h idx

/-- The function `heap_change_key`, child indices on `int`. -/
def heap_change_key (h : array_heap_t) (idx : Int) (new_dl : Nat) (was_valid : Bool) :
    Option array_heap_t := do
  let e ← rd h.elements idx
  if h.cmp_dl new_dl e.dl && was_valid then do
    let h ← set_dl h idx new_dl
    max_heapify h idx
  else do
    let h ← set_dl h idx new_dl
    let (h, _) ← sift_up h idx
    pure h

/-- The function `heap_set`, child indices on `int`. -/
def heap_set (h : array_heap_t) (cpu : Int) (dline : Nat) (is_valid : Bool) :
    Option (array_heap_t × Option Int) := do
  let h := pthread_spin_lock h
  let old_idx ← rd h.cpu_to_idx cpu
  if !is_valid && old_idx == IDX_INVALID then
    pure (pthread_spin_unlock h, some (-1))
  else if !is_valid then do
    let last ← rd h.elements (h.size - 1)
    let new_cpu := last.cpu
    let last ← rd h.elements (h.size - 1)
    let h ← set_dl h old_idx last.dl
    let h ← set_cpu h old_idx new_cpu
    let h := { h with size := h.size - 1 }
    let h ← set_idx h new_cpu old_idx
    let h ← set_idx h cpu IDX_INVALID
    let (h, old_idx) ← sift_up h old_idx
    let h ← max_heapify h old_idx
    pure (pthread_spin_unlock h, some (-1))
  else do
    let h ← if old_idx == IDX_INVALID then do
        let h := { h with size := h.size + 1 }
        let h ← set_dl h (h.size - 1) 0
        let h ← set_cpu h (h.size - 1) cpu
        let h ← set_idx h cpu (h.size - 1)
        heap_change_key h (h.size - 1) dline false
      else heap_change_key h old_idx dline true
    pure (pthread_spin_unlock h, none)

end Machine

/-! ## Array accessors: reads and writes inside the bounds -/

theorem rd_eq_getD {α : Type} (l : List α) (d : α) (i : Int) (h0 : 0 ≤ i)
    (h1 : i < l.length) : rd l i = some (l.getD i.toNat d) := by
  have h2 : i.toNat < l.length := by omega
  simp [rd, h0, List.getD, List.getElem?_eq_getElem h2]

theorem rd_eq_none_of_neg {α : Type} (l : List α) (i : Int) (h0 : i < 0) : rd l i = none := by
  simp [rd]; omega

theorem rd_some_bounds {α : Type} {l : List α} {i : Int} {v : α} (hr : rd l i = some v) :
    0 ≤ i ∧ i < l.length := by
  unfold rd at hr
  split at hr
  · rename_i h0
    have := (List.getElem?_eq_some_iff.mp hr).1
    omega
  · cases hr

theorem wr_eq_set {α : Type} (l : List α) (i : Int) (v : α) (h0 : 0 ≤ i)
    (h1 : i < l.length) : wr l i v = some (l.set i.toNat v) := by
  simp [wr, h0, h1]

theorem getD_set_int {α : Type} (l : List α) (d v : α) (i j : Int) (h0 : 0 ≤ i)
    (h1 : i < l.length) (hj : 0 ≤ j) :
    (l.set i.toNat v).getD j.toNat d = if j = i then v else l.getD j.toNat d := by
  have h2 : i.toNat < l.length := by omega
  by_cases hji : j = i
  · subst hji
    simp [List.getD, h2]
  · have hne : i.toNat ≠ j.toNat := by omega
    simp [List.getD, List.getElem?_set_ne hne, hji]

theorem rd_elements (h : array_heap_t) (i : Int) (h0 : 0 ≤ i) (h1 : i < h.elements.length) :
    rd h.elements i = some (el h i) := rd_eq_getD _ _ _ h0 h1

theorem rd_cpu_to_idx (h : array_heap_t) (p : Int) (h0 : 0 ≤ p)
    (h1 : p < h.cpu_to_idx.length) : rd h.cpu_to_idx p = some (ix h p) :=
  rd_eq_getD _ _ _ h0 h1

/-! ## The effect of `exchange` -/

theorem exchange_eq (h : array_heap_t) (a b : Int) (ha : 0 ≤ a) (ha' : a < h.elements.length)
    (hb : 0 ≤ b) (hb' : b < h.elements.length)
    (hca : 0 ≤ (el h a).cpu) (hca' : (el h a).cpu < h.cpu_to_idx.length)
    (hcb : 0 ≤ (el h b).cpu) (hcb' : (el h b).cpu < h.cpu_to_idx.length) :
    exchange h a b = some (xchg h a b) := by
  unfold exchange
  rw [rd_elements h a ha ha', rd_elements h b hb hb']
  simp only [Option.bind_eq_bind, Option.some_bind]
  rw [wr_eq_set _ _ _ hb hb']
  simp only [Option.some_bind]
  rw [wr_eq_set _ _ _ ha (by simpa using ha')]
  simp only [Option.some_bind]
  rw [rd_cpu_to_idx h _ hcb hcb', rd_cpu_to_idx h _ hca hca']
  simp only [Option.some_bind]
  rw [wr_eq_set _ _ _ hcb hcb']
  simp only [Option.some_bind]
  rw [wr_eq_set _ _ _ hca (by simpa using hca')]
  rfl

@[simp]
theorem xchg_size (h : array_heap_t) (a b : Int) : (xchg h a b).size = h.size := rfl

@[simp]
theorem xchg_lock (h : array_heap_t) (a b : Int) : (xchg h a b).lock = h.lock := rfl

@[simp]
theorem xchg_cmp_dl (h : array_heap_t) (a b : Int) :
    (xchg h a b).cmp_dl = h.cmp_dl := rfl

@[simp]
theorem xchg_len_el (h : array_heap_t) (a b : Int) :
    (xchg h a b).elements.length = h.elements.length := by simp [xchg]

@[simp]
theorem xchg_len_idx (h : array_heap_t) (a b : Int) :
    (xchg h a b).cpu_to_idx.length = h.cpu_to_idx.length := by simp [xchg]

theorem el_xchg (h : array_heap_t) (a b i : Int) (ha : 0 ≤ a) (ha' : a < h.elements.length)
    (hb : 0 ≤ b) (hb' : b < h.elements.length) (hi : 0 ≤ i) :
    el (xchg h a b) i = if i = a then el h b else if i = b then el h a else el h i := by
  unfold el xchg
  simp only
  rw [getD_set_int _ _ _ _ _ ha (by simpa using ha') hi,
    getD_set_int _ _ _ _ _ hb hb' hi]
  rfl

theorem ix_xchg (h : array_heap_t) (a b p : Int)
    (hca : 0 ≤ (el h a).cpu) (hca' : (el h a).cpu < h.cpu_to_idx.length)
    (hcb : 0 ≤ (el h b).cpu) (hcb' : (el h b).cpu < h.cpu_to_idx.length) (hp : 0 ≤ p) :
    ix (xchg h a b) p = if p = (el h a).cpu then ix h (el h b).cpu
      else if p = (el h b).cpu then ix h (el h a).cpu else ix h p := by
  unfold ix xchg
  simp only
  rw [getD_set_int _ _ _ _ _ hca (by simpa using hca') hp,
    getD_set_int _ _ _ _ _ hcb hcb' hp]
  rfl

/-! ## Consistency of the two arrays -/

theorem Consistent.xchg {nproc : Nat} {h : array_heap_t} (hc : Consistent nproc h)
    (a b : Int) (ha : 0 ≤ a) (ha' : a < h.size) (hb : 0 ≤ b) (hb' : b < h.size) :
    Consistent nproc (xchg h a b) ∧
      ∀ p, 0 ≤ p → p < (nproc : Int) → dl_of (xchg h a b) p = dl_of h p := by
  have hla := hc.len_el
  have hli := hc.len_idx
  have hsz := hc.size_le
  obtain ⟨a0, a1, a2⟩ := hc.cpu_ok a ha ha'
  obtain ⟨b0, b1, b2⟩ := hc.cpu_ok b hb hb'
  have hE : ∀ i, 0 ≤ i → el (ArrayHeap.xchg h a b) i =
      if i = a then el h b else if i = b then el h a else el h i :=
    fun i hi => el_xchg h a b i ha (by omega) hb (by omega) hi
  have hI : ∀ p, 0 ≤ p → ix (ArrayHeap.xchg h a b) p =
      if p = (el h a).cpu then ix h (el h b).cpu
      else if p = (el h b).cpu then ix h (el h a).cpu else ix h p :=
    fun p hp => ix_xchg h a b p a0 (by omega) b0 (by omega) hp
  have hcpu : ∀ i, 0 ≤ i → i < h.size →
      0 ≤ (el (ArrayHeap.xchg h a b) i).cpu ∧ (el (ArrayHeap.xchg h a b) i).cpu < nproc ∧
        ix (ArrayHeap.xchg h a b) (el (ArrayHeap.xchg h a b) i).cpu = i := by
    intro i i0 i1
    obtain ⟨c0, c1, c2⟩ := hc.cpu_ok i i0 i1
    rw [hE i i0]
    by_cases hia : i = a
    · subst hia
      simp only [if_true]
      refine ⟨b0, b1, ?_⟩
      rw [hI _ b0]
      by_cases hab : (el h b).cpu = (el h i).cpu
      · simp only [hab, if_true]; rw [← hab, b2, ← c2, ← hab, b2]
      · simp [hab, c2]
    · by_cases hib : i = b
      · subst hib
        simp only [hia, if_false, if_true]
        refine ⟨a0, a1, ?_⟩
        rw [hI _ a0]
        simp [b2]
      · simp only [hia, hib, if_false]
        refine ⟨c0, c1, ?_⟩
        rw [hI _ c0]
        have h1 : (el h i).cpu ≠ (el h a).cpu := by
          intro he; rw [he] at c2; omega
        have h2 : (el h i).cpu ≠ (el h b).cpu := by
          intro he; rw [he] at c2; omega
        simp [h1, h2, c2]
  refine ⟨⟨by simpa using hli, by simpa using hla, hc.size_nonneg, hsz, hcpu, ?_⟩, ?_⟩
  · intro p p0 p1
    rw [hI p p0, xchg_size]
    by_cases hpa : p = (el h a).cpu
    · right
      simp only [hpa, if_true, b2]
      refine ⟨hb, hb', ?_⟩
      rw [hE b hb]
      by_cases hba : b = a
      · simp [hba]
      · simp [hba]
    · by_cases hpb : p = (el h b).cpu
      · right
        rw [if_neg hpa, if_pos hpb, a2]
        refine ⟨ha, ha', ?_⟩
        rw [hE a ha]
        simp [hpb]
      · simp only [hpa, hpb, if_false]
        rcases hc.idx_ok p p0 p1 with hinv | ⟨q0, q1, q2⟩
        · exact Or.inl hinv
        · right
          refine ⟨q0, q1, ?_⟩
          rw [hE _ q0]
          have h1 : ix h p ≠ a := by
            intro he; rw [he] at q2; exact hpa q2.symm
          have h2 : ix h p ≠ b := by
            intro he; rw [he] at q2; exact hpb q2.symm
          simp [h1, h2, q2]
  · intro p p0 p1
    unfold dl_of
    rw [hI p p0]
    by_cases hpa : p = (el h a).cpu
    · simp only [hpa, if_true, b2, a2]
      have hb2 : b ≠ IDX_INVALID := by simp [IDX_INVALID]; omega
      have ha2 : a ≠ IDX_INVALID := by simp [IDX_INVALID]; omega
      rw [hE b hb]
      by_cases hba : b = a
      · simp [hba, ha2]
      · simp [hba, ha2, hb2]
    · by_cases hpb : p = (el h b).cpu
      · rw [if_neg hpa, if_pos hpb, a2, hpb, b2]
        have hb2 : b ≠ IDX_INVALID := by simp [IDX_INVALID]; omega
        have ha2 : a ≠ IDX_INVALID := by simp [IDX_INVALID]; omega
        rw [hE a ha]
        simp [ha2, hb2]
      · simp only [hpa, hpb, if_false]
        rcases hc.idx_ok p p0 p1 with hinv | ⟨q0, q1, q2⟩
        · simp [hinv]
        · have h1 : ix h p ≠ a := by
            intro he; rw [he] at q2; exact hpa q2.symm
          have h2 : ix h p ≠ b := by
            intro he; rw [he] at q2; exact hpb q2.symm
          rw [hE _ q0]
          simp [h1, h2]

theorem Same.rfl {nproc : Nat} {h : array_heap_t} (hc : Consistent nproc h) :
    Same nproc h h :=
  ⟨hc, Eq.refl _, Eq.refl _, Eq.refl _, fun _ _ _ => Eq.refl _⟩

theorem Same.trans {nproc : Nat} {h1 h2 h3 : array_heap_t} (h12 : Same nproc h1 h2)
    (h23 : Same nproc h2 h3) : Same nproc h1 h3 :=
  ⟨h23.cons, h23.size_eq.trans h12.size_eq, h23.lock_eq.trans h12.lock_eq,
    h23.cmp_eq.trans h12.cmp_eq, fun p p0 p1 => (h23.dl_eq p p0 p1).trans (h12.dl_eq p p0 p1)⟩

theorem Same.of_xchg {nproc : Nat} {h : array_heap_t} (hc : Consistent nproc h)
    (a b : Int) (ha : 0 ≤ a) (ha' : a < h.size) (hb : 0 ≤ b) (hb' : b < h.size) :
    Same nproc h (xchg h a b) :=
  ⟨(hc.xchg a b ha ha' hb hb').1, Eq.refl _, Eq.refl _, Eq.refl _,
    (hc.xchg a b ha ha' hb hb').2⟩

theorem Consistent.exchange_some {nproc : Nat} {h : array_heap_t} (hc : Consistent nproc h)
    (a b : Int) (ha : 0 ≤ a) (ha' : a < h.size) (hb : 0 ≤ b) (hb' : b < h.size) :
    exchange h a b = some (ArrayHeap.xchg h a b) := by
  have hla := hc.len_el
  have hli := hc.len_idx
  have hsz := hc.size_le
  obtain ⟨a0, a1, _⟩ := hc.cpu_ok a ha ha'
  obtain ⟨b0, b1, _⟩ := hc.cpu_ok b hb hb'
  exact ArrayHeap.exchange_eq h a b ha (by omega) hb (by omega) a0 (by omega) b0 (by omega)

/-! ## Index arithmetic -/

theorem parent_nonneg {i : Int} (hi : 1 ≤ i) : 0 ≤ parent i := by
  unfold parent; omega

theorem parent_lt {i : Int} (hi : 1 ≤ i) : parent i < i := by
  unfold parent; omega

theorem parent_left_child (i : Int) : parent (left_child i) = i := by
  unfold parent left_child; omega

theorem parent_right_child (i : Int) : parent (right_child i) = i := by
  unfold parent right_child; omega

theorem child_of_parent {c i : Int} (hp : parent c = i) :
    c = left_child i ∨ c = right_child i := by
  unfold parent at hp; unfold left_child right_child; omega

/-! ## One step of the sift-up loop and of `max_heapify` -/

theorem sift_up_fuel_step (h : array_heap_t)
    (fuel : Nat) (idx : Int) (h0 : 0 ≤ idx) (h1 : idx < h.elements.length) :
    sift_up_fuel (fuel + 1) h idx =
      if idx > 0 then
        if h.cmp_dl (el h (parent idx)).dl (el h idx).dl = true then
          (exchange h idx (parent idx)).bind fun h1 => sift_up_fuel fuel h1 (parent idx)
        else some (h, idx)
      else some (h, idx) := by
  conv_lhs => unfold sift_up_fuel
  by_cases hpos : idx > 0
  · have hp0 := parent_nonneg (i := idx) (by omega)
    have hp1 := parent_lt (i := idx) (by omega)
    rw [if_pos hpos, if_pos hpos, rd_elements h _ hp0 (by omega), rd_elements h _ h0 h1]
    rfl
  · rw [if_neg hpos, if_neg hpos]; rfl

theorem max_heapify_fuel_step {nproc : Nat} {h : array_heap_t} (hc : Consistent nproc h)
    (fuel : Nat) (idx : Int) (h0 : 0 ≤ idx) :
    max_heapify_fuel (fuel + 1) h idx =
      if largest_of h idx ≠ idx then
        (exchange h (largest_of h idx) idx).bind fun h1 =>
          max_heapify_fuel fuel h1 (largest_of h idx)
      else some h := by
  have hla := hc.len_el
  have hsz := hc.size_le
  conv_lhs => unfold max_heapify_fuel
  unfold largest_of
  simp only [Option.bind_eq_bind, Option.pure_def]
  by_cases hl : left_child idx < h.size
  · have hl0 : 0 ≤ left_child idx := by unfold left_child; omega
    have hidx : idx < h.size := by unfold left_child at hl; omega
    have rdi := rd_elements h idx h0 (by omega)
    have rdl := rd_elements h _ hl0 (by omega)
    by_cases hr : right_child idx < h.size
    · have hr0 : 0 ≤ right_child idx := by unfold right_child; omega
      have rdr := rd_elements h _ hr0 (by omega)
      by_cases c1 : h.cmp_dl (el h idx).dl (el h (left_child idx)).dl = true
      · by_cases c2 : h.cmp_dl (el h (left_child idx)).dl (el h (right_child idx)).dl = true
        · simp [hl, hr, rdi, rdl, rdr, c1, c2]
        · simp [hl, hr, rdi, rdl, rdr, c1, c2]
      · by_cases c2 : h.cmp_dl (el h idx).dl (el h (right_child idx)).dl = true
        · simp [hl, hr, rdi, rdl, rdr, c1, c2]
        · simp [hl, hr, rdi, rdl, rdr, c1, c2]
    · by_cases c1 : h.cmp_dl (el h idx).dl (el h (left_child idx)).dl = true
      · simp [hl, hr, rdi, rdl, c1]
      · simp [hl, hr, rdi, rdl, c1]
  · have hr : ¬ right_child idx < h.size := by unfold left_child at hl; unfold right_child; omega
    simp [hl, hr]

theorem largest_of_spec (h : array_heap_t) (idx : Int) :
    (largest_of h idx = idx ∧
      (left_child idx < h.size → h.cmp_dl (el h idx).dl (el h (left_child idx)).dl = false) ∧
      (right_child idx < h.size →
        h.cmp_dl (el h idx).dl (el h (right_child idx)).dl = false)) ∨
    (largest_of h idx = left_child idx ∧ left_child idx < h.size ∧
      h.cmp_dl (el h idx).dl (el h (left_child idx)).dl = true ∧
      (right_child idx < h.size →
        h.cmp_dl (el h (left_child idx)).dl (el h (right_child idx)).dl = false)) ∨
    (largest_of h idx = right_child idx ∧ right_child idx < h.size ∧
      ((h.cmp_dl (el h idx).dl (el h (left_child idx)).dl = true ∧
        h.cmp_dl (el h (left_child idx)).dl (el h (right_child idx)).dl = true) ∨
       (h.cmp_dl (el h idx).dl (el h (left_child idx)).dl = false ∧
        h.cmp_dl (el h idx).dl (el h (right_child idx)).dl = true))) := by
  have hlr : right_child idx < h.size → left_child idx < h.size := by
    unfold left_child right_child; omega
  unfold largest_of
  by_cases hl : left_child idx < h.size
  · by_cases c1 : h.cmp_dl (el h idx).dl (el h (left_child idx)).dl = true
    · by_cases hr : right_child idx < h.size
      · by_cases c2 : h.cmp_dl (el h (left_child idx)).dl (el h (right_child idx)).dl = true
        · right; right; simp [hl, hr, c1, c2]
        · right; left; simp [hl, hr, c1, c2]
      · right; left; simp [hl, hr, c1]
    · by_cases hr : right_child idx < h.size
      · by_cases c2 : h.cmp_dl (el h idx).dl (el h (right_child idx)).dl = true
        · right; right; simp [hl, hr, c1, c2]
        · left; simp [hl, hr, c1, c2]
      · left; simp [hl, hr, c1]
  · have hr : ¬ right_child idx < h.size := fun hr => hl (hlr hr)
    left; simp [hl, hr]

theorem largest_of_bounds (h : array_heap_t) (idx : Int) (h0 : 0 ≤ idx)
    (hne : largest_of h idx ≠ idx) :
    idx < largest_of h idx ∧ largest_of h idx < h.size ∧ parent (largest_of h idx) = idx := by
  rcases largest_of_spec h idx with ⟨e, _⟩ | ⟨e, hl, _⟩ | ⟨e, hr, _⟩
  · exact absurd e hne
  · rw [e]; exact ⟨by unfold left_child; omega, hl, parent_left_child idx⟩
  · rw [e]; exact ⟨by unfold right_child; omega, hr, parent_right_child idx⟩

/-! ## The sift-up loop and `max_heapify` keep the arrays consistent -/

theorem sift_up_fuel_same {nproc : Nat} :
    ∀ (fuel : Nat) (h : array_heap_t) (idx : Int), Consistent nproc h → 0 ≤ idx →
      idx < h.size → idx < (fuel : Int) →
      ∃ h' idx', sift_up_fuel fuel h idx = some (h', idx') ∧ Same nproc h h' ∧
        0 ≤ idx' ∧ idx' ≤ idx := by
  intro fuel
  induction fuel with
  | zero => intro h idx _ h0 _ hf; exact absurd hf (by omega)
  | succ n ih =>
    intro h idx hc h0 h1 hf
    have hla := hc.len_el
    have hsz := hc.size_le
    rw [sift_up_fuel_step h n idx h0 (by omega)]
    by_cases hpos : idx > 0
    · rw [if_pos hpos]
      by_cases c : h.cmp_dl (el h (parent idx)).dl (el h idx).dl = true
      · have hp0 := parent_nonneg (i := idx) (by omega)
        have hp1 := parent_lt (i := idx) (by omega)
        rw [if_pos c, hc.exchange_some idx (parent idx) h0 h1 hp0 (by omega)]
        have hs := Same.of_xchg hc idx (parent idx) h0 h1 hp0 (by omega)
        obtain ⟨h', idx', e, s', i0, i1⟩ :=
          ih (xchg h idx (parent idx)) (parent idx) hs.cons hp0 (by simp; omega)
            (by push_cast at hf ⊢; omega)
        exact ⟨h', idx', e, hs.trans s', i0, by omega⟩
      · rw [if_neg c]
        exact ⟨h, idx, Eq.refl _, Same.rfl hc, h0, le_refl _⟩
    · rw [if_neg hpos]
      exact ⟨h, idx, Eq.refl _, Same.rfl hc, h0, le_refl _⟩

theorem max_heapify_fuel_same {nproc : Nat} :
    ∀ (fuel : Nat) (h : array_heap_t) (idx : Int), Consistent nproc h → 0 ≤ idx →
      0 < fuel → h.size - idx < (fuel : Int) →
      ∃ h', max_heapify_fuel fuel h idx = some h' ∧ Same nproc h h' := by
  intro fuel
  induction fuel with
  | zero => intro h idx _ _ hf _; exact absurd hf (by omega)
  | succ n ih =>
    intro h idx hc h0 _ hf
    rw [max_heapify_fuel_step hc n idx h0]
    by_cases hne : largest_of h idx ≠ idx
    · obtain ⟨b0, b1, _⟩ := largest_of_bounds h idx h0 hne
      rw [if_pos hne, hc.exchange_some (largest_of h idx) idx (by omega) b1 h0 (by omega)]
      have hs := Same.of_xchg hc (largest_of h idx) idx (by omega) b1 h0 (by omega)
      obtain ⟨h', e, s'⟩ :=
        ih (xchg h (largest_of h idx) idx) (largest_of h idx) hs.cons (by omega)
          (by push_cast at hf; omega) (by simp; push_cast at hf; omega)
      exact ⟨h', e, hs.trans s'⟩
    · rw [if_neg hne]
      exact ⟨h, Eq.refl _, Same.rfl hc⟩

/-! ## The heap order -/

theorem StrictWeakOrder.asymm {cmp : Nat → Nat → Bool} (hs : StrictWeakOrder cmp)
    {a b : Nat} (hab : cmp a b = true) : cmp b a = false := by
  cases hba : cmp b a with
  | false => rfl
  | true =>
    have := hs.trans a b a hab hba
    rw [hs.irrefl a] at this
    cases this

theorem StrictWeakOrder.neg_trans {cmp : Nat → Nat → Bool} (hs : StrictWeakOrder cmp)
    {a b c : Nat} (hab : cmp a b = false) (hbc : cmp b c = false) : cmp a c = false := by
  cases hac : cmp a c with
  | false => rfl
  | true =>
    have hba : cmp b a = false := by
      cases hba : cmp b a with
      | false => rfl
      | true => rw [hs.trans b a c hba hac] at hbc; cases hbc
    have hcb : cmp c b = false := by
      cases hcb : cmp c b with
      | false => rfl
      | true => rw [hs.trans a c b hac hcb] at hab; cases hab
    have := (hs.incomp_trans a b c hab hba hbc hcb).1
    rw [hac] at this
    cases this

theorem StrictWeakOrder.not_of_lt {cmp : Nat → Nat → Bool} (hs : StrictWeakOrder cmp)
    {a b c : Nat} (hab : cmp a b = true) (hac : cmp a c = false) : cmp b c = false := by
  cases hbc : cmp b c with
  | false => rfl
  | true => rw [hs.trans a b c hab hbc] at hac; cases hac

theorem UpOnly.heapExcept {h : array_heap_t} {idx : Int} (hu : UpOnly h idx) :
    HeapExcept h idx :=
  ⟨fun i i0 i1 hne _ => hu.1 i i0 i1 hne, hu.2⟩

theorem Heap.downOnly {h : array_heap_t} (hs : StrictWeakOrder h.cmp_dl) (hh : Heap h)
    (idx : Int) : DownOnly h idx := by
  refine ⟨fun i i0 i1 _ => hh i i0 i1, ?_⟩
  intro h1 c c1 hpc
  have hc3 : idx < c := by unfold parent at hpc; omega
  exact hs.neg_trans (hh idx h1 (by omega)) (by have := hh c (by omega) c1; rwa [EdgeOK, hpc] at this)

theorem xchg_upOnly {nproc : Nat} {h : array_heap_t} (hs : StrictWeakOrder h.cmp_dl)
    (hc : Consistent nproc h) (idx : Int) (h1 : 1 ≤ idx) (h2 : idx < h.size)
    (he : HeapExcept h idx) (c : h.cmp_dl (el h (parent idx)).dl (el h idx).dl = true) :
    UpOnly (xchg h idx (parent idx)) (parent idx) := by
  have hla := hc.len_el
  have hsz := hc.size_le
  have hp0 := parent_nonneg h1
  have hp1 := parent_lt h1
  have hE : ∀ i, 0 ≤ i → el (xchg h idx (parent idx)) i =
      if i = idx then el h (parent idx) else if i = parent idx then el h idx else el h i :=
    fun i hi => el_xchg h idx (parent idx) i (by omega) (by omega) hp0 (by omega) hi
  constructor
  · intro i i0 i1 hij
    have hpi0 := parent_nonneg i0
    have hpi1 := parent_lt i0
    simp only [xchg_size] at i1
    unfold EdgeOK
    rw [xchg_cmp_dl, hE i (by omega), hE _ hpi0]
    by_cases hi : i = idx
    · subst hi
      have hne : parent i ≠ i := by omega
      simp only [if_true, hne, if_false]
      exact hs.asymm c
    · rw [if_neg hi, if_neg hij]
      by_cases hpi : parent i = idx
      · rw [if_pos hpi]
        have := he.2 h1 i i1 hpi
        exact this
      · rw [if_neg hpi]
        by_cases hpj : parent i = parent idx
        · rw [if_pos hpj]
          have e1 := he.1 i i0 i1 hi hpi
          unfold EdgeOK at e1
          rw [hpj] at e1
          exact hs.not_of_lt c e1
        · rw [if_neg hpj]
          exact he.1 i i0 i1 hi hpi
  · intro j1 c' c1 hpc
    simp only [xchg_size] at c1
    have hc0 : parent idx < c' := by unfold parent at hpc ⊢; omega
    have hppj := parent_lt j1
    have hppj0 := parent_nonneg j1
    rw [xchg_cmp_dl, hE c' (by omega), hE _ hppj0]
    have n1 : parent (parent idx) ≠ idx := by omega
    have n2 : parent (parent idx) ≠ parent idx := by omega
    have n3 : c' ≠ parent idx := by omega
    have ej := he.1 (parent idx) j1 (by omega) (by omega) n1
    unfold EdgeOK at ej
    rw [if_neg n1, if_neg n2]
    by_cases hci : c' = idx
    · rw [if_pos hci]; exact ej
    · rw [if_neg hci, if_neg n3]
      have ec := he.1 c' (by omega) c1 hci (by omega)
      unfold EdgeOK at ec
      rw [hpc] at ec
      exact hs.neg_trans ej ec

theorem sift_up_fuel_heap {nproc : Nat} :
    ∀ (fuel : Nat) (h : array_heap_t) (idx : Int) (h' : array_heap_t) (idx' : Int),
      StrictWeakOrder h.cmp_dl → Consistent nproc h → 0 ≤ idx → idx < h.size →
      UpOnly h idx → sift_up_fuel fuel h idx = some (h', idx') → Heap h' := by
  intro fuel
  induction fuel with
  | zero => intro h idx h' idx' _ _ _ _ _ e; simp [sift_up_fuel] at e
  | succ n ih =>
    intro h idx h' idx' hs hc h0 h1 hu e
    have hla := hc.len_el
    have hsz := hc.size_le
    rw [sift_up_fuel_step h n idx h0 (by omega)] at e
    by_cases hpos : idx > 0
    · rw [if_pos hpos] at e
      by_cases c : h.cmp_dl (el h (parent idx)).dl (el h idx).dl = true
      · have hp0 := parent_nonneg (i := idx) (by omega)
        have hp1 := parent_lt (i := idx) (by omega)
        rw [if_pos c, hc.exchange_some idx (parent idx) h0 h1 hp0 (by omega)] at e
        have hs1 := Same.of_xchg hc idx (parent idx) h0 h1 hp0 (by omega)
        exact ih (xchg h idx (parent idx)) (parent idx) h' idx' hs hs1.cons hp0
          (by simp; omega) (xchg_upOnly hs hc idx (by omega) h1 hu.heapExcept c) e
      · rw [if_neg c] at e
        simp only [Option.some.injEq, Prod.mk.injEq] at e
        rw [← e.1]
        intro i i0 i1
        by_cases hi : i = idx
        · subst hi; simpa [EdgeOK] using c
        · exact hu.1 i i0 i1 hi
    · rw [if_neg hpos] at e
      simp only [Option.some.injEq, Prod.mk.injEq] at e
      rw [← e.1]
      intro i i0 i1
      exact hu.1 i i0 i1 (by omega)

theorem sift_up_fuel_heap_except {nproc : Nat} (fuel : Nat) (h : array_heap_t) (idx : Int)
    (h' : array_heap_t) (idx' : Int) (hs : StrictWeakOrder h.cmp_dl)
    (hc : Consistent nproc h) (h0 : 0 ≤ idx) (h1 : idx < h.size) (he : HeapExcept h idx)
    (e : sift_up_fuel fuel h idx = some (h', idx')) :
    (h' = h ∧ idx' = idx ∧ (1 ≤ idx → EdgeOK h idx)) ∨ Heap h' := by
  cases fuel with
  | zero => simp [sift_up_fuel] at e
  | succ n =>
    have hla := hc.len_el
    have hsz := hc.size_le
    rw [sift_up_fuel_step h n idx h0 (by omega)] at e
    by_cases hpos : idx > 0
    · rw [if_pos hpos] at e
      by_cases c : h.cmp_dl (el h (parent idx)).dl (el h idx).dl = true
      · have hp0 := parent_nonneg (i := idx) (by omega)
        have hp1 := parent_lt (i := idx) (by omega)
        rw [if_pos c, hc.exchange_some idx (parent idx) h0 h1 hp0 (by omega)] at e
        have hs1 := Same.of_xchg hc idx (parent idx) h0 h1 hp0 (by omega)
        right
        exact sift_up_fuel_heap n (xchg h idx (parent idx)) (parent idx) h' idx' hs hs1.cons
          hp0 (by simp; omega) (xchg_upOnly hs hc idx (by omega) h1 he c) e
      · rw [if_neg c] at e
        simp only [Option.some.injEq, Prod.mk.injEq] at e
        left
        exact ⟨e.1.symm, e.2.symm, fun _ => by simpa [EdgeOK] using c⟩
    · rw [if_neg hpos] at e
      simp only [Option.some.injEq, Prod.mk.injEq] at e
      left
      exact ⟨e.1.symm, e.2.symm, fun h1 => absurd h1 (by omega)⟩

theorem xchg_downOnly {nproc : Nat} {h : array_heap_t} (hs : StrictWeakOrder h.cmp_dl)
    (hc : Consistent nproc h) (idx : Int) (h0 : 0 ≤ idx) (hd : DownOnly h idx)
    (hne : largest_of h idx ≠ idx) :
    DownOnly (xchg h (largest_of h idx) idx) (largest_of h idx) := by
  have hla := hc.len_el
  have hsz := hc.size_le
  obtain ⟨b0, b1, b2⟩ := largest_of_bounds h idx h0 hne
  have hE : ∀ i, 0 ≤ i → el (xchg h (largest_of h idx) idx) i =
      if i = largest_of h idx then el h idx
      else if i = idx then el h (largest_of h idx) else el h i :=
    fun i hi => el_xchg h (largest_of h idx) idx i (by omega) (by omega) h0 (by omega) hi
  have hspec := largest_of_spec h idx
  have hlr : left_child idx ≠ right_child idx := by unfold left_child right_child; omega
  -- the entry moved up is beaten neither by the entry moved down nor by its sibling
  have key1 : h.cmp_dl (el h (largest_of h idx)).dl (el h idx).dl = false := by
    rcases hspec with ⟨e, _⟩ | ⟨e, _, c1, _⟩ | ⟨e, _, ⟨c1, c2⟩ | ⟨_, c2⟩⟩
    · exact absurd e hne
    · rw [e]; exact hs.asymm c1
    · rw [e]; exact hs.asymm (hs.trans _ _ _ c1 c2)
    · rw [e]; exact hs.asymm c2
  have key2 : ∀ i, i < h.size → parent i = idx → i ≠ largest_of h idx →
      h.cmp_dl (el h (largest_of h idx)).dl (el h i).dl = false := by
    intro i i1 hpi hil
    rcases child_of_parent hpi with hi | hi
    · rcases hspec with ⟨e, _⟩ | ⟨e, _, _, _⟩ | ⟨e, _, ⟨_, c2⟩ | ⟨c1, c2⟩⟩
      · exact absurd e hne
      · exact absurd (hi.trans e.symm) hil
      · rw [e, hi]; exact hs.asymm c2
      · rw [e, hi]; exact hs.not_of_lt c2 c1
    · rcases hspec with ⟨e, _⟩ | ⟨e, _, _, c2⟩ | ⟨e, _, _⟩
      · exact absurd e hne
      · rw [e, hi]; exact c2 (hi ▸ i1)
      · exact absurd (hi.trans e.symm) hil
  constructor
  · intro i i0 i1 hpl
    have hpi0 := parent_nonneg i0
    have hpi1 := parent_lt i0
    simp only [xchg_size] at i1
    unfold EdgeOK
    rw [xchg_cmp_dl, hE i (by omega), hE _ hpi0, if_neg hpl]
    by_cases hil : i = largest_of h idx
    · rw [if_pos hil, hil, b2, if_pos (Eq.refl idx)]
      exact key1
    · rw [if_neg hil]
      by_cases hi : i = idx
      · subst hi
        have n1 : parent i ≠ i := by omega
        rw [if_pos (Eq.refl i), if_neg n1]
        exact hd.2 i0 _ b1 b2
      · rw [if_neg hi]
        by_cases hpi : parent i = idx
        · rw [if_pos hpi]
          exact key2 i i1 hpi hil
        · rw [if_neg hpi]
          exact hd.1 i i0 i1 hpi
  · intro l1 c c1 hpc
    simp only [xchg_size] at c1
    have hc0 : largest_of h idx < c := by unfold parent at hpc; omega
    rw [xchg_cmp_dl, hE c (by omega), hE _ (parent_nonneg l1), b2]
    have n1 : idx ≠ largest_of h idx := by omega
    have n2 : c ≠ largest_of h idx := by omega
    have n3 : c ≠ idx := by omega
    rw [if_neg n1, if_pos (Eq.refl idx), if_neg n2, if_neg n3]
    have ec := hd.1 c (by omega) c1 (by omega)
    unfold EdgeOK at ec
    rwa [hpc] at ec

theorem max_heapify_fuel_heap {nproc : Nat} :
    ∀ (fuel : Nat) (h : array_heap_t) (idx : Int) (h' : array_heap_t),
      StrictWeakOrder h.cmp_dl → Consistent nproc h → 0 ≤ idx →
      DownOnly h idx → max_heapify_fuel fuel h idx = some h' → Heap h' := by
  intro fuel
  induction fuel with
  | zero => intro h idx h' _ _ _ _ e; simp [max_heapify_fuel] at e
  | succ n ih =>
    intro h idx h' hs hc h0 hd e
    rw [max_heapify_fuel_step hc n idx h0] at e
    by_cases hne : largest_of h idx ≠ idx
    · obtain ⟨b0, b1, _⟩ := largest_of_bounds h idx h0 hne
      rw [if_pos hne, hc.exchange_some (largest_of h idx) idx (by omega) b1 h0 (by omega)] at e
      have hs1 := Same.of_xchg hc (largest_of h idx) idx (by omega) b1 h0 (by omega)
      exact ih (xchg h (largest_of h idx) idx) (largest_of h idx) h' hs hs1.cons (by omega)
        (xchg_downOnly hs hc idx h0 hd hne) e
    · rw [if_neg hne] at e
      simp only [Option.some.injEq] at e
      rw [← e]
      intro i i0 i1
      by_cases hpi : parent i = idx
      · unfold EdgeOK
        rw [hpi]
        rcases largest_of_spec h idx with ⟨_, cl, cr⟩ | ⟨e', _, _, _⟩ | ⟨e', _, _⟩
        · rcases child_of_parent hpi with hi | hi
          · rw [hi]; exact cl (hi ▸ i1)
          · rw [hi]; exact cr (hi ▸ i1)
        · exact absurd e' (by
            have : largest_of h idx = idx := not_not.mp hne
            rw [this]; unfold left_child; omega)
        · exact absurd e' (by
            have : largest_of h idx = idx := not_not.mp hne
            rw [this]; unfold right_child; omega)
      · exact hd.1 i i0 i1 hpi

/-! ## Capacity -/

theorem Consistent.size_lt_of_absent {nproc : Nat} {h : array_heap_t}
    (hc : Consistent nproc h) (p : Int) (p0 : 0 ≤ p) (p1 : p < (nproc : Int))
    (hp : ix h p = IDX_INVALID) : h.size < (nproc : Int) := by
  by_contra hge
  have hsz : h.size = (nproc : Int) := le_antisymm hc.size_le (not_lt.mp hge)
  have hcard : (Finset.range nproc).card ≤ ((Finset.range nproc).erase p.toNat).card := by
    apply Finset.card_le_card_of_injOn (fun i : Nat => (el h (i : Int)).cpu.toNat)
    · intro i hi
      have hi' : i < nproc := Finset.mem_range.mp hi
      obtain ⟨c0, c1, c2⟩ := hc.cpu_ok (i : Int) (by omega) (by omega)
      refine Finset.mem_erase.mpr ⟨?_, Finset.mem_range.mpr (by omega)⟩
      intro he
      have : (el h (i : Int)).cpu = p := by omega
      rw [this, hp] at c2
      simp only [IDX_INVALID] at c2
      omega
    · intro i hi j hj hij
      have hi' : i < nproc := Finset.mem_range.mp (Finset.mem_coe.mp hi)
      have hj' : j < nproc := Finset.mem_range.mp (Finset.mem_coe.mp hj)
      obtain ⟨c0, _, c2⟩ := hc.cpu_ok (i : Int) (by omega) (by omega)
      obtain ⟨d0, _, d2⟩ := hc.cpu_ok (j : Int) (by omega) (by omega)
      have hij' : (el h (i : Int)).cpu.toNat = (el h (j : Int)).cpu.toNat := hij
      have : (el h (i : Int)).cpu = (el h (j : Int)).cpu := by omega
      rw [this, d2] at c2
      omega
  have hmem : p.toNat ∈ Finset.range nproc := Finset.mem_range.mpr (by omega)
  rw [Finset.card_erase_of_mem hmem, Finset.card_range] at hcard
  omega

/-! ## Reads of cells inside the bounds and of cells just written -/

theorem rd_in_bounds {α : Type} [Inhabited α] (l : List α) (i : Int) (h0 : 0 ≤ i)
    (h1 : i < l.length) : rd l i = some (l.getD i.toNat default) :=
  rd_eq_getD l default i h0 h1

theorem rd_set_same {α : Type} (l : List α) (i : Int) (v : α) (h0 : 0 ≤ i)
    (h1 : i < l.length) : rd (l.set i.toNat v) i = some v := by
  have h2 : i.toNat < l.length := by omega
  simp [rd, h0, h2]

/-! ## The insertion path of `heap_set` -/

theorem heap_set_insert_eq {nproc : Nat} {h : array_heap_t} (hc : Consistent nproc h)
    (p : Int) (p0 : 0 ≤ p) (p1 : p < (nproc : Int)) (hp : ix h p = IDX_INVALID) (d : Nat) :
    heap_set h p d true =
      (sift_up (ins_state h p d) h.size).bind fun r => some (pthread_spin_unlock r.1, none) := by
  have hla := hc.len_el
  have hli := hc.len_idx
  have hs0 := hc.size_nonneg
  have hs1 := hc.size_lt_of_absent p p0 p1 hp
  have hlt : h.size < (h.elements.length : Int) := by omega
  have hpl : p < (h.cpu_to_idx.length : Int) := by omega
  have r1 : rd h.cpu_to_idx p = some IDX_INVALID := by
    rw [← hp]; exact rd_cpu_to_idx h p p0 (by omega)
  simp [heap_set, heap_change_key, set_dl, set_cpu, set_idx, pthread_spin_lock, r1,
    rd_set_same, rd_in_bounds, wr_eq_set, hs0, hlt, p0, hpl, ins_state]
  simp only [Option.bind_assoc, Option.some_bind]

/-! ## The update path of `heap_set` -/

theorem heap_set_update_eq {nproc : Nat} {h : array_heap_t} (hc : Consistent nproc h)
    (p : Int) (p0 : 0 ≤ p) (p1 : p < (nproc : Int)) (hp : ix h p ≠ IDX_INVALID) (d : Nat) :
    heap_set h p d true =
      (if h.cmp_dl d (el h (ix h p)).dl = true then
          max_heapify (upd_state h (ix h p) d) (ix h p)
        else (sift_up (upd_state h (ix h p) d) (ix h p)).bind fun r => some r.1).bind
        fun h' => some (pthread_spin_unlock h', none) := by
  have hla := hc.len_el
  have hli := hc.len_idx
  have hsz := hc.size_le
  have hpl : p < (h.cpu_to_idx.length : Int) := by omega
  have r1 : rd h.cpu_to_idx p = some (ix h p) := rd_cpu_to_idx h p p0 hpl
  obtain ⟨q0, q1, q2⟩ := (hc.idx_ok p p0 p1).resolve_left hp
  have hlt : ix h p < (h.elements.length : Int) := by omega
  have hbeq : (ix h p == IDX_INVALID) = false := by simpa using hp
  have r2 : rd h.elements (ix h p) = some (el h (ix h p)) := rd_elements h _ q0 hlt
  simp [heap_set, heap_change_key, set_dl, pthread_spin_lock, r1, r2, hbeq, hp,
    wr_eq_set, q0, hlt, upd_state]

/-! ## The removal path of `heap_set` -/

theorem heap_set_remove_eq {nproc : Nat} {h : array_heap_t} (hc : Consistent nproc h)
    (p : Int) (p0 : 0 ≤ p) (p1 : p < (nproc : Int)) (hp : ix h p ≠ IDX_INVALID) (d : Nat) :
    heap_set h p d false =
      (sift_up (rem_state h p) (ix h p)).bind fun r =>
        (max_heapify r.1 r.2).bind fun h' => some (pthread_spin_unlock h', some (-1)) := by
  have hla := hc.len_el
  have hli := hc.len_idx
  have hsz := hc.size_le
  have hpl : p < (h.cpu_to_idx.length : Int) := by omega
  have r1 : rd h.cpu_to_idx p = some (ix h p) := rd_cpu_to_idx h p p0 hpl
  obtain ⟨q0, q1, q2⟩ := (hc.idx_ok p p0 p1).resolve_left hp
  have hlt : ix h p < (h.elements.length : Int) := by omega
  have hbeq : (ix h p == IDX_INVALID) = false := by simpa using hp
  have l0 : 0 ≤ h.size - 1 := by omega
  have l1 : h.size - 1 < (h.elements.length : Int) := by omega
  obtain ⟨c0, c1, c2⟩ := hc.cpu_ok (h.size - 1) l0 (by omega)
  have c1' : (el h (h.size - 1)).cpu < (h.cpu_to_idx.length : Int) := by omega
  have r2 : rd h.elements (h.size - 1) = some (el h (h.size - 1)) := rd_elements h _ l0 l1
  simp [heap_set, set_dl, set_cpu, set_idx, pthread_spin_lock, r1, r2, hbeq, hp,
    rd_set_same, rd_in_bounds, wr_eq_set, q0, hlt, c0, c1', p0, hpl, rem_state]

/-! ## Releasing the lock changes nothing else -/

theorem Consistent.unlock {nproc : Nat} {h : array_heap_t} (hc : Consistent nproc h) :
    Consistent nproc (pthread_spin_unlock h) :=
  ⟨hc.len_idx, hc.len_el, hc.size_nonneg, hc.size_le, hc.cpu_ok, hc.idx_ok⟩

theorem Heap.unlocked {h : array_heap_t} (hh : Heap h) : Heap (pthread_spin_unlock h) := hh

theorem dl_of_unlock (h : array_heap_t) (p : Int) :
    dl_of (pthread_spin_unlock h) p = dl_of h p := rfl

/-! ## The state before the sift-up of an insertion -/

theorem el_ins_state (h : array_heap_t) (p : Int) (d : Nat) (i : Int) (hs0 : 0 ≤ h.size)
    (hs1 : h.size < h.elements.length) (hi : 0 ≤ i) :
    el (ins_state h p d) i = if i = h.size then { dl := d, cpu := p } else el h i := by
  unfold el ins_state
  exact getD_set_int _ _ _ _ _ hs0 hs1 hi

theorem ix_ins_state (h : array_heap_t) (p : Int) (d : Nat) (q : Int) (p0 : 0 ≤ p)
    (p1 : p < h.cpu_to_idx.length) (hq : 0 ≤ q) :
    ix (ins_state h p d) q = if q = p then h.size else ix h q := by
  unfold ix ins_state
  exact getD_set_int _ _ _ _ _ p0 p1 hq

theorem Consistent.ins_state {nproc : Nat} {h : array_heap_t} (hc : Consistent nproc h)
    (p : Int) (p0 : 0 ≤ p) (p1 : p < (nproc : Int)) (hp : ix h p = IDX_INVALID) (d : Nat) :
    Consistent nproc (ins_state h p d) ∧
      (∀ q, 0 ≤ q → q < (nproc : Int) →
        dl_of (ins_state h p d) q = if q = p then some d else dl_of h q) ∧
      (Heap h → UpOnly (ins_state h p d) h.size) := by
  have hla := hc.len_el
  have hli := hc.len_idx
  have hs0 := hc.size_nonneg
  have hs1 := hc.size_lt_of_absent p p0 p1 hp
  have hE : ∀ i, 0 ≤ i → el (ArrayHeap.ins_state h p d) i =
      if i = h.size then { dl := d, cpu := p } else el h i :=
    fun i hi => el_ins_state h p d i hs0 (by omega) hi
  have hI : ∀ q, 0 ≤ q → ix (ArrayHeap.ins_state h p d) q = if q = p then h.size else ix h q :=
    fun q hq => ix_ins_state h p d q p0 (by omega) hq
  have hsize : (ArrayHeap.ins_state h p d).size = h.size + 1 := rfl
  have hinv : ∀ q, ix h q = IDX_INVALID → ¬ (0 ≤ ix h q) := by
    intro q hq; rw [hq]; simp [IDX_INVALID]
  refine ⟨⟨by simpa [ArrayHeap.ins_state] using hli, by simpa [ArrayHeap.ins_state] using hla,
    by rw [hsize]; omega, by rw [hsize]; omega, ?_, ?_⟩, ?_, ?_⟩
  · intro i i0 i1
    rw [hsize] at i1
    rw [hE i i0]
    by_cases hi : i = h.size
    · rw [if_pos hi]
      refine ⟨p0, p1, ?_⟩
      rw [hI p p0, if_pos (Eq.refl p), hi]
    · rw [if_neg hi]
      obtain ⟨c0, c1, c2⟩ := hc.cpu_ok i i0 (by omega)
      refine ⟨c0, c1, ?_⟩
      have hne : (el h i).cpu ≠ p := by
        intro he; rw [he] at c2; exact hinv p hp (by omega)
      rw [hI _ c0, if_neg hne, c2]
  · intro q q0 q1
    rw [hI q q0, hsize]
    by_cases hq : q = p
    · right
      rw [if_pos hq, hE _ hs0, if_pos (Eq.refl _)]
      exact ⟨hs0, by omega, hq.symm⟩
    · rw [if_neg hq]
      rcases hc.idx_ok q q0 q1 with hi | ⟨a0, a1, a2⟩
      · exact Or.inl hi
      · right
        have hne : ix h q ≠ h.size := by omega
        rw [hE _ a0, if_neg hne]
        exact ⟨a0, by omega, a2⟩
  · intro q q0 q1
    unfold dl_of
    rw [hI q q0]
    by_cases hq : q = p
    · have hne : h.size ≠ IDX_INVALID := by simp only [IDX_INVALID]; omega
      rw [if_pos hq, if_neg hne, hE _ hs0, if_pos (Eq.refl _), if_pos hq]
    · rw [if_neg hq, if_neg hq]
      by_cases hi : ix h q = IDX_INVALID
      · rw [if_pos hi, if_pos hi]
      · rw [if_neg hi, if_neg hi]
        obtain ⟨a0, a1, _⟩ := (hc.idx_ok q q0 q1).resolve_left hi
        have hne : ix h q ≠ h.size := by omega
        rw [hE _ a0, if_neg hne]
  · intro hh
    constructor
    · intro i i0 i1 hne
      rw [hsize] at i1
      have hpi0 := parent_nonneg i0
      have hpi1 := parent_lt i0
      unfold EdgeOK
      have n1 : parent i ≠ h.size := by omega
      rw [hE i (by omega), hE _ hpi0, if_neg hne, if_neg n1]
      exact hh i i0 (by omega)
    · intro h1 c c1 hpc
      rw [hsize] at c1
      exfalso
      unfold parent at hpc
      omega

/-! ## The state after the write of an update -/

theorem el_upd_state (h : array_heap_t) (idx : Int) (d : Nat) (i : Int) (h0 : 0 ≤ idx)
    (h1 : idx < h.elements.length) (hi : 0 ≤ i) :
    el (upd_state h idx d) i =
      if i = idx then { dl := d, cpu := (el h idx).cpu } else el h i := by
  unfold upd_state
  show List.getD _ _ _ = _
  exact getD_set_int _ _ _ _ _ h0 h1 hi

theorem ix_upd_state (h : array_heap_t) (idx : Int) (d : Nat) (q : Int) :
    ix (upd_state h idx d) q = ix h q := rfl

theorem Consistent.upd_state {nproc : Nat} {h : array_heap_t} (hc : Consistent nproc h)
    (p : Int) (p0 : 0 ≤ p) (p1 : p < (nproc : Int)) (hp : ix h p ≠ IDX_INVALID) (d : Nat) :
    Consistent nproc (upd_state h (ix h p) d) ∧
      (∀ q, 0 ≤ q → q < (nproc : Int) →
        dl_of (upd_state h (ix h p) d) q = if q = p then some d else dl_of h q) ∧
      (StrictWeakOrder h.cmp_dl → Heap h →
        (h.cmp_dl d (el h (ix h p)).dl = true → DownOnly (upd_state h (ix h p) d) (ix h p)) ∧
        (h.cmp_dl d (el h (ix h p)).dl = false → UpOnly (upd_state h (ix h p) d) (ix h p))) := by
  have hla := hc.len_el
  have hli := hc.len_idx
  have hsz := hc.size_le
  obtain ⟨x0, x1, x2⟩ := (hc.idx_ok p p0 p1).resolve_left hp
  have hE : ∀ i, 0 ≤ i → el (ArrayHeap.upd_state h (ix h p) d) i =
      if i = ix h p then { dl := d, cpu := (el h (ix h p)).cpu } else el h i :=
    fun i hi => el_upd_state h (ix h p) d i x0 (by omega) hi
  have hcpu : ∀ i, 0 ≤ i → (el (ArrayHeap.upd_state h (ix h p) d) i).cpu = (el h i).cpu := by
    intro i hi
    rw [hE i hi]
    by_cases he : i = ix h p
    · rw [if_pos he, he]
    · rw [if_neg he]
  refine ⟨⟨by simpa [ArrayHeap.upd_state] using hli, by simpa [ArrayHeap.upd_state] using hla,
    hc.size_nonneg, hsz, ?_, ?_⟩, ?_, ?_⟩
  · intro i i0 i1
    rw [hcpu i i0]
    exact hc.cpu_ok i i0 i1
  · intro q q0 q1
    rcases hc.idx_ok q q0 q1 with hi | ⟨a0, a1, a2⟩
    · exact Or.inl hi
    · right
      exact ⟨a0, a1, by rw [ix_upd_state, hcpu _ a0]; exact a2⟩
  · intro q q0 q1
    unfold dl_of
    rw [ix_upd_state]
    by_cases hq : q = p
    · rw [if_pos hq, hq, if_neg hp, hE _ x0, if_pos (Eq.refl _)]
    · rw [if_neg hq]
      by_cases hi : ix h q = IDX_INVALID
      · rw [if_pos hi, if_pos hi]
      · rw [if_neg hi, if_neg hi]
        obtain ⟨a0, a1, a2⟩ := (hc.idx_ok q q0 q1).resolve_left hi
        have hne : ix h q ≠ ix h p := by
          intro he; rw [he, x2] at a2; exact hq a2.symm
        rw [hE _ a0, if_neg hne]
  · intro hs hh
    have hg := (hh.downOnly hs (ix h p)).2
    have hgrand : GrandOK (ArrayHeap.upd_state h (ix h p) d) (ix h p) := by
      intro h1 c c1 hpc
      have hc0 : ix h p < c := by unfold parent at hpc; omega
      have hpp := parent_lt h1
      have n1 : parent (ix h p) ≠ ix h p := by omega
      have n2 : c ≠ ix h p := by omega
      rw [hE c (by omega), hE _ (parent_nonneg h1), if_neg n1, if_neg n2]
      exact hg h1 c c1 hpc
    constructor
    · intro c
      refine ⟨?_, hgrand⟩
      intro i i0 i1 hpi
      have hpi0 := parent_nonneg i0
      unfold EdgeOK
      rw [hE i (by omega), hE _ hpi0, if_neg hpi]
      by_cases hi : i = ix h p
      · rw [if_pos hi]
        have e := hh i i0 i1
        unfold EdgeOK at e
        rw [hi] at e ⊢
        show h.cmp_dl (el h (parent (ix h p))).dl d = false
        cases hx : h.cmp_dl (el h (parent (ix h p))).dl d with
        | false => rfl
        | true => rw [hs.trans _ _ _ hx c] at e; cases e
      · rw [if_neg hi]
        exact hh i i0 i1
    · intro c
      refine ⟨?_, hgrand⟩
      intro i i0 i1 hne
      have hpi0 := parent_nonneg i0
      unfold EdgeOK
      rw [hE i (by omega), hE _ hpi0, if_neg hne]
      by_cases hpi : parent i = ix h p
      · rw [if_pos hpi]
        have e := hh i i0 i1
        unfold EdgeOK at e
        rw [hpi] at e
        exact hs.neg_trans c e
      · rw [if_neg hpi]
        exact hh i i0 i1

/-! ## `heap_set` with `is_valid = 1` -/

theorem heap_set_valid_spec {nproc : Nat} {h : array_heap_t} (hc : Consistent nproc h)
    (p : Int) (p0 : 0 ≤ p) (p1 : p < (nproc : Int)) (d : Nat) :
    ∃ h', heap_set h p d true = some (h', none) ∧ Consistent nproc h' ∧ h'.lock = false ∧
      h'.cmp_dl = h.cmp_dl ∧
      h'.size = (if ix h p = IDX_INVALID then h.size + 1 else h.size) ∧
      (∀ q, 0 ≤ q → q < (nproc : Int) → dl_of h' q = if q = p then some d else dl_of h q) ∧
      (StrictWeakOrder h.cmp_dl → Heap h → Heap h') := by
  have hs0 := hc.size_nonneg
  by_cases hp : ix h p = IDX_INVALID
  · obtain ⟨ci, cd, cu⟩ := hc.ins_state p p0 p1 hp d
    obtain ⟨h1, idx1, e, s1, _, _⟩ := sift_up_fuel_same (h.size.toNat + 1) (ins_state h p d)
      h.size ci hs0 (by simp [ins_state]) (by push_cast; omega)
    refine ⟨pthread_spin_unlock h1, ?_, s1.cons.unlock, rfl, s1.cmp_eq, ?_, ?_, ?_⟩
    · rw [heap_set_insert_eq hc p p0 p1 hp d, sift_up, e]; rfl
    · rw [if_pos hp]; exact s1.size_eq
    · intro q q0 q1
      rw [dl_of_unlock, s1.dl_eq q q0 q1, cd q q0 q1]
    · intro hs hh
      exact (sift_up_fuel_heap _ (ins_state h p d) _ h1 idx1 hs ci hs0 (by simp [ins_state])
        (cu hh) e).unlocked
  · obtain ⟨ci, cd, cu⟩ := hc.upd_state p p0 p1 hp d
    obtain ⟨x0, x1, _⟩ := (hc.idx_ok p p0 p1).resolve_left hp
    rw [heap_set_update_eq hc p p0 p1 hp d, if_neg hp]
    by_cases c : h.cmp_dl d (el h (ix h p)).dl = true
    · obtain ⟨h1, e, s1⟩ := max_heapify_fuel_same (h.size.toNat + 1) (upd_state h (ix h p) d)
        (ix h p) ci x0 (by omega) (by simp [upd_state]; omega)
      have e' : max_heapify (upd_state h (ix h p) d) (ix h p) = some h1 := e
      refine ⟨pthread_spin_unlock h1, ?_, s1.cons.unlock, rfl, s1.cmp_eq, s1.size_eq, ?_, ?_⟩
      · rw [if_pos c, e']; rfl
      · intro q q0 q1
        rw [dl_of_unlock, s1.dl_eq q q0 q1, cd q q0 q1]
      · intro hs hh
        exact (max_heapify_fuel_heap _ (upd_state h (ix h p) d) _ h1 hs ci x0 ((cu hs hh).1 c)
          e).unlocked
    · obtain ⟨h1, idx1, e, s1, _, _⟩ := sift_up_fuel_same ((ix h p).toNat + 1)
        (upd_state h (ix h p) d) (ix h p) ci x0 x1 (by push_cast; omega)
      have e' : sift_up (upd_state h (ix h p) d) (ix h p) = some (h1, idx1) := e
      refine ⟨pthread_spin_unlock h1, ?_, s1.cons.unlock, rfl, s1.cmp_eq, s1.size_eq, ?_, ?_⟩
      · rw [if_neg c, e']; rfl
      · intro q q0 q1
        rw [dl_of_unlock, s1.dl_eq q q0 q1, cd q q0 q1]
      · intro hs hh
        have c' : h.cmp_dl d (el h (ix h p)).dl = false := by simpa using c
        exact (sift_up_fuel_heap _ (upd_state h (ix h p) d) _ h1 idx1 hs ci x0 x1
          ((cu hs hh).2 c') e).unlocked

/-! ## The state before the sift-up of a removal -/

theorem el_rem_state (h : array_heap_t) (p : Int) (i : Int) (h0 : 0 ≤ ix h p)
    (h1 : ix h p < h.elements.length) (hi : 0 ≤ i) :
    el (rem_state h p) i = if i = ix h p then el h (h.size - 1) else el h i := by
  unfold rem_state
  show List.getD _ _ _ = _
  exact getD_set_int _ _ _ _ _ h0 h1 hi

theorem ix_rem_state (h : array_heap_t) (p : Int) (q : Int) (p0 : 0 ≤ p)
    (p1 : p < h.cpu_to_idx.length) (c0 : 0 ≤ (el h (h.size - 1)).cpu)
    (c1 : (el h (h.size - 1)).cpu < h.cpu_to_idx.length) (hq : 0 ≤ q) :
    ix (rem_state h p) q =
      if q = p then IDX_INVALID
      else if q = (el h (h.size - 1)).cpu then ix h p else ix h q := by
  unfold rem_state
  show List.getD _ _ _ = _
  rw [getD_set_int _ _ _ _ _ p0 (by simpa using p1) hq, getD_set_int _ _ _ _ _ c0 c1 hq]
  rfl

theorem Consistent.rem_state {nproc : Nat} {h : array_heap_t} (hc : Consistent nproc h)
    (p : Int) (p0 : 0 ≤ p) (p1 : p < (nproc : Int)) (hp : ix h p ≠ IDX_INVALID) :
    Consistent nproc (rem_state h p) ∧
      (∀ q, 0 ≤ q → q < (nproc : Int) →
        dl_of (rem_state h p) q = if q = p then none else dl_of h q) := by
  have hla := hc.len_el
  have hli := hc.len_idx
  have hsz := hc.size_le
  obtain ⟨x0, x1, x2⟩ := (hc.idx_ok p p0 p1).resolve_left hp
  obtain ⟨c0, c1, c2⟩ := hc.cpu_ok (h.size - 1) (by omega) (by omega)
  have hE : ∀ i, 0 ≤ i → el (ArrayHeap.rem_state h p) i =
      if i = ix h p then el h (h.size - 1) else el h i :=
    fun i hi => el_rem_state h p i x0 (by omega) hi
  have hI : ∀ q, 0 ≤ q → ix (ArrayHeap.rem_state h p) q =
      if q = p then IDX_INVALID
      else if q = (el h (h.size - 1)).cpu then ix h p else ix h q :=
    fun q hq => ix_rem_state h p q p0 (by omega) c0 (by omega) hq
  have hsize : (ArrayHeap.rem_state h p).size = h.size - 1 := rfl
  refine ⟨⟨by simpa [ArrayHeap.rem_state] using hli, by simpa [ArrayHeap.rem_state] using hla,
    by rw [hsize]; omega, by rw [hsize]; omega, ?_, ?_⟩, ?_⟩
  · intro i i0 i1
    rw [hsize] at i1
    rw [hE i i0]
    by_cases hi : i = ix h p
    · rw [if_pos hi]
      have hne : (el h (h.size - 1)).cpu ≠ p := by
        intro he; rw [he] at c2; omega
      refine ⟨c0, c1, ?_⟩
      rw [hI _ c0, if_neg hne, if_pos (Eq.refl _), hi]
    · rw [if_neg hi]
      obtain ⟨d0, d1, d2⟩ := hc.cpu_ok i i0 (by omega)
      have n1 : (el h i).cpu ≠ p := by
        intro he; rw [he] at d2; exact hi d2.symm
      have n2 : (el h i).cpu ≠ (el h (h.size - 1)).cpu := by
        intro he; rw [he] at d2; omega
      refine ⟨d0, d1, ?_⟩
      rw [hI _ d0, if_neg n1, if_neg n2, d2]
  · intro q q0 q1
    rw [hI q q0, hsize]
    by_cases hq : q = p
    · left; rw [if_pos hq]
    · rw [if_neg hq]
      by_cases hql : q = (el h (h.size - 1)).cpu
      · right
        rw [if_pos hql, hE _ x0, if_pos (Eq.refl _)]
        have : ix h p ≠ h.size - 1 := by
          intro he; rw [he] at x2; exact hq (hql.trans x2)
        exact ⟨x0, by omega, hql.symm⟩
      · rw [if_neg hql]
        rcases hc.idx_ok q q0 q1 with hi | ⟨a0, a1, a2⟩
        · exact Or.inl hi
        · right
          have n1 : ix h q ≠ h.size - 1 := by
            intro he; rw [he] at a2; exact hql a2.symm
          have n2 : ix h q ≠ ix h p := by
            intro he; rw [he, x2] at a2; exact hq a2.symm
          rw [hE _ a0, if_neg n2]
          exact ⟨a0, by omega, a2⟩
  · intro q q0 q1
    unfold dl_of
    rw [hI q q0]
    by_cases hq : q = p
    · rw [if_pos hq, if_pos (Eq.refl _), if_pos hq]
    · rw [if_neg hq, if_neg hq]
      by_cases hql : q = (el h (h.size - 1)).cpu
      · have hl : ix h q ≠ IDX_INVALID := by
          rw [hql, c2]; simp only [IDX_INVALID]; omega
        rw [if_pos hql, if_neg hp, if_neg hl, hE _ x0, if_pos (Eq.refl _), hql, c2]
      · rw [if_neg hql]
        by_cases hi : ix h q = IDX_INVALID
        · rw [if_pos hi, if_pos hi]
        · rw [if_neg hi, if_neg hi]
          obtain ⟨a0, a1, a2⟩ := (hc.idx_ok q q0 q1).resolve_left hi
          have n2 : ix h q ≠ ix h p := by
            intro he; rw [he, x2] at a2; exact hq a2.symm
          rw [hE _ a0, if_neg n2]

/-- An exchange between the slot just above the heap and a slot of the heap
keeps the arrays consistent when the processor of the outer slot is absent: it
enters the heap and the processor it displaces becomes absent. -/
theorem Consistent.xchg_stale {nproc : Nat} {h : array_heap_t} (hc : Consistent nproc h)
    (hs : h.size < (nproc : Int)) (c0 : 0 ≤ (el h h.size).cpu)
    (c1 : (el h h.size).cpu < (nproc : Int)) (ci : ix h (el h h.size).cpu = IDX_INVALID)
    (j : Int) (j0 : 0 ≤ j) (j1 : j < h.size) :
    Consistent nproc (ArrayHeap.xchg h h.size j) := by
  have hla := hc.len_el
  have hli := hc.len_idx
  have hs0 := hc.size_nonneg
  obtain ⟨b0, b1, b2⟩ := hc.cpu_ok j j0 j1
  have hE : ∀ i, 0 ≤ i → el (ArrayHeap.xchg h h.size j) i =
      if i = h.size then el h j else if i = j then el h h.size else el h i :=
    fun i hi => el_xchg h h.size j i hs0 (by omega) j0 (by omega) hi
  have hI : ∀ q, 0 ≤ q → ix (ArrayHeap.xchg h h.size j) q =
      if q = (el h h.size).cpu then ix h (el h j).cpu
      else if q = (el h j).cpu then ix h (el h h.size).cpu else ix h q :=
    fun q hq => ix_xchg h h.size j q c0 (by omega) b0 (by omega) hq
  have hinv : ∀ q, ix h q = IDX_INVALID → ¬ (0 ≤ ix h q) := by
    intro q hq; rw [hq]; simp [IDX_INVALID]
  refine ⟨by simpa using hli, by simpa using hla, hs0, hc.size_le, ?_, ?_⟩
  · intro i i0 i1
    simp only [xchg_size] at i1
    have n0 : i ≠ h.size := by omega
    rw [hE i i0, if_neg n0]
    by_cases hi : i = j
    · rw [if_pos hi]
      refine ⟨c0, c1, ?_⟩
      rw [hI _ c0, if_pos (Eq.refl _), b2, hi]
    · rw [if_neg hi]
      obtain ⟨d0, d1, d2⟩ := hc.cpu_ok i i0 i1
      have n1 : (el h i).cpu ≠ (el h h.size).cpu := by
        intro he; rw [he] at d2; exact hinv _ ci (by omega)
      have n2 : (el h i).cpu ≠ (el h j).cpu := by
        intro he; rw [he, b2] at d2; exact hi d2.symm
      refine ⟨d0, d1, ?_⟩
      rw [hI _ d0, if_neg n1, if_neg n2, d2]
  · intro q q0 q1
    rw [hI q q0, xchg_size]
    by_cases hq : q = (el h h.size).cpu
    · right
      have n0 : j ≠ h.size := by omega
      rw [if_pos hq, b2, hE j j0, if_neg n0, if_pos (Eq.refl _)]
      exact ⟨j0, j1, hq.symm⟩
    · rw [if_neg hq]
      by_cases hqj : q = (el h j).cpu
      · left; rw [if_pos hqj, ci]
      · rw [if_neg hqj]
        rcases hc.idx_ok q q0 q1 with hi | ⟨a0, a1, a2⟩
        · exact Or.inl hi
        · right
          have n0 : ix h q ≠ h.size := by omega
          have n1 : ix h q ≠ j := by
            intro he; rw [he] at a2; exact hqj a2.symm
          rw [hE _ a0, if_neg n0, if_neg n1]
          exact ⟨a0, a1, a2⟩

/-! ## `heap_set` with `is_valid = 0` on a present processor -/

theorem sift_up_rem_state {nproc : Nat} {h : array_heap_t} (hc : Consistent nproc h)
    (p : Int) (p0 : 0 ≤ p) (p1 : p < (nproc : Int)) (hp : ix h p ≠ IDX_INVALID) :
    ∃ h1 idx1, sift_up (rem_state h p) (ix h p) = some (h1, idx1) ∧ Consistent nproc h1 ∧
      h1.size = h.size - 1 ∧ h1.cmp_dl = h.cmp_dl ∧ 0 ≤ idx1 ∧
      (StrictWeakOrder h.cmp_dl → Heap h →
        (∀ q, 0 ≤ q → q < (nproc : Int) → dl_of h1 q = if q = p then none else dl_of h q) ∧
        DownOnly h1 idx1) := by
  have hla := hc.len_el
  have hli := hc.len_idx
  have hsz := hc.size_le
  obtain ⟨x0, x1, x2⟩ := (hc.idx_ok p p0 p1).resolve_left hp
  obtain ⟨cr, dr⟩ := hc.rem_state p p0 p1 hp
  have hE : ∀ i, 0 ≤ i → el (rem_state h p) i =
      if i = ix h p then el h (h.size - 1) else el h i :=
    fun i hi => el_rem_state h p i x0 (by omega) hi
  have hsize : (rem_state h p).size = h.size - 1 := rfl
  have hcmp : (rem_state h p).cmp_dl = h.cmp_dl := rfl
  by_cases hlast : ix h p < h.size - 1
  · -- the entry of `p` is not in the last slot: the relocated entry is in the heap
    obtain ⟨h1, idx1, e, s1, i0, _⟩ := sift_up_fuel_same ((ix h p).toNat + 1)
      (rem_state h p) (ix h p) cr x0 (by rw [hsize]; exact hlast) (by push_cast; omega)
    refine ⟨h1, idx1, e, s1.cons, s1.size_eq.trans hsize, s1.cmp_eq.trans hcmp, i0, ?_⟩
    intro hs hh
    refine ⟨fun q q0 q1 => (s1.dl_eq q q0 q1).trans (dr q q0 q1), ?_⟩
    have hg := (hh.downOnly hs (ix h p)).2
    have hex : HeapExcept (rem_state h p) (ix h p) := by
      constructor
      · intro i i0' i1 hne hpn
        rw [hsize] at i1
        unfold EdgeOK
        rw [hcmp, hE i (by omega), hE _ (parent_nonneg i0'), if_neg hne, if_neg hpn]
        exact hh i i0' (by omega)
      · intro h1' c c1 hpc
        rw [hsize] at c1
        have hc0 : ix h p < c := by unfold parent at hpc; omega
        have hpp := parent_lt h1'
        have n1 : parent (ix h p) ≠ ix h p := by omega
        have n2 : c ≠ ix h p := by omega
        rw [hcmp, hE c (by omega), hE _ (parent_nonneg h1'), if_neg n1, if_neg n2]
        exact hg h1' c (by omega) hpc
    have hs' : StrictWeakOrder (rem_state h p).cmp_dl := hs
    rcases sift_up_fuel_heap_except _ (rem_state h p) _ h1 idx1 hs' cr x0
        (by rw [hsize]; exact hlast) hex e with ⟨e1, e2, e3⟩ | hh1
    · rw [e1, e2]
      refine ⟨?_, hex.2⟩
      intro i i0' i1 hpn
      by_cases hi : i = ix h p
      · rw [hi]; exact e3 (by omega)
      · exact hex.1 i i0' i1 hi hpn
    · have hs1 : StrictWeakOrder h1.cmp_dl := by rw [s1.cmp_eq]; exact hs
      exact hh1.downOnly hs1 idx1
  · -- the entry of `p` is in the last slot, which is now just above the heap
    have hidx : ix h p = h.size - 1 := by omega
    have hstay : ∀ i, 0 ≤ i → el (rem_state h p) i = el h i := by
      intro i hi
      rw [hE i hi]
      by_cases he : i = ix h p
      · rw [if_pos he, he, hidx]
      · rw [if_neg he]
    have hdown : Heap h → DownOnly (rem_state h p) (ix h p) := by
      intro hh
      constructor
      · intro i i0' i1 _
        rw [hsize] at i1
        unfold EdgeOK
        rw [hcmp, hstay i (by omega), hstay _ (parent_nonneg i0')]
        exact hh i i0' (by omega)
      · intro _ c c1 hpc
        rw [hsize] at c1
        exfalso
        unfold parent at hpc
        omega
    have hlen : ix h p < ((rem_state h p).elements.length : Int) := by
      rw [cr.len_el]; omega
    unfold sift_up
    rw [sift_up_fuel_step (rem_state h p) _ (ix h p) x0 hlen]
    by_cases hpos : ix h p > 0
    · rw [if_pos hpos]
      by_cases c : (rem_state h p).cmp_dl (el (rem_state h p) (parent (ix h p))).dl
          (el (rem_state h p) (ix h p)).dl = true
      · have hp0 := parent_nonneg (i := ix h p) (by omega)
        have hp1 := parent_lt (i := ix h p) (by omega)
        obtain ⟨a0, a1, _⟩ := cr.cpu_ok (parent (ix h p)) hp0 (by rw [hsize]; omega)
        have hcpu : (el (rem_state h p) (ix h p)).cpu = p := by
          rw [hstay _ x0]; exact x2
        have hip : ix (rem_state h p) p = IDX_INVALID := by
          rw [ix_rem_state h p p p0 (by omega)
            (hc.cpu_ok (h.size - 1) (by omega) (by omega)).1
            (by have := (hc.cpu_ok (h.size - 1) (by omega) (by omega)).2.1; omega) p0,
            if_pos (Eq.refl _)]
        have e1 := ArrayHeap.exchange_eq (rem_state h p) (ix h p) (parent (ix h p)) x0 hlen
          hp0 (by omega) (by rw [hcpu]; exact p0) (by rw [hcpu, cr.len_idx]; exact p1)
          a0 (by rw [cr.len_idx]; exact a1)
        have hrs : (rem_state h p).size = ix h p := by rw [hsize]; omega
        have cx : Consistent nproc (xchg (rem_state h p) (ix h p) (parent (ix h p))) := by
          have := cr.xchg_stale (by rw [hrs]; omega) (by rw [hrs, hcpu]; exact p0)
            (by rw [hrs, hcpu]; exact p1) (by rw [hrs, hcpu]; exact hip)
            (parent (ix h p)) hp0 (by rw [hrs]; exact hp1)
          rwa [hrs] at this
        obtain ⟨h1, idx1, e, s1, i0, _⟩ := sift_up_fuel_same (ix h p).toNat
          (xchg (rem_state h p) (ix h p) (parent (ix h p))) (parent (ix h p)) cx hp0
          (by simp only [xchg_size]; omega) (by omega)
        refine ⟨h1, idx1, ?_, s1.cons, s1.size_eq.trans hsize, s1.cmp_eq.trans hcmp, i0, ?_⟩
        · rw [if_pos c, e1]; exact e
        · intro _ hh
          exfalso
          have e2 := hh (ix h p) (by omega) x1
          unfold EdgeOK at e2
          rw [hcmp, hstay _ x0, hstay _ hp0, e2] at c
          cases c
      · rw [if_neg c]
        exact ⟨rem_state h p, ix h p, rfl, cr, hsize, hcmp, x0, fun _ hh => ⟨dr, hdown hh⟩⟩
    · rw [if_neg hpos]
      exact ⟨rem_state h p, ix h p, rfl, cr, hsize, hcmp, x0, fun _ hh => ⟨dr, hdown hh⟩⟩

theorem heap_set_remove_spec {nproc : Nat} {h : array_heap_t} (hc : Consistent nproc h)
    (p : Int) (p0 : 0 ≤ p) (p1 : p < (nproc : Int)) (hp : ix h p ≠ IDX_INVALID) (d : Nat) :
    ∃ h', heap_set h p d false = some (h', some (-1)) ∧ Consistent nproc h' ∧
      h'.lock = false ∧ h'.cmp_dl = h.cmp_dl ∧ h'.size = h.size - 1 ∧
      (StrictWeakOrder h.cmp_dl → Heap h →
        (∀ q, 0 ≤ q → q < (nproc : Int) → dl_of h' q = if q = p then none else dl_of h q) ∧
        Heap h') := by
  obtain ⟨h1, idx1, e1, c1, z1, m1, i0, k1⟩ := sift_up_rem_state hc p p0 p1 hp
  obtain ⟨h2, e2, s2⟩ := max_heapify_fuel_same (h1.size.toNat + 1) h1 idx1 c1 i0 (by omega)
    (by push_cast; omega)
  have e2' : max_heapify h1 idx1 = some h2 := e2
  refine ⟨pthread_spin_unlock h2, ?_, s2.cons.unlock, rfl, s2.cmp_eq.trans m1,
    s2.size_eq.trans z1, ?_⟩
  · rw [heap_set_remove_eq hc p p0 p1 hp d, e1]
    show (max_heapify h1 idx1).bind _ = _
    rw [e2']; rfl
  · intro hs hh
    obtain ⟨k2, k3⟩ := k1 hs hh
    refine ⟨fun q q0 q1 => ?_, ?_⟩
    · rw [dl_of_unlock, s2.dl_eq q q0 q1, k2 q q0 q1]
    · have hs1 : StrictWeakOrder h1.cmp_dl := by rw [m1]; exact hs
      exact (max_heapify_fuel_heap _ h1 idx1 h2 hs1 c1 i0 k3 e2).unlocked

/-! ## `heap_set` with `is_valid = 0` on an absent processor -/

theorem heap_set_absent (h : array_heap_t) (p : Int) (d : Nat)
    (hp : rd h.cpu_to_idx p = some IDX_INVALID) :
    heap_set h p d false = some (pthread_spin_unlock h, some (-1)) := by
  simp [heap_set, pthread_spin_lock, pthread_spin_unlock, hp]

/-! ## Invariants of the reachable states -/

theorem consistent_init (mem : Nat → item) (nproc : Nat) (cmp : Nat → Nat → Bool) :
    Consistent nproc (array_heap_init mem nproc cmp) := by
  refine ⟨by simp [array_heap_init], by simp [array_heap_init], le_refl _,
    by simp [array_heap_init], ?_, ?_⟩
  · intro i i0 i1
    simp only [array_heap_init] at i1
    omega
  · intro p p0 p1
    left
    have hlt : p.toNat < nproc := by omega
    simp [ix, array_heap_init, List.getD, List.getElem?_replicate, hlt]

theorem heap_init (mem : Nat → item) (nproc : Nat) (cmp : Nat → Nat → Bool) :
    Heap (array_heap_init mem nproc cmp) := by
  intro i i0 i1
  simp only [array_heap_init] at i1
  omega

theorem Reachable.consistent {nproc : Nat} {cmp : Nat → Nat → Bool} {h : array_heap_t}
    (hr : Reachable nproc cmp h) : Consistent nproc h ∧ h.lock = false ∧ h.cmp_dl = cmp := by
  induction hr with
  | init mem => exact ⟨consistent_init mem nproc cmp, rfl, rfl⟩
  | @step h h' cpu dline is_valid r _ c0 c1 e ih =>
    obtain ⟨hc, hl, hm⟩ := ih
    cases is_valid with
    | true =>
      obtain ⟨h2, e2, c2, l2, m2, _⟩ := heap_set_valid_spec hc cpu c0 c1 dline
      rw [e2] at e
      simp only [Option.some.injEq, Prod.mk.injEq] at e
      rw [← e.1]
      exact ⟨c2, l2, m2.trans hm⟩
    | false =>
      by_cases hp : ix h cpu = IDX_INVALID
      · have hrd : rd h.cpu_to_idx cpu = some IDX_INVALID := by
          rw [← hp]; exact rd_cpu_to_idx h cpu c0 (by rw [hc.len_idx]; exact c1)
        rw [heap_set_absent h cpu dline hrd] at e
        simp only [Option.some.injEq, Prod.mk.injEq] at e
        rw [← e.1]
        exact ⟨hc.unlock, rfl, hm⟩
      · obtain ⟨h2, e2, c2, l2, m2, _⟩ := heap_set_remove_spec hc cpu c0 c1 hp dline
        rw [e2] at e
        simp only [Option.some.injEq, Prod.mk.injEq] at e
        rw [← e.1]
        exact ⟨c2, l2, m2.trans hm⟩

theorem Reachable.heap {nproc : Nat} {cmp : Nat → Nat → Bool} {h : array_heap_t}
    (hs : StrictWeakOrder cmp) (hr : Reachable nproc cmp h) : Heap h := by
  induction hr with
  | init mem => exact heap_init mem nproc cmp
  | @step h h' cpu dline is_valid r hr' c0 c1 e ih =>
    obtain ⟨hc, _, hm⟩ := hr'.consistent
    have hs' : StrictWeakOrder h.cmp_dl := by rw [hm]; exact hs
    cases is_valid with
    | true =>
      obtain ⟨h2, e2, _, _, _, _, _, k⟩ := heap_set_valid_spec hc cpu c0 c1 dline
      rw [e2] at e
      simp only [Option.some.injEq, Prod.mk.injEq] at e
      rw [← e.1]
      exact k hs' ih
    | false =>
      by_cases hp : ix h cpu = IDX_INVALID
      · have hrd : rd h.cpu_to_idx cpu = some IDX_INVALID := by
          rw [← hp]; exact rd_cpu_to_idx h cpu c0 (by rw [hc.len_idx]; exact c1)
        rw [heap_set_absent h cpu dline hrd] at e
        simp only [Option.some.injEq, Prod.mk.injEq] at e
        rw [← e.1]
        exact ih.unlocked
      · obtain ⟨h2, e2, _, _, _, _, k⟩ := heap_set_remove_spec hc cpu c0 c1 hp dline
        rw [e2] at e
        simp only [Option.some.injEq, Prod.mk.injEq] at e
        rw [← e.1]
        exact (k hs' ih).2

/-! ## The stored pairs -/

theorem mem_entries_iff (h : array_heap_t) (hlen : h.size ≤ h.elements.length) (x : item) :
    x ∈ entries h ↔ ∃ i, 0 ≤ i ∧ i < h.size ∧ el h i = x := by
  unfold entries
  rw [List.mem_iff_getElem?]
  constructor
  · rintro ⟨n, hn⟩
    rw [List.getElem?_take] at hn
    split at hn
    · rename_i hlt
      refine ⟨(n : Int), by omega, by omega, ?_⟩
      simp [el, List.getD, hn]
    · cases hn
  · rintro ⟨i, i0, i1, e⟩
    refine ⟨i.toNat, ?_⟩
    have hlt : i.toNat < h.size.toNat := by omega
    have hlt2 : i.toNat < h.elements.length := by omega
    rw [List.getElem?_take, if_pos hlt, ← e]
    simp [el, List.getD, List.getElem?_eq_getElem hlt2]

theorem Consistent.mem_entries {nproc : Nat} {h : array_heap_t} (hc : Consistent nproc h)
    (x : item) :
    x ∈ entries h ↔ 0 ≤ x.cpu ∧ x.cpu < (nproc : Int) ∧ dl_of h x.cpu = some x.dl := by
  rw [mem_entries_iff h (by rw [hc.len_el]; exact hc.size_le)]
  constructor
  · rintro ⟨i, i0, i1, e⟩
    obtain ⟨c0, c1, c2⟩ := hc.cpu_ok i i0 i1
    rw [e] at c0 c1 c2
    refine ⟨c0, c1, ?_⟩
    have hne : ix h x.cpu ≠ IDX_INVALID := by rw [c2]; simp only [IDX_INVALID]; omega
    unfold dl_of
    rw [if_neg hne, c2, e]
  · rintro ⟨c0, c1, e⟩
    unfold dl_of at e
    by_cases hi : ix h x.cpu = IDX_INVALID
    · rw [if_pos hi] at e; cases e
    · rw [if_neg hi] at e
      obtain ⟨a0, a1, a2⟩ := (hc.idx_ok x.cpu c0 c1).resolve_left hi
      refine ⟨ix h x.cpu, a0, a1, ?_⟩
      have e' : (el h (ix h x.cpu)).dl = x.dl := Option.some.inj e
      cases x with
      | mk xd xc =>
        cases hel : el h (ix h xc) with
        | mk yd yc =>
          simp only [hel] at a2 e'
          rw [a2, e']

/-! ## The root is extremal -/

theorem Heap.root_max {nproc : Nat} {h : array_heap_t} (hs : StrictWeakOrder h.cmp_dl)
    (hh : Heap h) (_hc : Consistent nproc h) :
    ∀ (n : Nat) (i : Int), 0 ≤ i → i < h.size → i ≤ n →
      h.cmp_dl (el h 0).dl (el h i).dl = false := by
  intro n
  induction n with
  | zero =>
    intro i i0 _ hn
    have : i = 0 := by omega
    rw [this]; exact hs.irrefl _
  | succ m ih =>
    intro i i0 i1 hn
    by_cases hz : i = 0
    · rw [hz]; exact hs.irrefl _
    · have hp0 := parent_nonneg (i := i) (by omega)
      have hp1 := parent_lt (i := i) (by omega)
      exact hs.neg_trans (ih (parent i) hp0 (by omega) (by push_cast at hn; omega))
        (hh i (by omega) i1)

/-! ## The self-check on a consistent heap -/

theorem check_iter_ok {nproc : Nat} {h : array_heap_t} (hc : Consistent nproc h) (hh : Heap h)
    (i : Int) (i0 : 0 ≤ i) (i1 : i < (nproc : Int)) : check_iter h i = some false := by
  have hla := hc.len_el
  have hli := hc.len_idx
  have hsz := hc.size_le
  have r1 : rd h.cpu_to_idx i = some (ix h i) := rd_cpu_to_idx h i i0 (by omega)
  have edge : ∀ c, parent c = i → 0 ≤ c → c < h.size →
      rd h.elements i = some (el h i) ∧ rd h.elements c = some (el h c) ∧
        h.cmp_dl (el h i).dl (el h c).dl = false := by
    intro c hpc c0 hlt
    have hic : i < c := by unfold parent at hpc; omega
    have e := hh c (by omega) hlt
    unfold EdgeOK at e
    rw [hpc] at e
    exact ⟨rd_elements h i i0 (by omega), rd_elements h c c0 (by omega), e⟩
  have el' := edge (left_child i) (parent_left_child i) (by unfold left_child; omega)
  have er' := edge (right_child i) (parent_right_child i) (by unfold right_child; omega)
  have first : ¬ ix h i = IDX_INVALID →
      ((rd h.elements (ix h i)).bind fun a =>
        if a.cpu = i then some false else some true) = some false := by
    intro hne
    obtain ⟨a0, a1, a2⟩ := (hc.idx_ok i i0 i1).resolve_left hne
    simp [rd_elements h _ a0 (by omega), a2]
  unfold check_iter
  by_cases hl : left_child i < h.size
  · obtain ⟨l1, l2, l3⟩ := el' hl
    by_cases hr : right_child i < h.size
    · obtain ⟨r1', r2, r3⟩ := er' hr
      simp [r1, hl, hr, l1, l2, l3, r2, r3]
      exact first
    · simp [r1, hl, hr, l1, l2, l3]
      exact first
  · have hr : ¬ right_child i < h.size := by
      unfold left_child at hl; unfold right_child; omega
    simp [r1, hl, hr]
    exact first

theorem check_loop_ok {nproc : Nat} {h : array_heap_t} (hc : Consistent nproc h) (hh : Heap h) :
    ∀ (n : Nat) (i : Int), 0 ≤ i → i + n ≤ (nproc : Int) → check_loop h n i = some 1 := by
  intro n
  induction n with
  | zero => intro i _ _; rfl
  | succ m ih =>
    intro i i0 i1
    unfold check_loop
    rw [check_iter_ok hc hh i i0 (by push_cast at i1; omega)]
    simp only [Option.bind_eq_bind, Option.some_bind, Bool.false_eq_true, if_false]
    exact ih (i + 1) (by omega) (by push_cast at i1; omega)

theorem array_heap_check_ok {nproc : Nat} {h : array_heap_t} (hc : Consistent nproc h)
    (hh : Heap h) : array_heap_check h nproc = some (pthread_spin_unlock h, 1) := by
  have hc' : Consistent nproc (pthread_spin_lock h) :=
    ⟨hc.len_idx, hc.len_el, hc.size_nonneg, hc.size_le, hc.cpu_ok, hc.idx_ok⟩
  have hh' : Heap (pthread_spin_lock h) := hh
  have e := check_loop_ok hc' hh' nproc 0 (le_refl _) (by omega)
  simp only [array_heap_check, e, Option.bind_eq_bind, Option.some_bind, one_ne_zero,
    if_false, Option.pure_def]
  rfl

/-! ## Concrete comparators and states -/

theorem lt_cmp_strictWeakOrder : StrictWeakOrder lt_cmp := by
  refine ⟨?_, ?_, ?_⟩
  · intro a; simp [lt_cmp]
  · intro a b c; simp only [lt_cmp, decide_eq_true_eq]; omega
  · intro a b c; simp only [lt_cmp, decide_eq_false_iff_not]; omega

theorem lt_one_reachable : Reachable 2 lt_cmp lt_one :=
  @Reachable.step 2 lt_cmp (array_heap_init zero_mem 2 lt_cmp) lt_one 0 10 true none
    (Reachable.init zero_mem) (by decide) (by decide) (by rfl)

theorem lt_two_reachable : Reachable 2 lt_cmp lt_two :=
  @Reachable.step 2 lt_cmp lt_one lt_two 1 5 true none
    lt_one_reachable (by decide) (by decide) (by rfl)

theorem le_two_reachable : Reachable 2 le_cmp le_two :=
  @Reachable.step 2 le_cmp le_one le_two 1 5 true none
    (@Reachable.step 2 le_cmp (array_heap_init zero_mem 2 le_cmp) le_one 0 5 true none
      (Reachable.init zero_mem) (by decide) (by decide) (by rfl))
    (by decide) (by decide) (by rfl)

/-! ## Properties of the heap: claims C1 to C10 -/

/-- Claim C1 (extremum correctness).  For a strict weak order `cmp` and a state
reachable from `array_heap_init` by `heap_set` calls with valid processor ids,
if some processor is present then `array_heap_find` returns the processor of a
stored entry `r` such that `cmp r.dl q.dl` holds for no stored entry `q`. -/
theorem extremum_correct (nproc : Nat) (cmp : Nat → Nat → Bool) (hs : StrictWeakOrder cmp)
    (h : array_heap_t) (hr : Reachable nproc cmp h) (hne : ∃ x, x ∈ entries h) :
    ∃ r, r ∈ entries h ∧ array_heap_find h = some r.cpu ∧
      ∀ q, q ∈ entries h → cmp r.dl q.dl = false := by
  obtain ⟨hc, _, hm⟩ := hr.consistent
  have hh := hr.heap hs
  have hlen : h.size ≤ (h.elements.length : Int) := by rw [hc.len_el]; exact hc.size_le
  have hs' : StrictWeakOrder h.cmp_dl := by rw [hm]; exact hs
  obtain ⟨x, hx⟩ := hne
  obtain ⟨i, i0, i1, _⟩ := (mem_entries_iff h hlen x).mp hx
  have hpos : h.size > 0 := by omega
  refine ⟨el h 0, (mem_entries_iff h hlen _).mpr ⟨0, le_refl _, hpos, rfl⟩, ?_, ?_⟩
  · unfold array_heap_find heap_maximum
    rw [if_pos hpos, rd_elements h 0 (le_refl _) (by omega)]
    rfl
  · intro q hq
    obtain ⟨j, j0, j1, e⟩ := (mem_entries_iff h hlen q).mp hq
    rw [← e, ← hm]
    exact hh.root_max hs' hc j.toNat j j0 j1 (by omega)

/-- A reachable non-empty heap with the less-than comparator, for claim C1. -/
theorem extremum_correct_witness :
    ∃ r, r ∈ entries lt_two ∧ array_heap_find lt_two = some r.cpu ∧
      ∀ q, q ∈ entries lt_two → lt_cmp r.dl q.dl = false :=
  extremum_correct 2 lt_cmp lt_cmp_strictWeakOrder lt_two lt_two_reachable
    ⟨{ dl := 10, cpu := 0 }, by decide⟩

/-- Claim C2 (round trip).  In a reachable state, for a valid processor `p` and
any deadline `d`, `heap_set(p, d, 1)` succeeds and `array_heap_check_cpu(p, d)`
on the resulting state returns 1. -/
theorem round_trip (nproc : Nat) (cmp : Nat → Nat → Bool) (h : array_heap_t)
    (hr : Reachable nproc cmp h) (p : Int) (p0 : 0 ≤ p) (p1 : p < (nproc : Int)) (d : Nat) :
    ∃ h1 r h2, heap_set h p d true = some (h1, r) ∧
      array_heap_check_cpu h1 p d = some (h2, 1) := by
  obtain ⟨hc, _, _⟩ := hr.consistent
  obtain ⟨h1, e1, c1, _, _, _, k, _⟩ := heap_set_valid_spec hc p p0 p1 d
  have kp := k p p0 p1
  rw [if_pos (Eq.refl p)] at kp
  unfold dl_of at kp
  by_cases hi : ix h1 p = IDX_INVALID
  · rw [if_pos hi] at kp; cases kp
  · rw [if_neg hi] at kp
    obtain ⟨a0, a1, _⟩ := (c1.idx_ok p p0 p1).resolve_left hi
    have hsz := c1.size_le
    have kd : (el h1 (ix h1 p)).dl = d := Option.some.inj kp
    refine ⟨h1, none, pthread_spin_unlock h1, e1, ?_⟩
    have r1 : rd h1.cpu_to_idx p = some (ix h1 p) :=
      rd_cpu_to_idx h1 p p0 (by rw [c1.len_idx]; exact p1)
    have r2 : rd h1.elements (ix h1 p) = some (el h1 (ix h1 p)) :=
      rd_elements h1 _ a0 (by rw [c1.len_el]; omega)
    simp [array_heap_check_cpu, pthread_spin_lock, pthread_spin_unlock, r1, r2, kd]

/-- An update of a present processor in a reachable state, for claim C2. -/
theorem round_trip_witness :
    ∃ h1 r h2, heap_set lt_two 1 7 true = some (h1, r) ∧
      array_heap_check_cpu h1 1 7 = some (h2, 1) :=
  round_trip 2 lt_cmp lt_two lt_two_reachable 1 (by decide) (by decide) 7

/-- Claim C3 as stated fails for a comparator that is not strict.  With
"less-than or equal" and two processors of equal deadline, processor 0 is
present in slot 1; after `heap_set(0, _, 0)` its reverse-index cell is 0, not
`IDX_INVALID`, and the stored pair is still that of processor 0 while the pair
of processor 1 is gone. -/
theorem removal_nonstrict_counterexample :
    Reachable 2 le_cmp le_two ∧ rd le_two.cpu_to_idx 0 = some 1 ∧
      entries le_two = [{ dl := 5, cpu := 1 }, { dl := 5, cpu := 0 }] ∧
      heap_set le_two 0 0 false = some (le_three, some (-1)) ∧
      rd le_three.cpu_to_idx 0 = some 0 ∧
      entries le_three = [{ dl := 5, cpu := 0 }] :=
  ⟨le_two_reachable, by decide, by decide, by rfl, by decide, by decide⟩

/-- Claim C3, amended (removal deletes exactly one entry).  For a strict weak
order `cmp`, a reachable state and a present processor `p`, `heap_set(p, _, 0)`
succeeds; the pairs stored afterwards are those stored before minus the pair of
`p`, `size` has decreased by one and `cpu_to_idx[p]` is `IDX_INVALID`. -/
theorem removal_deletes_one (nproc : Nat) (cmp : Nat → Nat → Bool)
    (hs : StrictWeakOrder cmp) (h : array_heap_t) (hr : Reachable nproc cmp h) (p : Int)
    (p0 : 0 ≤ p) (p1 : p < (nproc : Int))
    (hp : ∃ v, rd h.cpu_to_idx p = some v ∧ v ≠ IDX_INVALID) (d : Nat) :
    ∃ h' dp, heap_set h p d false = some (h', some (-1)) ∧
      { dl := dp, cpu := p } ∈ entries h ∧
      (∀ x, x ∈ entries h' ↔ x ∈ entries h ∧ x ≠ { dl := dp, cpu := p }) ∧
      h'.size = h.size - 1 ∧ rd h'.cpu_to_idx p = some IDX_INVALID := by
  obtain ⟨hc, _, hm⟩ := hr.consistent
  have hh := hr.heap hs
  have hs' : StrictWeakOrder h.cmp_dl := by rw [hm]; exact hs
  obtain ⟨v, hv, hvn⟩ := hp
  rw [rd_cpu_to_idx h p p0 (by rw [hc.len_idx]; exact p1)] at hv
  have hpi : ix h p ≠ IDX_INVALID := by rw [Option.some.inj hv]; exact hvn
  obtain ⟨h', e, c', _, _, z, k⟩ := heap_set_remove_spec hc p p0 p1 hpi d
  obtain ⟨kd, _⟩ := k hs' hh
  have hdp : dl_of h p = some (el h (ix h p)).dl := by unfold dl_of; rw [if_neg hpi]
  refine ⟨h', (el h (ix h p)).dl, e, (hc.mem_entries _).mpr ⟨p0, p1, hdp⟩, ?_, z, ?_⟩
  · intro x
    rw [c'.mem_entries, hc.mem_entries]
    constructor
    · rintro ⟨x0, x1, hx⟩
      rw [kd x.cpu x0 x1] at hx
      by_cases hxp : x.cpu = p
      · rw [if_pos hxp] at hx; cases hx
      · rw [if_neg hxp] at hx
        refine ⟨⟨x0, x1, hx⟩, ?_⟩
        intro he; rw [he] at hxp; exact hxp rfl
    · rintro ⟨⟨x0, x1, hx⟩, hne⟩
      refine ⟨x0, x1, ?_⟩
      rw [kd x.cpu x0 x1]
      have hxp : x.cpu ≠ p := by
        intro he
        rw [he, hdp] at hx
        apply hne
        cases x with
        | mk xd xc =>
          simp only at he hx
          rw [he, ← Option.some.inj hx]
      rw [if_neg hxp]; exact hx
  · rw [rd_cpu_to_idx h' p p0 (by rw [c'.len_idx]; exact p1)]
    have := kd p p0 p1
    rw [if_pos (Eq.refl p)] at this
    unfold dl_of at this
    by_cases hi : ix h' p = IDX_INVALID
    · rw [hi]
    · rw [if_neg hi] at this; cases this

/-- Removal of the last-slot processor from a two-entry heap, for claim C3. -/
theorem removal_deletes_one_witness :
    ∃ h' dp, heap_set lt_two 1 0 false = some (h', some (-1)) ∧
      { dl := dp, cpu := 1 } ∈ entries lt_two ∧
      (∀ x, x ∈ entries h' ↔ x ∈ entries lt_two ∧ x ≠ { dl := dp, cpu := 1 }) ∧
      h'.size = lt_two.size - 1 ∧ rd h'.cpu_to_idx 1 = some IDX_INVALID :=
  removal_deletes_one 2 lt_cmp lt_cmp_strictWeakOrder lt_two lt_two_reachable 1 (by decide)
    (by decide) ⟨1, by decide, by decide⟩ 0

/-- Claim C4 (insert and update touch only the named processor).  In a reachable
state, for a valid processor `p` and a deadline `d`, `heap_set(p, d, 1)`
succeeds; the pairs stored afterwards are `(p, d)` and the pairs stored before
of the other processors; every other processor keeps its presence and its
deadline; `size` grows by one exactly when `p` was absent. -/
theorem insert_update_frame (nproc : Nat) (cmp : Nat → Nat → Bool) (h : array_heap_t)
    (hr : Reachable nproc cmp h) (p : Int) (p0 : 0 ≤ p) (p1 : p < (nproc : Int)) (d : Nat) :
    ∃ h' r, heap_set h p d true = some (h', r) ∧
      (∀ x, x ∈ entries h' ↔ x = { dl := d, cpu := p } ∨ (x ∈ entries h ∧ x.cpu ≠ p)) ∧
      (∀ q, 0 ≤ q → q < (nproc : Int) → q ≠ p → dl_of h' q = dl_of h q) ∧
      h'.size = (if rd h.cpu_to_idx p = some IDX_INVALID then h.size + 1 else h.size) := by
  obtain ⟨hc, _, _⟩ := hr.consistent
  obtain ⟨h', e, c', _, _, z, k, _⟩ := heap_set_valid_spec hc p p0 p1 d
  refine ⟨h', none, e, ?_, ?_, ?_⟩
  · intro x
    rw [c'.mem_entries, hc.mem_entries]
    constructor
    · rintro ⟨x0, x1, hx⟩
      rw [k x.cpu x0 x1] at hx
      by_cases hxp : x.cpu = p
      · left
        rw [if_pos hxp] at hx
        cases x with
        | mk xd xc =>
          simp only at hxp hx
          rw [hxp, ← Option.some.inj hx]
      · right
        rw [if_neg hxp] at hx
        exact ⟨⟨x0, x1, hx⟩, hxp⟩
    · rintro (hx | ⟨⟨x0, x1, hx⟩, hxp⟩)
      · rw [hx]
        refine ⟨p0, p1, ?_⟩
        rw [k p p0 p1, if_pos (Eq.refl p)]
      · refine ⟨x0, x1, ?_⟩
        rw [k x.cpu x0 x1, if_neg hxp]; exact hx
  · intro q q0 q1 hq
    rw [k q q0 q1, if_neg hq]
  · rw [z, rd_cpu_to_idx h p p0 (by rw [hc.len_idx]; exact p1)]
    by_cases hi : ix h p = IDX_INVALID
    · rw [if_pos hi, if_pos (by rw [hi])]
    · rw [if_neg hi, if_neg (fun he => hi (Option.some.inj he))]

/-- Insertion of an absent processor into a reachable one-entry heap, for claim C4. -/
theorem insert_update_frame_witness :
    ∃ h' r, heap_set lt_one 1 5 true = some (h', r) ∧
      (∀ x, x ∈ entries h' ↔ x = { dl := 5, cpu := 1 } ∨ (x ∈ entries lt_one ∧ x.cpu ≠ 1)) ∧
      (∀ q, 0 ≤ q → q < ((2 : Nat) : Int) → q ≠ 1 → dl_of h' q = dl_of lt_one q) ∧
      h'.size =
        (if rd lt_one.cpu_to_idx 1 = some IDX_INVALID then lt_one.size + 1 else lt_one.size) :=
  insert_update_frame 2 lt_cmp lt_one lt_one_reachable 1 (by decide) (by decide) 5

theorem unlock_of_free (h : array_heap_t) (hl : h.lock = false) :
    pthread_spin_unlock h = h := by
  cases h
  simp only at hl
  subst hl
  rfl

/-- Claim C5 (idempotent removal).  In any heap state whose lock is free, for a
processor `p` with `cpu_to_idx[p] == IDX_INVALID`, `heap_set(p, d, 0)` returns
`-1` and leaves the state as it was: `size`, `elements` and `cpu_to_idx` are
unchanged and the lock is free again.  The instrumented model, in which taking
a held lock does not return, makes the same run. -/
theorem remove_absent_unchanged (h : array_heap_t) (hl : h.lock = false) (p : Int) (d : Nat)
    (hp : rd h.cpu_to_idx p = some IDX_INVALID) :
    ∃ h', heap_set h p d false = some (h', some (-1)) ∧
      Checked.heap_set h p d false = Except.ok (h', some (-1)) ∧
      h' = h ∧ h'.size = h.size ∧ h'.elements = h.elements ∧
      h'.cpu_to_idx = h.cpu_to_idx := by
  refine ⟨h, by rw [heap_set_absent h p d hp, unlock_of_free h hl], ?_, rfl, rfl, rfl, rfl⟩
  obtain ⟨lk, sz, c2i, els, cmp⟩ := h
  simp only at hl hp
  subst hl
  simp [Checked.heap_set, Checked.pthread_spin_lock, Checked.pthread_spin_unlock,
    Checked.load_idx, Checked.held, hp]
  rfl

/-- Removal of the absent processor 1 from a one-entry heap whose lock is free,
for claim C5. -/
theorem remove_absent_unchanged_witness :
    lt_one.lock = false ∧
      ∃ h', heap_set lt_one 1 3 false = some (h', some (-1)) ∧
        Checked.heap_set lt_one 1 3 false = Except.ok (h', some (-1)) ∧
        h' = lt_one ∧ h'.size = lt_one.size ∧ h'.elements = lt_one.elements ∧
        h'.cpu_to_idx = lt_one.cpu_to_idx :=
  ⟨rfl, remove_absent_unchanged lt_one rfl 1 3 (by decide)⟩

/-- Claim C6 (reverse-index consistency).  In a reachable state, for every
processor `p < nproc`, `cpu_to_idx[p]` is `IDX_INVALID` if and only if no stored
entry has processor `p`, and otherwise it is an index below `size` whose entry
has processor `p`. -/
theorem reverse_index_consistent (nproc : Nat) (cmp : Nat → Nat → Bool) (h : array_heap_t)
    (hr : Reachable nproc cmp h) (p : Int) (p0 : 0 ≤ p) (p1 : p < (nproc : Int)) :
    ∃ v, rd h.cpu_to_idx p = some v ∧
      (v = IDX_INVALID ↔ ∀ x, x ∈ entries h → x.cpu ≠ p) ∧
      (v ≠ IDX_INVALID → 0 ≤ v ∧ v < h.size ∧ ∃ x, rd h.elements v = some x ∧ x.cpu = p) := by
  obtain ⟨hc, _, _⟩ := hr.consistent
  have hsz := hc.size_le
  refine ⟨ix h p, rd_cpu_to_idx h p p0 (by rw [hc.len_idx]; exact p1), ?_, ?_⟩
  · constructor
    · intro hi x hx hxp
      obtain ⟨_, _, hd⟩ := (hc.mem_entries x).mp hx
      rw [hxp] at hd
      unfold dl_of at hd
      rw [if_pos hi] at hd
      cases hd
    · intro hall
      by_contra hi
      refine hall { dl := (el h (ix h p)).dl, cpu := p } ((hc.mem_entries _).mpr ⟨p0, p1, ?_⟩) rfl
      unfold dl_of
      rw [if_neg hi]
  · intro hi
    obtain ⟨a0, a1, a2⟩ := (hc.idx_ok p p0 p1).resolve_left hi
    exact ⟨a0, a1, el h (ix h p), rd_elements h _ a0 (by rw [hc.len_el]; omega), a2⟩

/-- The reverse-index cell of processor 1 in a reachable two-entry heap, for claim C6. -/
theorem reverse_index_consistent_witness :
    ∃ v, rd lt_two.cpu_to_idx 1 = some v ∧
      (v = IDX_INVALID ↔ ∀ x, x ∈ entries lt_two → x.cpu ≠ 1) ∧
      (v ≠ IDX_INVALID →
        0 ≤ v ∧ v < lt_two.size ∧ ∃ x, rd lt_two.elements v = some x ∧ x.cpu = 1) :=
  reverse_index_consistent 2 lt_cmp lt_two lt_two_reachable 1 (by decide) (by decide)

/-- Claim C7 (key uniqueness).  In a reachable state no processor id is the
`cpu` of two different indices of `elements[0 .. size)`: the entries at two
different indices below `size` have different processors. -/
theorem key_unique (nproc : Nat) (cmp : Nat → Nat → Bool) (h : array_heap_t)
    (hr : Reachable nproc cmp h) (i j : Int) (x y : item) (i1 : i < h.size) (j1 : j < h.size)
    (hi : rd h.elements i = some x) (hj : rd h.elements j = some y) (hij : i ≠ j) :
    x.cpu ≠ y.cpu := by
  obtain ⟨hc, _, _⟩ := hr.consistent
  obtain ⟨i0, i2⟩ := rd_some_bounds hi
  obtain ⟨j0, j2⟩ := rd_some_bounds hj
  rw [rd_elements h i i0 i2] at hi
  rw [rd_elements h j j0 j2] at hj
  have a := (hc.cpu_ok i i0 i1).2.2
  have b := (hc.cpu_ok j j0 j1).2.2
  rw [Option.some.inj hi] at a
  rw [Option.some.inj hj] at b
  intro hxy
  rw [hxy] at a
  exact hij (a.symm.trans b)

/-- The two slots of a reachable two-entry heap, for claim C7. -/
theorem key_unique_witness :
    Reachable 2 lt_cmp lt_two ∧
      ({ dl := 10, cpu := 0 } : item).cpu ≠ ({ dl := 5, cpu := 1 } : item).cpu :=
  ⟨lt_two_reachable,
    key_unique 2 lt_cmp lt_two lt_two_reachable 0 1 { dl := 10, cpu := 0 } { dl := 5, cpu := 1 }
      (by decide) (by decide) (by decide) (by decide) (by decide)⟩

/-- The heap order the code keeps needs a strict comparator: with "less-than or
equal" and two equal deadlines the predicate holds between the root and index 1
of a reachable state. -/
theorem heap_order_needs_strict :
    Reachable 2 le_cmp le_two ∧ (1 : Int) < le_two.size ∧
      rd le_two.elements (parent 1) = some { dl := 5, cpu := 1 } ∧
      rd le_two.elements 1 = some { dl := 5, cpu := 0 } ∧
      le_two.cmp_dl 5 5 = true :=
  ⟨le_two_reachable, by decide, by decide, by decide, by decide⟩

/-- Claim C8 as stated fails.  With the less-than comparator, after inserting
(processor 0, deadline 10) and (processor 1, deadline 5) the parent of index 1
holds 10 and index 1 holds 5, and `cmp_dl(10, 5)` is false. -/
theorem heap_order_counterexample :
    Reachable 2 lt_cmp lt_two ∧ (1 : Int) ≤ 1 ∧ (1 : Int) < lt_two.size ∧
      rd lt_two.elements (parent 1) = some { dl := 10, cpu := 0 } ∧
      rd lt_two.elements 1 = some { dl := 5, cpu := 1 } ∧
      lt_two.cmp_dl 10 5 = false :=
  ⟨lt_two_reachable, by decide, by decide, by decide, by decide, by decide⟩

/-- Claim C8, amended (heap order).  For a strict weak order `cmp`, in every
reachable state and for every non-root index `i < size`, the stored ordering
predicate applied to (parent's deadline, child's deadline) is false: no entry
beats its parent. -/
theorem heap_order (nproc : Nat) (cmp : Nat → Nat → Bool) (hs : StrictWeakOrder cmp)
    (h : array_heap_t) (hr : Reachable nproc cmp h) (i : Int) (i0 : 1 ≤ i) (i1 : i < h.size) :
    ∃ x y, rd h.elements (parent i) = some x ∧ rd h.elements i = some y ∧
      h.cmp_dl x.dl y.dl = false := by
  obtain ⟨hc, _, _⟩ := hr.consistent
  have hsz := hc.size_le
  have hp0 := parent_nonneg i0
  have hp1 := parent_lt i0
  exact ⟨el h (parent i), el h i, rd_elements h _ hp0 (by rw [hc.len_el]; omega),
    rd_elements h _ (by omega) (by rw [hc.len_el]; omega), hr.heap hs i i0 i1⟩

/-- The edge from index 1 to the root of a reachable two-entry heap, for claim C8. -/
theorem heap_order_witness :
    ∃ x y, rd lt_two.elements (parent 1) = some x ∧ rd lt_two.elements 1 = some y ∧
      lt_two.cmp_dl x.dl y.dl = false :=
  heap_order 2 lt_cmp lt_cmp_strictWeakOrder lt_two lt_two_reachable 1 (by decide) (by decide)

/-- Claim C9 (capacity bound).  In a reachable state `0 <= size <= nproc`; and
when `size = nproc` every valid processor is present, so `heap_set(p, d, 1)` is
an update: it runs without a fault (no access outside the two blocks of
`nproc` cells) and leaves `size` and the extent of both arrays unchanged. -/
theorem capacity_bound (nproc : Nat) (cmp : Nat → Nat → Bool) (h : array_heap_t)
    (hr : Reachable nproc cmp h) :
    0 ≤ h.size ∧ h.size ≤ (nproc : Int) ∧
      (h.size = (nproc : Int) → ∀ p, 0 ≤ p → p < (nproc : Int) → ∀ d,
        (∃ v, rd h.cpu_to_idx p = some v ∧ v ≠ IDX_INVALID) ∧
        ∃ h' r, heap_set h p d true = some (h', r) ∧ h'.size = h.size ∧
          h'.elements.length = nproc ∧ h'.cpu_to_idx.length = nproc) := by
  obtain ⟨hc, _, _⟩ := hr.consistent
  refine ⟨hc.size_nonneg, hc.size_le, ?_⟩
  intro hfull p p0 p1 d
  have hi : ix h p ≠ IDX_INVALID := by
    intro he
    have := hc.size_lt_of_absent p p0 p1 he
    omega
  obtain ⟨h', e, c', _, _, z, _⟩ := heap_set_valid_spec hc p p0 p1 d
  rw [if_neg hi] at z
  exact ⟨⟨ix h p, rd_cpu_to_idx h p p0 (by rw [hc.len_idx]; exact p1), hi⟩,
    h', none, e, z, c'.len_el, c'.len_idx⟩

/-- A reachable heap filled to its capacity of two, for claim C9. -/
theorem capacity_bound_witness :
    0 ≤ lt_two.size ∧ lt_two.size ≤ ((2 : Nat) : Int) ∧
      (lt_two.size = ((2 : Nat) : Int) → ∀ p, 0 ≤ p → p < ((2 : Nat) : Int) → ∀ d,
        (∃ v, rd lt_two.cpu_to_idx p = some v ∧ v ≠ IDX_INVALID) ∧
        ∃ h' r, heap_set lt_two p d true = some (h', r) ∧ h'.size = lt_two.size ∧
          h'.elements.length = 2 ∧ h'.cpu_to_idx.length = 2) :=
  capacity_bound 2 lt_cmp lt_two lt_two_reachable

/-- Claim C10 (the self-check passes).  For a strict weak order `cmp`,
`array_heap_check` returns 1 on every reachable state. -/
theorem self_check_passes (nproc : Nat) (cmp : Nat → Nat → Bool) (hs : StrictWeakOrder cmp)
    (h : array_heap_t) (hr : Reachable nproc cmp h) :
    ∃ h', array_heap_check h nproc = some (h', 1) :=
  ⟨pthread_spin_unlock h, array_heap_check_ok hr.consistent.1 (hr.heap hs)⟩

/-- The self-check on a reachable heap filled to its capacity, for claim C10. -/
theorem self_check_passes_witness : ∃ h', array_heap_check lt_two 2 = some (h', 1) :=
  self_check_passes 2 lt_cmp lt_cmp_strictWeakOrder lt_two lt_two_reachable

/-! ## Reasoning about runs of the instrumented model -/

theorem post_bind {α β : Type} {E : fault_kind → Prop} {x : Except fault_kind α}
    {f : α → Except fault_kind β} {P : α → Prop} {Q : β → Prop}
    (hx : Post E x P) (hf : ∀ a, P a → Post E (f a) Q) : Post E (x >>= f) Q := by
  cases x with
  | error e => exact hx
  | ok a => exact hf a hx

theorem post_pure {α : Type} {E : fault_kind → Prop} {Q : α → Prop} (a : α) (h : Q a) :
    Post E (pure a : Except fault_kind α) Q := h

theorem post_throw {α : Type} {E : fault_kind → Prop} {Q : α → Prop} (e : fault_kind)
    (h : E e) : Post E (throw e : Except fault_kind α) Q := h

theorem post_mono {α : Type} {E E' : fault_kind → Prop} {x : Except fault_kind α}
    {P Q : α → Prop} (hx : Post E x P) (hE : ∀ e, E e → E' e) (hQ : ∀ a, P a → Q a) :
    Post E' x Q := by
  cases x with
  | error e => exact hE e hx
  | ok a => exact hQ a hx

theorem post_ok {α : Type} {E : fault_kind → Prop} {x : Except fault_kind α} {Q : α → Prop}
    (hx : Post E x Q) {a : α} (e : x = Except.ok a) : Q a := by
  rw [e] at hx; exact hx

theorem post_error {α : Type} {E : fault_kind → Prop} {x : Except fault_kind α}
    {Q : α → Prop} (hx : Post E x Q) {e : fault_kind} (he : x = Except.error e) : E e := by
  rw [he] at hx; exact hx

/-! ## The guarded accessors -/

theorem held_post (b : Bool) (h : array_heap_t) (hl : h.lock = b) :
    Post (inner_fault b) (Checked.held h) (fun _ => b = true) := by
  unfold Checked.held
  cases hb : h.lock with
  | true => rw [hl] at hb; simp only [if_true]; exact post_pure _ hb
  | false =>
    rw [hl] at hb
    simp only [Bool.false_eq_true, if_false]
    exact post_throw _ (Or.inr ⟨rfl, hb⟩)

theorem load_size_post (b : Bool) (h : array_heap_t) (hl : h.lock = b) :
    Post (inner_fault b) (Checked.load_size h) (fun v => v = h.size) :=
  post_bind (held_post b h hl) (fun _ _ => post_pure _ rfl)

theorem store_size_post (b : Bool) (h : array_heap_t) (v : Int) (hl : h.lock = b) :
    Post (inner_fault b) (Checked.store_size h v)
      (fun h' => h'.lock = b ∧ h'.size = v ∧ h'.elements = h.elements ∧
        h'.cpu_to_idx = h.cpu_to_idx ∧ h'.cmp_dl = h.cmp_dl) :=
  post_bind (held_post b h hl) (fun _ _ => post_pure _ ⟨hl, rfl, rfl, rfl, rfl⟩)

theorem load_el_post (b : Bool) (h : array_heap_t) (i : Int) (hl : h.lock = b) :
    Post (inner_fault b) (Checked.load_el h i)
      (fun e => rd h.elements i = some e ∧ 0 ≤ i ∧ i < h.elements.length) := by
  refine post_bind (held_post b h hl) (fun _ _ => ?_)
  cases hr : rd h.elements i with
  | none => exact post_throw _ (Or.inl rfl)
  | some e => exact post_pure _ ⟨rfl, rd_some_bounds hr⟩

theorem store_el_post (b : Bool) (h : array_heap_t) (i : Int) (e : item) (hl : h.lock = b) :
    Post (inner_fault b) (Checked.store_el h i e)
      (fun h' => h'.lock = b ∧ h'.size = h.size ∧
        h'.elements.length = h.elements.length ∧ h'.cpu_to_idx = h.cpu_to_idx ∧
        h'.cmp_dl = h.cmp_dl) := by
  refine post_bind (held_post b h hl) (fun _ _ => ?_)
  cases hw : wr h.elements i e with
  | none => exact post_throw _ (Or.inl rfl)
  | some l =>
    refine post_pure _ ⟨hl, rfl, ?_, rfl, rfl⟩
    unfold wr at hw
    split at hw
    · rw [← Option.some.inj hw]; simp
    · cases hw

theorem load_idx_post (b : Bool) (h : array_heap_t) (p : Int) (hl : h.lock = b) :
    Post (inner_fault b) (Checked.load_idx h p) (fun v => rd h.cpu_to_idx p = some v) := by
  refine post_bind (held_post b h hl) (fun _ _ => ?_)
  cases hr : rd h.cpu_to_idx p with
  | none => exact post_throw _ (Or.inl rfl)
  | some e => exact post_pure _ rfl

theorem store_idx_post (b : Bool) (h : array_heap_t) (p v : Int) (hl : h.lock = b) :
    Post (inner_fault b) (Checked.store_idx h p v)
      (fun h' => h'.lock = b ∧ h'.size = h.size ∧ h'.elements = h.elements ∧
        h'.cmp_dl = h.cmp_dl) := by
  refine post_bind (held_post b h hl) (fun _ _ => ?_)
  cases hw : wr h.cpu_to_idx p v with
  | none => exact post_throw _ (Or.inl rfl)
  | some l => exact post_pure _ ⟨hl, rfl, rfl, rfl⟩

/-! ## The operations keep the lock flag and the size -/

theorem exchange_post (b : Bool) (h : array_heap_t) (i j : Int) (hl : h.lock = b) :
    Post (inner_fault b) (Checked.exchange h i j)
      (fun h' => h'.lock = b ∧ h'.size = h.size ∧
        h'.elements.length = h.elements.length) := by
  unfold Checked.exchange
  refine post_bind (load_el_post b h i hl) (fun ea _ => ?_)
  refine post_bind (load_el_post b h j hl) (fun eb _ => ?_)
  refine post_bind (store_el_post b h j _ hl) (fun h1 q1 => ?_)
  refine post_bind (store_el_post b h1 i _ q1.1) (fun h2 q2 => ?_)
  refine post_bind (load_idx_post b h2 _ q2.1) (fun _ _ => ?_)
  refine post_bind (load_idx_post b h2 _ q2.1) (fun _ _ => ?_)
  refine post_bind (store_idx_post b h2 _ _ q2.1) (fun h3 q3 => ?_)
  refine post_mono (store_idx_post b h3 _ _ q3.1) (fun _ he => he) (fun h4 q4 => ?_)
  exact ⟨q4.1, by rw [q4.2.1, q3.2.1, q2.2.1, q1.2.1],
    by rw [q4.2.2.1, q3.2.2.1, q2.2.2.1, q1.2.2.1]⟩


theorem max_heapify_fuel_post (b : Bool) :
    ∀ (fuel : Nat) (h : array_heap_t) (idx : Int), h.lock = b → 0 ≤ idx → 0 < fuel →
      h.size - idx < (fuel : Int) →
      Post (inner_fault b) (Checked.max_heapify_fuel fuel h idx)
        (fun h' => h'.lock = b ∧ h'.size = h.size ∧
          h'.elements.length = h.elements.length) := by
  intro fuel
  induction fuel with
  | zero => intro h idx _ _ hf _; exact absurd hf (by omega)
  | succ n ih =>
    intro h idx hl h0 _ hf
    have child : ∀ (c k : Int) (sz : Int), sz = h.size →
        Post (inner_fault b)
          (if c < sz then do
              let x ← Checked.load_el h k
              let y ← Checked.load_el h c
              pure (h.cmp_dl x.dl y.dl)
            else pure false : Except fault_kind Bool)
          (fun r => r = true → c < h.size) := by
      intro c k sz hsz
      by_cases hc : c < sz
      · rw [if_pos hc]
        refine post_bind (load_el_post b h k hl) (fun _ _ => ?_)
        refine post_bind (load_el_post b h c hl) (fun _ _ => ?_)
        exact post_pure _ (fun _ => hsz ▸ hc)
      · rw [if_neg hc]
        exact post_pure _ (fun hf => by cases hf)
    unfold Checked.max_heapify_fuel
    refine post_bind (load_size_post b h hl) (fun sz hsz => ?_)
    refine post_bind (child (left_child idx) idx sz hsz) (fun c1 hc1 => ?_)
    refine post_bind (load_size_post b h hl) (fun sz2 hsz2 => ?_)
    refine post_bind (child (right_child idx) _ sz2 hsz2) (fun c2 hc2 => ?_)
    have hlg : (if c2 = true then right_child idx
        else if c1 = true then left_child idx else idx) ≠ idx →
        idx < (if c2 = true then right_child idx
          else if c1 = true then left_child idx else idx) ∧
        (if c2 = true then right_child idx
          else if c1 = true then left_child idx else idx) < h.size := by
      intro hne
      by_cases h2 : c2 = true
      · rw [if_pos h2]; exact ⟨by unfold right_child; omega, hc2 h2⟩
      · rw [if_neg h2] at hne ⊢
        by_cases h1 : c1 = true
        · rw [if_pos h1]; exact ⟨by unfold left_child; omega, hc1 h1⟩
        · rw [if_neg h1] at hne; exact absurd rfl hne
    by_cases hne : (if c2 = true then right_child idx
        else if c1 = true then left_child idx else idx) ≠ idx
    · obtain ⟨g0, g1⟩ := hlg hne
      simp only [hne, ne_eq, not_false_eq_true, if_true]
      refine post_bind (exchange_post b h _ idx hl) (fun h1 q1 => ?_)
      refine post_mono (ih h1 _ q1.1 (by omega) (by omega) (by rw [q1.2.1]; omega))
        (fun _ he => he) (fun h2 q2 => ?_)
      exact ⟨q2.1, by rw [q2.2.1, q1.2.1], by rw [q2.2.2, q1.2.2]⟩
    · simp only [hne, if_false]
      exact post_pure _ ⟨hl, rfl, rfl⟩

theorem max_heapify_post (b : Bool) (h : array_heap_t) (idx : Int) (hl : h.lock = b)
    (h0 : 0 ≤ idx) :
    Post (inner_fault b) (Checked.max_heapify h idx)
      (fun h' => h'.lock = b ∧ h'.size = h.size ∧
        h'.elements.length = h.elements.length) :=
  max_heapify_fuel_post b _ h idx hl h0 (by omega) (by push_cast; omega)

theorem sift_up_fuel_post (b : Bool) :
    ∀ (fuel : Nat) (h : array_heap_t) (idx : Int), h.lock = b → 0 < fuel →
      idx < (fuel : Int) →
      Post (inner_fault b) (Checked.sift_up_fuel fuel h idx)
        (fun r => r.1.lock = b ∧ r.1.size = h.size ∧
          r.1.elements.length = h.elements.length ∧ (0 ≤ idx → 0 ≤ r.2)) := by
  intro fuel
  induction fuel with
  | zero => intro h idx _ hf _; exact absurd hf (by omega)
  | succ n ih =>
    intro h idx hl _ hf
    unfold Checked.sift_up_fuel
    by_cases hpos : idx > 0
    · rw [if_pos hpos]
      refine post_bind (load_el_post b h _ hl) (fun x _ => ?_)
      refine post_bind (load_el_post b h _ hl) (fun y _ => ?_)
      by_cases c : h.cmp_dl x.dl y.dl = true
      · rw [if_pos c]
        have hp0 := parent_nonneg (i := idx) (by omega)
        have hp1 := parent_lt (i := idx) (by omega)
        refine post_bind (exchange_post b h _ _ hl) (fun h1 q1 => ?_)
        refine post_mono (ih h1 (parent idx) q1.1 (by omega) (by push_cast at hf; omega))
          (fun _ he => he) (fun r q2 => ?_)
        exact ⟨q2.1, by rw [q2.2.1, q1.2.1], by rw [q2.2.2.1, q1.2.2], fun _ => q2.2.2.2 hp0⟩
      · rw [if_neg c]
        exact post_pure _ ⟨hl, rfl, rfl, fun h0 => h0⟩
    · rw [if_neg hpos]
      exact post_pure _ ⟨hl, rfl, rfl, fun h0 => h0⟩

theorem sift_up_post (b : Bool) (h : array_heap_t) (idx : Int) (hl : h.lock = b) :
    Post (inner_fault b) (Checked.sift_up h idx)
      (fun r => r.1.lock = b ∧ r.1.size = h.size ∧
        r.1.elements.length = h.elements.length ∧ (0 ≤ idx → 0 ≤ r.2)) :=
  sift_up_fuel_post b _ h idx hl (by omega) (by push_cast; omega)

theorem set_dl_post (b : Bool) (h : array_heap_t) (idx : Int) (v : Nat) (hl : h.lock = b) :
    Post (inner_fault b) (Checked.set_dl h idx v)
      (fun h' => h'.lock = b ∧ h'.size = h.size ∧ 0 ≤ idx) := by
  unfold Checked.set_dl
  refine post_bind (load_el_post b h idx hl) (fun e qe => ?_)
  exact post_mono (store_el_post b h idx _ hl) (fun _ he => he)
    (fun h' q => ⟨q.1, q.2.1, qe.2.1⟩)

theorem set_cpu_post (b : Bool) (h : array_heap_t) (idx : Int) (c : Int) (hl : h.lock = b) :
    Post (inner_fault b) (Checked.set_cpu h idx c)
      (fun h' => h'.lock = b ∧ h'.size = h.size ∧ 0 ≤ idx) := by
  unfold Checked.set_cpu
  refine post_bind (load_el_post b h idx hl) (fun e qe => ?_)
  exact post_mono (store_el_post b h idx _ hl) (fun _ he => he)
    (fun h' q => ⟨q.1, q.2.1, qe.2.1⟩)

theorem heap_change_key_post (b : Bool) (h : array_heap_t) (idx : Int) (d : Nat) (wv : Bool)
    (hl : h.lock = b) :
    Post (inner_fault b) (Checked.heap_change_key h idx d wv) (fun h' => h'.lock = b) := by
  unfold Checked.heap_change_key
  refine post_bind (load_el_post b h idx hl) (fun e qe => ?_)
  by_cases c : (h.cmp_dl d e.dl && wv) = true
  · rw [if_pos c]
    refine post_bind (set_dl_post b h idx d hl) (fun h1 q1 => ?_)
    exact post_mono (max_heapify_post b h1 idx q1.1 qe.2.1) (fun _ he => he) (fun _ q => q.1)
  · rw [if_neg c]
    refine post_bind (set_dl_post b h idx d hl) (fun h1 q1 => ?_)
    refine post_bind (sift_up_post b h1 idx q1.1) (fun r q2 => ?_)
    exact post_pure _ q2.1


/-! ## The locking operations: lock discipline -/

theorem inner_fault_true {e : fault_kind} (h : inner_fault true e) : e = fault_kind.bounds := by
  rcases h with h | ⟨_, h⟩
  · exact h
  · cases h

theorem lock_post (h : array_heap_t) (hl : h.lock = false) :
    Post (inner_fault true) (Checked.pthread_spin_lock h)
      (fun h' => h'.lock = true ∧ h'.size = h.size) := by
  unfold Checked.pthread_spin_lock
  rw [hl]
  exact post_pure _ ⟨rfl, rfl⟩

theorem unlock_post (h : array_heap_t) (hl : h.lock = true) :
    Post (inner_fault true) (Checked.pthread_spin_unlock h)
      (fun h' => h'.lock = false ∧ h'.size = h.size) := by
  unfold Checked.pthread_spin_unlock
  rw [hl]
  exact post_pure _ ⟨rfl, rfl⟩

theorem heap_set_post (h : array_heap_t) (p : Int) (d : Nat) (v : Bool)
    (hl : h.lock = false) :
    Post (inner_fault true) (Checked.heap_set h p d v) (fun r => r.1.lock = false) := by
  unfold Checked.heap_set
  refine post_bind (lock_post h hl) (fun h1 q1 => ?_)
  refine post_bind (load_idx_post true h1 p q1.1) (fun old_idx _ => ?_)
  by_cases c1 : (!v && old_idx == IDX_INVALID) = true
  · rw [if_pos c1]
    refine post_bind (unlock_post h1 q1.1) (fun h2 q2 => ?_)
    exact post_pure _ q2.1
  · rw [if_neg c1]
    by_cases c2 : (!v) = true
    · rw [if_pos c2]
      refine post_bind (load_size_post true h1 q1.1) (fun _ _ => ?_)
      refine post_bind (load_el_post true h1 _ q1.1) (fun _ _ => ?_)
      refine post_bind (load_size_post true h1 q1.1) (fun _ _ => ?_)
      refine post_bind (load_el_post true h1 _ q1.1) (fun _ _ => ?_)
      refine post_bind (set_dl_post true h1 _ _ q1.1) (fun h2 q2 => ?_)
      refine post_bind (set_cpu_post true h2 _ _ q2.1) (fun h3 q3 => ?_)
      refine post_bind (load_size_post true h3 q3.1) (fun _ _ => ?_)
      refine post_bind (store_size_post true h3 _ q3.1) (fun h4 q4 => ?_)
      refine post_bind (store_idx_post true h4 _ _ q4.1) (fun h5 q5 => ?_)
      refine post_bind (store_idx_post true h5 _ _ q5.1) (fun h6 q6 => ?_)
      refine post_bind (sift_up_post true h6 old_idx q6.1) (fun r7 q7 => ?_)
      refine post_bind (max_heapify_post true r7.1 r7.2 q7.1 (q7.2.2.2 q2.2.2))
        (fun h8 q8 => ?_)
      refine post_bind (unlock_post h8 q8.1) (fun h9 q9 => ?_)
      exact post_pure _ q9.1
    · rw [if_neg c2]
      have hk : Post (inner_fault true)
          (if (old_idx == IDX_INVALID) = true then (do
              let sz ← Checked.load_size h1
              let h ← Checked.store_size h1 (sz + 1)
              let sz ← Checked.load_size h
              let h ← Checked.set_dl h (sz - 1) 0
              let sz ← Checked.load_size h
              let h ← Checked.set_cpu h (sz - 1) p
              let sz ← Checked.load_size h
              let h ← Checked.store_idx h p (sz - 1)
              let sz ← Checked.load_size h
              Checked.heap_change_key h (sz - 1) d false)
            else Checked.heap_change_key h1 old_idx d true)
          (fun h' => h'.lock = true) := by
        by_cases c3 : (old_idx == IDX_INVALID) = true
        · rw [if_pos c3]
          refine post_bind (load_size_post true h1 q1.1) (fun _ _ => ?_)
          refine post_bind (store_size_post true h1 _ q1.1) (fun h2 q2 => ?_)
          refine post_bind (load_size_post true h2 q2.1) (fun _ _ => ?_)
          refine post_bind (set_dl_post true h2 _ _ q2.1) (fun h3 q3 => ?_)
          refine post_bind (load_size_post true h3 q3.1) (fun _ _ => ?_)
          refine post_bind (set_cpu_post true h3 _ _ q3.1) (fun h4 q4 => ?_)
          refine post_bind (load_size_post true h4 q4.1) (fun _ _ => ?_)
          refine post_bind (store_idx_post true h4 _ _ q4.1) (fun h5 q5 => ?_)
          refine post_bind (load_size_post true h5 q5.1) (fun _ _ => ?_)
          exact heap_change_key_post true h5 _ d false q5.1
        · rw [if_neg c3]
          exact heap_change_key_post true h1 old_idx d true q1.1
      refine post_bind hk (fun h2 q2 => ?_)
      refine post_bind (unlock_post h2 q2) (fun h3 q3 => ?_)
      exact post_pure _ q3.1

theorem array_heap_check_cpu_post (h : array_heap_t) (p : Int) (d : Nat)
    (hl : h.lock = false) :
    Post (inner_fault true) (Checked.array_heap_check_cpu h p d)
      (fun r => r.1.lock = false) := by
  unfold Checked.array_heap_check_cpu
  refine post_bind (lock_post h hl) (fun h1 q1 => ?_)
  refine post_bind (load_idx_post true h1 p q1.1) (fun i _ => ?_)
  refine post_bind (load_el_post true h1 i q1.1) (fun e _ => ?_)
  refine post_bind (unlock_post h1 q1.1) (fun h2 q2 => ?_)
  exact post_pure _ q2.1

theorem save_slots_post (h : array_heap_t) (hl : h.lock = true) :
    ∀ (n : Nat) (i : Int), Post (inner_fault true) (Checked.save_slots h n i) (fun _ => True) := by
  intro n
  induction n with
  | zero => intro i; exact post_pure _ trivial
  | succ m ih =>
    intro i
    unfold Checked.save_slots
    refine post_bind (load_el_post true h i hl) (fun _ _ => ?_)
    refine post_bind (load_el_post true h i hl) (fun _ _ => ?_)
    refine post_bind (ih (i + 1)) (fun _ _ => ?_)
    exact post_pure _ trivial

theorem save_index_post (h : array_heap_t) (hl : h.lock = true) :
    ∀ (n : Nat) (i : Int), Post (inner_fault true) (Checked.save_index h n i) (fun _ => True) := by
  intro n
  induction n with
  | zero => intro i; exact post_pure _ trivial
  | succ m ih =>
    intro i
    unfold Checked.save_index
    refine post_bind (load_idx_post true h i hl) (fun _ _ => ?_)
    refine post_bind (ih (i + 1)) (fun _ _ => ?_)
    exact post_pure _ trivial

theorem array_heap_save_post (h : array_heap_t) (nproc : Nat) (hl : h.lock = false) :
    Post (inner_fault true) (Checked.array_heap_save h nproc) (fun r => r.1.lock = false) := by
  unfold Checked.array_heap_save
  refine post_bind (lock_post h hl) (fun h1 q1 => ?_)
  refine post_bind (load_size_post true h1 q1.1) (fun _ _ => ?_)
  refine post_bind (save_slots_post h1 q1.1 _ 0) (fun _ _ => ?_)
  refine post_bind (save_index_post h1 q1.1 nproc 0) (fun _ _ => ?_)
  refine post_bind (unlock_post h1 q1.1) (fun h2 q2 => ?_)
  exact post_pure _ q2.1

theorem check_iter_post (h : array_heap_t) (i : Int) (hl : h.lock = true) :
    Post (inner_fault true) (Checked.check_iter h i) (fun _ => True) := by
  have tail : ∀ (c : Int) (sz : Int), Post (inner_fault true)
      (if c < sz then (do
          let x ← Checked.load_el h i
          let y ← Checked.load_el h c
          if h.cmp_dl x.dl y.dl = true then do
            let ci ← Checked.load_idx h i
            pure (decide (ci ≠ IDX_INVALID))
          else pure false)
        else pure false : Except fault_kind Bool) (fun _ => True) := by
    intro c sz
    by_cases hc : c < sz
    · rw [if_pos hc]
      refine post_bind (load_el_post true h i hl) (fun x _ => ?_)
      refine post_bind (load_el_post true h c hl) (fun y _ => ?_)
      by_cases hb : h.cmp_dl x.dl y.dl = true
      · rw [if_pos hb]
        refine post_bind (load_idx_post true h i hl) (fun _ _ => ?_)
        exact post_pure _ trivial
      · rw [if_neg hb]; exact post_pure _ trivial
    · rw [if_neg hc]; exact post_pure _ trivial
  unfold Checked.check_iter
  refine post_bind (load_idx_post true h i hl) (fun ci _ => ?_)
  have first : Post (inner_fault true)
      (if ci ≠ IDX_INVALID then (do
          let ci ← Checked.load_idx h i
          let e ← Checked.load_el h ci
          pure (decide (e.cpu ≠ i)))
        else pure false : Except fault_kind Bool) (fun _ => True) := by
    by_cases hc : ci ≠ IDX_INVALID
    · rw [if_pos hc]
      refine post_bind (load_idx_post true h i hl) (fun _ _ => ?_)
      refine post_bind (load_el_post true h _ hl) (fun _ _ => ?_)
      exact post_pure _ trivial
    · rw [if_neg hc]; exact post_pure _ trivial
  refine post_bind first (fun bad _ => ?_)
  by_cases hb : bad = true
  · rw [if_pos hb]; exact post_pure _ trivial
  · rw [if_neg hb]
    refine post_bind (load_size_post true h hl) (fun sz _ => ?_)
    refine post_bind (tail (left_child i) sz) (fun bad2 _ => ?_)
    by_cases hb2 : bad2 = true
    · rw [if_pos hb2]; exact post_pure _ trivial
    · rw [if_neg hb2]
      refine post_bind (load_size_post true h hl) (fun sz2 _ => ?_)
      exact tail (right_child i) sz2

theorem check_loop_post (h : array_heap_t) (hl : h.lock = true) :
    ∀ (n : Nat) (i : Int), Post (inner_fault true) (Checked.check_loop h n i) (fun _ => True) := by
  intro n
  induction n with
  | zero => intro i; exact post_pure _ trivial
  | succ m ih =>
    intro i
    unfold Checked.check_loop
    refine post_bind (check_iter_post h i hl) (fun bad _ => ?_)
    by_cases hb : bad = true
    · rw [if_pos hb]; exact post_pure _ trivial
    · rw [if_neg hb]; exact ih (i + 1)

theorem array_heap_check_post (h : array_heap_t) (nproc : Nat) (hl : h.lock = false) :
    Post (inner_fault true) (Checked.array_heap_check h nproc)
      (fun r => r.1.lock = false) := by
  unfold Checked.array_heap_check
  refine post_bind (lock_post h hl) (fun h1 q1 => ?_)
  refine post_bind (check_loop_post h1 q1.1 nproc 0) (fun flag _ => ?_)
  refine post_bind (unlock_post h1 q1.1) (fun h2 q2 => ?_)
  by_cases hf : flag = 0
  · rw [if_pos hf]
    unfold Checked.print_array_heap
    refine post_bind (array_heap_save_post h2 nproc q2.1) (fun r q3 => ?_)
    exact post_pure _ q3
  · rw [if_neg hf]
    exact post_pure _ q2.1

theorem array_heap_find_post (h : array_heap_t) :
    Post (fun e => e = fault_kind.bounds) (Checked.array_heap_find h) (fun _ => True) := by
  unfold Checked.array_heap_find Checked.heap_maximum
  by_cases hs : h.size > 0
  · rw [if_pos hs]
    cases rd h.elements 0 with
    | none => exact post_throw _ rfl
    | some e => exact post_pure _ trivial
  · rw [if_neg hs]; exact post_pure _ trivial

/-! ## The instrumented model and the plain model make the same runs -/

theorem sim_bind {α α' β β' : Type} {R : α → α' → Prop} {S : β → β' → Prop}
    {x : Except fault_kind α} {y : Option α'}
    {f : α → Except fault_kind β} {g : α' → Option β'}
    (hx : SimR R x y) (hf : ∀ a a', x = Except.ok a → R a a' → SimR S (f a) (g a')) :
    SimR S (x >>= f) (y >>= g) := by
  cases x with
  | error e =>
    have : y = none := hx
    rw [this]; rfl
  | ok a =>
    obtain ⟨a', ha, hr⟩ := hx
    rw [ha]
    exact hf a a' rfl hr

theorem sim_pure {α α' : Type} {R : α → α' → Prop} (a : α) (a' : α') (h : R a a') :
    SimR R (pure a : Except fault_kind α) (pure a' : Option α') := ⟨a', rfl, h⟩

theorem sim_tail {α α' : Type} {R : α → α' → Prop} {x : Except fault_kind α} {y : Option α'}
    {F : α' → α} (hx : SimR R x y) (hR : ∀ a a', R a a' → a = F a') :
    SimR Eq x (y >>= fun a' => pure (F a')) := by
  cases x with
  | error e =>
    have : y = none := hx
    rw [this]; rfl
  | ok a =>
    obtain ⟨a', ha, hr⟩ := hx
    rw [ha]
    exact ⟨F a', rfl, hR a a' hr⟩

theorem held_eq (h : array_heap_t) (hl : h.lock = true) : Checked.held h = Except.ok () := by
  simp [Checked.held, hl]; rfl

theorem load_el_sim (h : array_heap_t) (i : Int) (hl : h.lock = true) :
    SimR Eq (Checked.load_el h i) (rd h.elements i) := by
  unfold Checked.load_el
  rw [held_eq h hl]
  cases hr : rd h.elements i with
  | none => rfl
  | some e => exact ⟨e, rfl, rfl⟩

theorem store_el_sim (h : array_heap_t) (i : Int) (e : item) (l0 : List item)
    (hl : h.lock = true) (h0 : h.elements = l0) :
    SimR (fun h' l => h' = { h with elements := l }) (Checked.store_el h i e) (wr l0 i e) := by
  unfold Checked.store_el
  rw [held_eq h hl, ← h0]
  cases hr : wr h.elements i e with
  | none => rfl
  | some l => exact ⟨l, rfl, rfl⟩

theorem load_idx_sim (h : array_heap_t) (p : Int) (l0 : List Int) (hl : h.lock = true)
    (h0 : h.cpu_to_idx = l0) :
    SimR Eq (Checked.load_idx h p) (rd l0 p) := by
  unfold Checked.load_idx
  rw [held_eq h hl, ← h0]
  cases hr : rd h.cpu_to_idx p with
  | none => rfl
  | some e => exact ⟨e, rfl, rfl⟩

theorem store_idx_sim (h : array_heap_t) (p v : Int) (l0 : List Int) (hl : h.lock = true)
    (h0 : h.cpu_to_idx = l0) :
    SimR (fun h' l => h' = { h with cpu_to_idx := l }) (Checked.store_idx h p v) (wr l0 p v) := by
  unfold Checked.store_idx
  rw [held_eq h hl, ← h0]
  cases hr : wr h.cpu_to_idx p v with
  | none => rfl
  | some l => exact ⟨l, rfl, rfl⟩

theorem exchange_sim (h : array_heap_t) (a b : Int) (hl : h.lock = true) :
    SimR Eq (Checked.exchange h a b) (exchange h a b) := by
  unfold Checked.exchange exchange
  refine sim_bind (load_el_sim h a hl) (fun ea _ _ e1 => ?_)
  subst e1
  refine sim_bind (load_el_sim h b hl) (fun eb _ _ e2 => ?_)
  subst e2
  refine sim_bind (store_el_sim h b _ _ hl rfl) (fun h1 l1 _ e3 => ?_)
  subst e3
  refine sim_bind (store_el_sim _ a _ _ hl rfl) (fun h2 l2 _ e4 => ?_)
  subst e4
  refine sim_bind (load_idx_sim _ _ _ hl rfl) (fun _ _ _ e5 => ?_)
  subst e5
  refine sim_bind (load_idx_sim _ _ _ hl rfl) (fun _ _ _ e6 => ?_)
  subst e6
  refine sim_bind (store_idx_sim _ _ _ _ hl rfl) (fun h3 l3 _ e7 => ?_)
  subst e7
  exact sim_tail (store_idx_sim _ _ _ _ hl rfl) (fun _ _ e => e)

theorem load_size_eq (h : array_heap_t) (hl : h.lock = true) :
    Checked.load_size h = pure h.size := by
  unfold Checked.load_size
  rw [held_eq h hl]; rfl

theorem store_size_eq (h : array_heap_t) (v : Int) (hl : h.lock = true) :
    Checked.store_size h v = pure { h with size := v } := by
  unfold Checked.store_size
  rw [held_eq h hl]; rfl

theorem set_dl_sim (h : array_heap_t) (idx : Int) (v : Nat) (hl : h.lock = true) :
    SimR Eq (Checked.set_dl h idx v) (set_dl h idx v) := by
  unfold Checked.set_dl set_dl
  refine sim_bind (load_el_sim h idx hl) (fun e _ _ e1 => ?_)
  subst e1
  exact sim_tail (store_el_sim h idx _ _ hl rfl) (fun _ _ e => e)

theorem set_cpu_sim (h : array_heap_t) (idx : Int) (c : Int) (hl : h.lock = true) :
    SimR Eq (Checked.set_cpu h idx c) (set_cpu h idx c) := by
  unfold Checked.set_cpu set_cpu
  refine sim_bind (load_el_sim h idx hl) (fun e _ _ e1 => ?_)
  subst e1
  exact sim_tail (store_el_sim h idx _ _ hl rfl) (fun _ _ e => e)

theorem set_idx_sim (h : array_heap_t) (p v : Int) (hl : h.lock = true) :
    SimR Eq (Checked.store_idx h p v) (set_idx h p v) := by
  unfold set_idx
  exact sim_tail (store_idx_sim h p v _ hl rfl) (fun _ _ e => e)

theorem max_heapify_fuel_sim :
    ∀ (fuel : Nat) (h : array_heap_t) (idx : Int), h.lock = true →
      SimR Eq (Checked.max_heapify_fuel fuel h idx) (max_heapify_fuel fuel h idx) := by
  intro fuel
  induction fuel with
  | zero => intro h idx _; rfl
  | succ n ih =>
    intro h idx hl
    have tail : ∀ lg : Int, SimR Eq
        (if lg ≠ idx then do
            let h ← Checked.exchange h lg idx
            Checked.max_heapify_fuel n h lg
          else pure h)
        (if lg ≠ idx then do
            let h ← exchange h lg idx
            max_heapify_fuel n h lg
          else pure h) := by
      intro lg
      by_cases hne : lg ≠ idx
      · rw [if_pos hne, if_pos hne]
        refine sim_bind (exchange_sim h lg idx hl) (fun h1 h1' ok e => ?_)
        subst e
        exact ih h1 lg (post_ok (exchange_post true h lg idx hl) ok).1
      · rw [if_neg hne, if_neg hne]; exact sim_pure _ _ rfl
    unfold Checked.max_heapify_fuel max_heapify_fuel
    simp only [load_size_eq h hl, pure_bind]
    by_cases hc : left_child idx < h.size
    · simp only [hc, if_true, bind_assoc, pure_bind]
      refine sim_bind (load_el_sim h _ hl) (fun x _ _ e1 => ?_)
      subst e1
      refine sim_bind (load_el_sim h _ hl) (fun y _ _ e2 => ?_)
      subst e2
      by_cases hr : right_child idx < h.size
      · simp only [hr, if_true, bind_assoc, pure_bind]
        refine sim_bind (load_el_sim h _ hl) (fun x2 _ _ e3 => ?_)
        subst e3
        refine sim_bind (load_el_sim h _ hl) (fun y2 _ _ e4 => ?_)
        subst e4
        exact tail _
      · simp only [hr, if_false, pure_bind]
        exact tail _
    · simp only [hc, if_false, pure_bind]
      by_cases hr : right_child idx < h.size
      · simp only [hr, if_true, bind_assoc, pure_bind]
        refine sim_bind (load_el_sim h _ hl) (fun x2 _ _ e3 => ?_)
        subst e3
        refine sim_bind (load_el_sim h _ hl) (fun y2 _ _ e4 => ?_)
        subst e4
        exact tail _
      · simp only [hr, if_false, pure_bind]
        exact tail _


theorem max_heapify_sim (h : array_heap_t) (idx : Int) (hl : h.lock = true) :
    SimR Eq (Checked.max_heapify h idx) (max_heapify h idx) :=
  max_heapify_fuel_sim _ h idx hl

theorem sift_up_fuel_sim :
    ∀ (fuel : Nat) (h : array_heap_t) (idx : Int), h.lock = true →
      SimR Eq (Checked.sift_up_fuel fuel h idx) (sift_up_fuel fuel h idx) := by
  intro fuel
  induction fuel with
  | zero => intro h idx _; rfl
  | succ n ih =>
    intro h idx hl
    unfold Checked.sift_up_fuel sift_up_fuel
    by_cases hpos : idx > 0
    · rw [if_pos hpos, if_pos hpos]
      refine sim_bind (load_el_sim h _ hl) (fun x _ _ e1 => ?_)
      subst e1
      refine sim_bind (load_el_sim h _ hl) (fun y _ _ e2 => ?_)
      subst e2
      by_cases c : h.cmp_dl x.dl y.dl = true
      · rw [if_pos c, if_pos c]
        refine sim_bind (exchange_sim h _ _ hl) (fun h1 _ ok e => ?_)
        subst e
        exact ih h1 _ (post_ok (exchange_post true h _ _ hl) ok).1
      · rw [if_neg c, if_neg c]; exact sim_pure _ _ rfl
    · rw [if_neg hpos, if_neg hpos]; exact sim_pure _ _ rfl

theorem sift_up_sim (h : array_heap_t) (idx : Int) (hl : h.lock = true) :
    SimR Eq (Checked.sift_up h idx) (sift_up h idx) :=
  sift_up_fuel_sim _ h idx hl

theorem heap_change_key_sim (h : array_heap_t) (idx : Int) (d : Nat) (wv : Bool)
    (hl : h.lock = true) :
    SimR Eq (Checked.heap_change_key h idx d wv) (heap_change_key h idx d wv) := by
  unfold Checked.heap_change_key heap_change_key
  refine sim_bind (load_el_sim h _ hl) (fun x _ _ e1 => ?_)
  subst e1
  by_cases c : (h.cmp_dl d x.dl && wv) = true
  · rw [if_pos c, if_pos c]
    refine sim_bind (set_dl_sim h idx d hl) (fun h1 _ ok e => ?_)
    subst e
    exact max_heapify_sim h1 idx (post_ok (set_dl_post true h idx d hl) ok).1
  · rw [if_neg c, if_neg c]
    refine sim_bind (set_dl_sim h idx d hl) (fun h1 _ ok e => ?_)
    subst e
    refine sim_bind (sift_up_sim h1 idx (post_ok (set_dl_post true h idx d hl) ok).1)
      (fun r _ _ e => ?_)
    subst e
    exact sim_pure _ _ rfl

theorem lock_eq (h : array_heap_t) (hl : h.lock = false) :
    Checked.pthread_spin_lock h = pure (pthread_spin_lock h) := by
  unfold Checked.pthread_spin_lock
  rw [hl]; rfl

theorem unlock_eq (h : array_heap_t) (hl : h.lock = true) :
    Checked.pthread_spin_unlock h = pure (pthread_spin_unlock h) := by
  unfold Checked.pthread_spin_unlock
  rw [hl]; rfl

theorem heap_set_sim (h : array_heap_t) (p : Int) (d : Nat) (v : Bool) (hl : h.lock = false) :
    SimR Eq (Checked.heap_set h p d v) (heap_set h p d v) := by
  have hl1 : (pthread_spin_lock h).lock = true := rfl
  unfold Checked.heap_set heap_set
  simp only [lock_eq h hl, pure_bind]
  generalize pthread_spin_lock h = h1 at hl1 ⊢
  refine sim_bind (load_idx_sim h1 p _ hl1 rfl) (fun old_idx _ _ e0 => ?_)
  subst e0
  by_cases c1 : (!v && old_idx == IDX_INVALID) = true
  · rw [if_pos c1, if_pos c1]
    simp only [unlock_eq h1 hl1, pure_bind]
    exact sim_pure _ _ rfl
  · rw [if_neg c1, if_neg c1]
    by_cases c2 : (!v) = true
    · rw [if_pos c2, if_pos c2]
      simp only [load_size_eq h1 hl1, pure_bind]
      refine sim_bind (load_el_sim h1 _ hl1) (fun last _ _ e1 => ?_)
      subst e1
      refine sim_bind (load_el_sim h1 _ hl1) (fun last2 _ _ e2 => ?_)
      subst e2
      refine sim_bind (set_dl_sim h1 _ _ hl1) (fun h2 _ ok2 e => ?_)
      subst e
      have l2 := (post_ok (set_dl_post true h1 _ _ hl1) ok2).1
      refine sim_bind (set_cpu_sim h2 _ _ l2) (fun h3 _ ok3 e => ?_)
      subst e
      have l3 := (post_ok (set_cpu_post true h2 _ _ l2) ok3).1
      simp only [load_size_eq h3 l3, store_size_eq h3 _ l3, pure_bind]
      have l4 : ({ h3 with size := h3.size - 1 } : array_heap_t).lock = true := l3
      generalize ({ h3 with size := h3.size - 1 } : array_heap_t) = h4 at l4 ⊢
      refine sim_bind (set_idx_sim h4 _ _ l4) (fun h5 _ ok5 e => ?_)
      subst e
      have l5 := (post_ok (store_idx_post true h4 _ _ l4) ok5).1
      refine sim_bind (set_idx_sim h5 _ _ l5) (fun h6 _ ok6 e => ?_)
      subst e
      have l6 := (post_ok (store_idx_post true h5 _ _ l5) ok6).1
      refine sim_bind (sift_up_sim h6 _ l6) (fun r7 _ ok7 e => ?_)
      subst e
      have l7 := (post_ok (sift_up_post true h6 _ l6) ok7).1
      refine sim_bind (max_heapify_sim r7.1 r7.2 l7) (fun h8 _ ok8 e => ?_)
      subst e
      have i0 : 0 ≤ old_idx := (post_ok (set_dl_post true h1 _ _ hl1) ok2).2.2
      have i7 := (post_ok (sift_up_post true h6 _ l6) ok7).2.2.2 i0
      have l8 := (post_ok (max_heapify_post true r7.1 r7.2 l7 i7) ok8).1
      simp only [unlock_eq h8 l8, pure_bind]
      exact sim_pure _ _ rfl
    · rw [if_neg c2, if_neg c2]
      by_cases c3 : (old_idx == IDX_INVALID) = true
      · simp only [c3, if_true, bind_assoc, load_size_eq h1 hl1, store_size_eq h1 _ hl1,
          pure_bind]
        have l2 : ({ h1 with size := h1.size + 1 } : array_heap_t).lock = true := hl1
        simp only [load_size_eq _ l2, pure_bind]
        refine sim_bind (set_dl_sim _ _ _ l2) (fun h3 _ ok3 e => ?_)
        subst e
        have l3 := (post_ok (set_dl_post true _ _ _ l2) ok3).1
        simp only [load_size_eq h3 l3, pure_bind]
        refine sim_bind (set_cpu_sim h3 _ _ l3) (fun h4 _ ok4 e => ?_)
        subst e
        have l4 := (post_ok (set_cpu_post true h3 _ _ l3) ok4).1
        simp only [load_size_eq h4 l4, pure_bind]
        refine sim_bind (set_idx_sim h4 _ _ l4) (fun h5 _ ok5 e => ?_)
        subst e
        have l5 := (post_ok (store_idx_post true h4 _ _ l4) ok5).1
        simp only [load_size_eq h5 l5, pure_bind]
        refine sim_bind (heap_change_key_sim h5 _ _ _ l5) (fun h6 _ ok6 e => ?_)
        subst e
        have l6 := post_ok (heap_change_key_post true h5 _ _ _ l5) ok6
        simp only [unlock_eq h6 l6, pure_bind]
        exact sim_pure _ _ rfl
      · simp only [c3, if_false, Bool.false_eq_true]
        refine sim_bind (heap_change_key_sim h1 _ _ _ hl1) (fun h6 _ ok6 e => ?_)
        subst e
        have l6 := post_ok (heap_change_key_post true h1 _ _ _ hl1) ok6
        simp only [unlock_eq h6 l6, pure_bind]
        exact sim_pure _ _ rfl


theorem array_heap_check_cpu_sim (h : array_heap_t) (p : Int) (d : Nat) (hl : h.lock = false) :
    SimR Eq (Checked.array_heap_check_cpu h p d) (array_heap_check_cpu h p d) := by
  have hl1 : (pthread_spin_lock h).lock = true := rfl
  unfold Checked.array_heap_check_cpu array_heap_check_cpu
  simp only [lock_eq h hl, pure_bind]
  generalize pthread_spin_lock h = h1 at hl1 ⊢
  refine sim_bind (load_idx_sim h1 p _ hl1 rfl) (fun i _ _ e0 => ?_)
  subst e0
  refine sim_bind (load_el_sim h1 i hl1) (fun x _ _ e1 => ?_)
  subst e1
  simp only [unlock_eq h1 hl1, pure_bind]
  exact sim_pure _ _ rfl

theorem save_slots_sim (h : array_heap_t) (hl : h.lock = true) :
    ∀ (n : Nat) (i : Int), SimR Eq (Checked.save_slots h n i) (save_slots h n i) := by
  intro n
  induction n with
  | zero => intro i; exact sim_pure _ _ rfl
  | succ m ih =>
    intro i
    unfold Checked.save_slots save_slots
    refine sim_bind (load_el_sim h i hl) (fun x _ _ e1 => ?_)
    subst e1
    refine sim_bind (load_el_sim h i hl) (fun y _ _ e2 => ?_)
    subst e2
    refine sim_bind (ih (i + 1)) (fun r _ _ e3 => ?_)
    subst e3
    exact sim_pure _ _ rfl

theorem save_index_sim (h : array_heap_t) (hl : h.lock = true) :
    ∀ (n : Nat) (i : Int), SimR Eq (Checked.save_index h n i) (save_index h n i) := by
  intro n
  induction n with
  | zero => intro i; exact sim_pure _ _ rfl
  | succ m ih =>
    intro i
    unfold Checked.save_index save_index
    refine sim_bind (load_idx_sim h i _ hl rfl) (fun x _ _ e1 => ?_)
    subst e1
    refine sim_bind (ih (i + 1)) (fun r _ _ e3 => ?_)
    subst e3
    exact sim_pure _ _ rfl

theorem array_heap_save_sim (h : array_heap_t) (nproc : Nat) (hl : h.lock = false) :
    SimR Eq (Checked.array_heap_save h nproc) (array_heap_save h nproc) := by
  have hl1 : (pthread_spin_lock h).lock = true := rfl
  unfold Checked.array_heap_save array_heap_save
  simp only [lock_eq h hl, pure_bind]
  generalize pthread_spin_lock h = h1 at hl1 ⊢
  simp only [load_size_eq h1 hl1, pure_bind]
  refine sim_bind (save_slots_sim h1 hl1 _ 0) (fun x _ _ e1 => ?_)
  subst e1
  refine sim_bind (save_index_sim h1 hl1 nproc 0) (fun y _ _ e2 => ?_)
  subst e2
  simp only [unlock_eq h1 hl1, pure_bind]
  exact sim_pure _ _ rfl

theorem check_iter_sim (h : array_heap_t) (i : Int) (hl : h.lock = true) :
    SimR Eq (Checked.check_iter h i) (check_iter h i) := by
  have gate : ∀ (x y : item), SimR Eq
      (if h.cmp_dl x.dl y.dl = true then do
          let ci ← Checked.load_idx h i
          pure (decide (ci ≠ IDX_INVALID))
        else pure false)
      (if h.cmp_dl x.dl y.dl = true then do
          let ci ← rd h.cpu_to_idx i
          pure (decide (ci ≠ IDX_INVALID))
        else pure false) := by
    intro x y
    by_cases hb : h.cmp_dl x.dl y.dl = true
    · rw [if_pos hb, if_pos hb]
      refine sim_bind (load_idx_sim h i _ hl rfl) (fun ci _ _ e => ?_)
      subst e
      exact sim_pure _ _ rfl
    · rw [if_neg hb, if_neg hb]; exact sim_pure _ _ rfl
  have child : ∀ c : Int, SimR Eq
      (if c < h.size then (do
          let x ← Checked.load_el h i
          let y ← Checked.load_el h c
          if h.cmp_dl x.dl y.dl = true then do
            let ci ← Checked.load_idx h i
            pure (decide (ci ≠ IDX_INVALID))
          else pure false)
        else pure false)
      (if c < h.size then (do
          let x ← rd h.elements i
          let y ← rd h.elements c
          if h.cmp_dl x.dl y.dl = true then do
            let ci ← rd h.cpu_to_idx i
            pure (decide (ci ≠ IDX_INVALID))
          else pure false)
        else pure false) := by
    intro c
    by_cases hc : c < h.size
    · rw [if_pos hc, if_pos hc]
      refine sim_bind (load_el_sim h i hl) (fun x _ _ e1 => ?_)
      subst e1
      refine sim_bind (load_el_sim h c hl) (fun y _ _ e2 => ?_)
      subst e2
      exact gate x y
    · rw [if_neg hc, if_neg hc]; exact sim_pure _ _ rfl
  unfold Checked.check_iter check_iter
  refine sim_bind (load_idx_sim h i _ hl rfl) (fun ci _ _ e => ?_)
  subst e
  by_cases hc : ci ≠ IDX_INVALID
  · simp only [hc, ne_eq, not_false_eq_true, if_true, bind_assoc]
    refine sim_bind (load_idx_sim h i _ hl rfl) (fun ci2 _ _ e => ?_)
    subst e
    refine sim_bind (load_el_sim h _ hl) (fun x _ _ e => ?_)
    subst e
    simp only [pure_bind]
    by_cases hb : decide (x.cpu ≠ i) = true
    · simp only [hb, if_true]; exact sim_pure _ _ rfl
    · simp only [hb, if_false, Bool.false_eq_true, load_size_eq h hl, pure_bind]
      by_cases hL : left_child i < h.size
      · simp only [hL, if_true, bind_assoc]
        refine sim_bind (load_el_sim h i hl) (fun x1 _ _ e => ?_)
        subst e
        refine sim_bind (load_el_sim h _ hl) (fun y1 _ _ e => ?_)
        subst e
        by_cases hcm : h.cmp_dl x1.dl y1.dl = true
        · simp only [hcm, if_true, bind_assoc]
          refine sim_bind (load_idx_sim h i _ hl rfl) (fun c3 _ _ e => ?_)
          subst e
          simp only [pure_bind]
          by_cases hd : decide (¬ c3 = IDX_INVALID) = true
          · simp only [hd, if_true]; exact sim_pure _ _ rfl
          · simp only [hd, if_false, Bool.false_eq_true]
            exact child (right_child i)
        · simp only [hcm, if_false, Bool.false_eq_true, pure_bind]
          exact child (right_child i)
      · simp only [hL, if_false, Bool.false_eq_true, pure_bind]
        exact child (right_child i)
  · have hc2 : ci = IDX_INVALID := not_not.mp hc
    subst hc2
    simp only [ne_eq, not_true_eq_false, if_false, Bool.false_eq_true, load_size_eq h hl,
      pure_bind]
    by_cases hL : left_child i < h.size
    · simp only [hL, if_true, bind_assoc]
      refine sim_bind (load_el_sim h i hl) (fun x1 _ _ e => ?_)
      subst e
      refine sim_bind (load_el_sim h _ hl) (fun y1 _ _ e => ?_)
      subst e
      by_cases hcm : h.cmp_dl x1.dl y1.dl = true
      · simp only [hcm, if_true, bind_assoc]
        refine sim_bind (load_idx_sim h i _ hl rfl) (fun c3 _ _ e => ?_)
        subst e
        simp only [pure_bind]
        by_cases hd : decide (¬ c3 = IDX_INVALID) = true
        · simp only [hd, if_true]; exact sim_pure _ _ rfl
        · simp only [hd, if_false, Bool.false_eq_true]
          exact child (right_child i)
      · simp only [hcm, if_false, Bool.false_eq_true, pure_bind]
        exact child (right_child i)
    · simp only [hL, if_false, Bool.false_eq_true, pure_bind]
      exact child (right_child i)

theorem check_loop_sim (h : array_heap_t) (hl : h.lock = true) :
    ∀ (n : Nat) (i : Int), SimR Eq (Checked.check_loop h n i) (check_loop h n i) := by
  intro n
  induction n with
  | zero => intro i; exact sim_pure _ _ rfl
  | succ m ih =>
    intro i
    unfold Checked.check_loop check_loop
    refine sim_bind (check_iter_sim h i hl) (fun bad _ _ e => ?_)
    subst e
    by_cases hb : bad = true
    · rw [if_pos hb, if_pos hb]; exact sim_pure _ _ rfl
    · rw [if_neg hb, if_neg hb]; exact ih (i + 1)

theorem array_heap_check_sim (h : array_heap_t) (nproc : Nat) (hl : h.lock = false) :
    SimR Eq (Checked.array_heap_check h nproc) (array_heap_check h nproc) := by
  have hl1 : (pthread_spin_lock h).lock = true := rfl
  unfold Checked.array_heap_check array_heap_check
  simp only [lock_eq h hl, pure_bind]
  generalize pthread_spin_lock h = h1 at hl1 ⊢
  refine sim_bind (check_loop_sim h1 hl1 nproc 0) (fun flag _ _ e => ?_)
  subst e
  simp only [unlock_eq h1 hl1, pure_bind]
  by_cases hf : flag = 0
  · rw [if_pos hf, if_pos hf]
    refine sim_bind (array_heap_save_sim (pthread_spin_unlock h1) nproc rfl) (fun r _ _ e => ?_)
    subst e
    exact sim_pure _ _ rfl
  · rw [if_neg hf, if_neg hf]; exact sim_pure _ _ rfl

theorem array_heap_find_sim (h : array_heap_t) :
    SimR Eq (Checked.array_heap_find h) (array_heap_find h) := by
  unfold Checked.array_heap_find array_heap_find Checked.heap_maximum heap_maximum
  by_cases hs : h.size > 0
  · rw [if_pos hs, if_pos hs]
    cases hr : rd h.elements 0 with
    | none => rfl
    | some e => exact ⟨e.cpu, rfl, rfl⟩
  · rw [if_neg hs, if_neg hs]; exact sim_pure _ _ rfl

theorem sim_some {α : Type} {x : Except fault_kind α} {a : α}
    (hs : SimR Eq x (some a)) : x = Except.ok a := by
  cases x with
  | error e => exact absurd hs (by simp [SimR])
  | ok b =>
    obtain ⟨a', e1, e2⟩ := hs
    cases e1
    rw [e2]

/-! ## Runs of `heap_set` calls -/

theorem reachable_run_ops {nproc : Nat} {cmp : Nat → Nat → Bool} :
    ∀ (ops : List (Int × Nat × Bool)) (h h' : array_heap_t), Reachable nproc cmp h →
      (∀ op, op ∈ ops → 0 ≤ op.1 ∧ op.1 < (nproc : Int)) →
      run_ops h ops = some h' → Reachable nproc cmp h' := by
  intro ops
  induction ops with
  | nil =>
    intro h h' hr _ e
    simp only [run_ops, Option.some.injEq] at e
    rw [← e]; exact hr
  | cons op ops ih =>
    intro h h' hr hv e
    obtain ⟨cpu, dline, v⟩ := op
    have hop := hv (cpu, dline, v) (List.mem_cons_self _ _)
    simp only [run_ops, Option.bind_eq_bind] at e
    cases hset : heap_set h cpu dline v with
    | none => rw [hset] at e; cases e
    | some res =>
      obtain ⟨h1, r⟩ := res
      rw [hset] at e
      exact ih h1 h' (Reachable.step hr hop.1 hop.2 hset)
        (fun op' hm => hv op' (List.mem_cons_of_mem _ hm)) e

theorem sc_full_reachable : Reachable 4 lt_cmp sc_full :=
  reachable_run_ops scenario_ops (array_heap_init zero_mem 4 lt_cmp) sc_full
    (Reachable.init zero_mem) (by decide) (by rfl)

theorem sc_removed_reachable : Reachable 4 lt_cmp sc_removed :=
  reachable_run_ops [(3, 0, false)] sc_full sc_removed sc_full_reachable (by decide) (by rfl)

theorem sc_updated_reachable : Reachable 4 lt_cmp sc_updated :=
  reachable_run_ops [(1, 30, true)] sc_removed sc_updated sc_removed_reachable (by decide)
    (by rfl)

theorem up_before_reachable : Reachable 6 lt_cmp up_before :=
  reachable_run_ops
    [(0, 20, true), (1, 5, true), (2, 15, true), (3, 3, true), (4, 4, true), (5, 12, true)]
    (array_heap_init zero_mem 6 lt_cmp) up_before (Reachable.init zero_mem) (by decide) (by rfl)

theorem down_before_reachable : Reachable 4 lt_cmp down_before :=
  reachable_run_ops [(0, 20, true), (1, 10, true), (2, 15, true), (3, 5, true)]
    (array_heap_init zero_mem 4 lt_cmp) down_before (Reachable.init zero_mem) (by decide)
    (by rfl)


/-! ## Properties of the heap: claims C11 to C18 -/

/-- Claim C11 (empty sentinel).  In a reachable state `array_heap_find` returns
`-1` when `size == 0` and `elements[0].cpu` otherwise; the value returned is `-1`
if and only if no processor is present, and otherwise a processor id in
`[0, nproc)`.  Right after `array_heap_init` it is `-1`. -/
theorem find_empty_sentinel (nproc : Nat) (cmp : Nat → Nat → Bool) (h : array_heap_t)
    (hr : Reachable nproc cmp h) :
    (h.size = 0 → array_heap_find h = some (-1)) ∧
      (h.size ≠ 0 → ∃ e, rd h.elements 0 = some e ∧ array_heap_find h = some e.cpu) ∧
      (∃ r, array_heap_find h = some r ∧ (r = -1 ↔ ∀ x, x ∉ entries h) ∧
        (r ≠ -1 → 0 ≤ r ∧ r < (nproc : Int))) ∧
      (∀ mem, array_heap_find (array_heap_init mem nproc cmp) = some (-1)) := by
  obtain ⟨hc, _, _⟩ := hr.consistent
  have hs0 := hc.size_nonneg
  have hlen : h.size ≤ (h.elements.length : Int) := by rw [hc.len_el]; exact hc.size_le
  have hzero : h.size = 0 → array_heap_find h = some (-1) := by
    intro hz
    unfold array_heap_find
    rw [if_neg (by omega)]
    rfl
  have hpos : h.size ≠ 0 → array_heap_find h = some (el h 0).cpu := by
    intro hz
    unfold array_heap_find heap_maximum
    rw [if_pos (by omega), rd_elements h 0 (le_refl _) (by omega)]
    rfl
  refine ⟨hzero, ?_, ?_, ?_⟩
  · intro hz
    exact ⟨el h 0, rd_elements h 0 (le_refl _) (by omega), hpos hz⟩
  · by_cases hz : h.size = 0
    · refine ⟨-1, hzero hz, ?_, fun hne => absurd rfl hne⟩
      constructor
      · intro _ x hx
        obtain ⟨i, i0, i1, _⟩ := (mem_entries_iff h hlen x).mp hx
        omega
      · intro _; rfl
    · obtain ⟨c0, c1, _⟩ := hc.cpu_ok 0 (le_refl _) (by omega)
      refine ⟨(el h 0).cpu, hpos hz, ?_, fun _ => ⟨c0, c1⟩⟩
      constructor
      · intro he; omega
      · intro hall
        exact absurd ((mem_entries_iff h hlen _).mpr ⟨0, le_refl _, by omega, rfl⟩)
          (hall (el h 0))
  · intro mem; rfl

/-- A reachable one-entry heap, for claim C11. -/
theorem find_empty_sentinel_witness :
    (lt_one.size = 0 → array_heap_find lt_one = some (-1)) ∧
      (lt_one.size ≠ 0 →
        ∃ e, rd lt_one.elements 0 = some e ∧ array_heap_find lt_one = some e.cpu) ∧
      (∃ r, array_heap_find lt_one = some r ∧ (r = -1 ↔ ∀ x, x ∉ entries lt_one) ∧
        (r ≠ -1 → 0 ≤ r ∧ r < ((2 : Nat) : Int))) ∧
      (∀ mem, array_heap_find (array_heap_init mem 2 lt_cmp) = some (-1)) :=
  find_empty_sentinel 2 lt_cmp lt_one lt_one_reachable

/-- Claim C12 as stated fails.  With the less-than comparator and capacity 4,
after inserting (p0,10), (p1,5), (p2,20), (p3,1) the smallest deadline is that
of processor 3, and `array_heap_find` returns processor 2, whose deadline 20 is
the largest. -/
theorem edf_scenario_counterexample :
    run_ops (array_heap_init zero_mem 4 lt_cmp) scenario_ops = some sc_full ∧
      Reachable 4 lt_cmp sc_full ∧
      ({ dl := 1, cpu := 3 } : item) ∈ entries sc_full ∧
      ({ dl := 20, cpu := 2 } : item) ∈ entries sc_full ∧
      array_heap_find sc_full = some 2 :=
  ⟨by rfl, sc_full_reachable, by decide, by decide, by decide⟩

/-- Claim C12, amended.  Supplying the comparator "deadline less-than" yields
latest-deadline-first selection: in every reachable non-empty state
`array_heap_find` returns the processor of a stored entry whose deadline is the
largest of all stored deadlines. -/
theorem less_than_selects_latest (nproc : Nat) (h : array_heap_t)
    (hr : Reachable nproc lt_cmp h) (hne : ∃ x, x ∈ entries h) :
    ∃ r, r ∈ entries h ∧ array_heap_find h = some r.cpu ∧
      ∀ q, q ∈ entries h → q.dl ≤ r.dl := by
  obtain ⟨hc, _, hm⟩ := hr.consistent
  have hh := hr.heap lt_cmp_strictWeakOrder
  have hlen : h.size ≤ (h.elements.length : Int) := by rw [hc.len_el]; exact hc.size_le
  have hs' : StrictWeakOrder h.cmp_dl := by rw [hm]; exact lt_cmp_strictWeakOrder
  obtain ⟨x, hx⟩ := hne
  obtain ⟨i, i0, i1, _⟩ := (mem_entries_iff h hlen x).mp hx
  have hpos : h.size > 0 := by omega
  refine ⟨el h 0, (mem_entries_iff h hlen _).mpr ⟨0, le_refl _, hpos, rfl⟩, ?_, ?_⟩
  · unfold array_heap_find heap_maximum
    rw [if_pos hpos, rd_elements h 0 (le_refl _) (by omega)]
    rfl
  · intro q hq
    obtain ⟨j, j0, j1, e⟩ := (mem_entries_iff h hlen q).mp hq
    have := hh.root_max hs' hc j.toNat j j0 j1 (by omega)
    rw [hm, e] at this
    simpa [lt_cmp] using this

/-- The three steps of scenarios 1 and 2 under the less-than comparator, for
claim C12: the extremum is processor 2 after the four insertions, still
processor 2 after the removal of processor 3, and processor 1 after its
deadline is raised from 5 to 30. -/
theorem less_than_selects_latest_witness :
    (∃ r, r ∈ entries sc_full ∧ array_heap_find sc_full = some r.cpu ∧
      ∀ q, q ∈ entries sc_full → q.dl ≤ r.dl) ∧
      array_heap_find sc_full = some 2 ∧
      heap_set sc_full 3 0 false = some (sc_removed, some (-1)) ∧
      array_heap_find sc_removed = some 2 ∧
      heap_set sc_removed 1 30 true = some (sc_updated, none) ∧
      array_heap_find sc_updated = some 1 :=
  ⟨less_than_selects_latest 4 sc_full sc_full_reachable ⟨{ dl := 20, cpu := 2 }, by decide⟩,
    by decide, by rfl, by decide, by rfl, by decide⟩

/-- With the comparator "deadline greater-than" the same three steps select the
earliest deadline: processor 3, then processor 1, then processor 0. -/
theorem greater_than_scenario :
    (run_ops (array_heap_init zero_mem 4 gt_cmp) scenario_ops).bind array_heap_find = some 3 ∧
      (run_ops (array_heap_init zero_mem 4 gt_cmp)
        (scenario_ops ++ [(3, 0, false)])).bind array_heap_find = some 1 ∧
      (run_ops (array_heap_init zero_mem 4 gt_cmp)
        (scenario_ops ++ [(3, 0, false), (1, 30, true)])).bind array_heap_find = some 0 :=
  ⟨by decide, by decide, by decide⟩

/-- Claim C13 as stated fails.  Processor 1 is present in slot 1 of a reachable
state, and its removal returns `-1`, the value also returned for an absent
processor. -/
theorem removal_return_counterexample :
    Reachable 2 lt_cmp lt_two ∧ rd lt_two.cpu_to_idx 1 = some 1 ∧
      Option.map Prod.snd (heap_set lt_two 1 0 false) = some (some (-1)) :=
  ⟨lt_two_reachable, by decide, by decide⟩

/-- Claim C13, amended.  In a reachable state, for a valid processor `p`,
`heap_set(p, _, 0)` returns `-1` when `p` had no entry before the call, and it
returns `-1` as well when `p` had one. -/
theorem removal_returns_minus_one (nproc : Nat) (cmp : Nat → Nat → Bool) (h : array_heap_t)
    (hr : Reachable nproc cmp h) (p : Int) (p0 : 0 ≤ p) (p1 : p < (nproc : Int)) (d : Nat) :
    ∃ h', heap_set h p d false = some (h', some (-1)) := by
  obtain ⟨hc, _, _⟩ := hr.consistent
  by_cases hp : ix h p = IDX_INVALID
  · have hrd : rd h.cpu_to_idx p = some IDX_INVALID := by
      rw [← hp]; exact rd_cpu_to_idx h p p0 (by rw [hc.len_idx]; exact p1)
    exact ⟨_, heap_set_absent h p d hrd⟩
  · obtain ⟨h', e, _⟩ := heap_set_remove_spec hc p p0 p1 hp d
    exact ⟨h', e⟩

/-- Removal of the present processor 1 from a reachable state, for claim C13. -/
theorem removal_returns_minus_one_witness :
    Reachable 2 lt_cmp lt_two ∧ ∃ h', heap_set lt_two 1 0 false = some (h', some (-1)) :=
  ⟨lt_two_reachable,
    removal_returns_minus_one 2 lt_cmp lt_two lt_two_reachable 1 (by decide) (by decide) 0⟩

/-- For an absent processor `array_heap_check_cpu` indexes `elements` with the
sentinel, which is outside the block. -/
theorem check_cpu_reads_sentinel (h : array_heap_t) (p : Int) (d : Nat)
    (hp : rd h.cpu_to_idx p = some IDX_INVALID) :
    array_heap_check_cpu h p d = none := by
  have hneg : rd h.elements IDX_INVALID = none := rd_eq_none_of_neg _ _ (by decide)
  simp [array_heap_check_cpu, pthread_spin_lock, hp, hneg]

/-- Claim C14 fails on the code.  In a reachable state where processor 1 is
absent, `array_heap_check_cpu(1, 0)` reads `elements[cpu_to_idx[1]]`, that is
`elements[-1]`, an access outside the block: the run faults instead of
returning 0. -/
theorem check_cpu_absent_fault :
    Reachable 2 lt_cmp lt_one ∧ rd lt_one.cpu_to_idx 1 = some IDX_INVALID ∧
      rd lt_one.elements IDX_INVALID = none ∧ array_heap_check_cpu lt_one 1 0 = none :=
  ⟨lt_one_reachable, by decide, by decide, by rfl⟩

/-- Claim C15 fails on the code.  In the state `unordered` the occupied index 0
is beaten by its left child, index 1, but processor 0 is absent, so the test of
`array_heap_check` for `i = 0` is switched off and the function returns 1. -/
theorem check_misses_violation :
    unordered.size ≤ 3 ∧ (0 : Int) < unordered.size ∧ left_child 0 < unordered.size ∧
      rd unordered.elements 0 = some { dl := 5, cpu := 1 } ∧
      rd unordered.elements (left_child 0) = some { dl := 10, cpu := 2 } ∧
      unordered.cmp_dl 5 10 = true ∧
      rd unordered.cpu_to_idx 0 = some IDX_INVALID ∧
      array_heap_check unordered 3 = some (unordered, 1) :=
  ⟨by decide, by decide, by decide, by decide, by decide, by decide, by decide, by rfl⟩

/-- On its insertion and update paths `heap_set` returns the local `idx`, which
no statement assigns. -/
theorem heap_set_valid_returns_idx (nproc : Nat) (cmp : Nat → Nat → Bool) (h : array_heap_t)
    (hr : Reachable nproc cmp h) (p : Int) (p0 : 0 ≤ p) (p1 : p < (nproc : Int)) (d : Nat) :
    ∃ h', heap_set h p d true = some (h', none) := by
  obtain ⟨h', e, _⟩ := heap_set_valid_spec hr.consistent.1 p p0 p1 d
  exact ⟨h', e⟩

/-- Claim C16 fails on the code.  The insertion of processor 0 into the empty
heap places its entry in slot 0, so `cpu_to_idx[0]` is 0 afterwards, but the
value returned is that of the unassigned local `idx`; likewise for the update
of processor 1 in a two-entry heap. -/
theorem insert_return_unassigned :
    heap_set (array_heap_init zero_mem 2 lt_cmp) 0 10 true = some (lt_one, none) ∧
      rd lt_one.cpu_to_idx 0 = some 0 ∧
      Option.map Prod.snd (heap_set lt_two 1 7 true) = some none :=
  ⟨by rfl, by decide, by decide⟩

/-- Claim C17 (max-heap invariant in the code's direction).  For a strict weak
order `cmp`: in every reachable state no entry at an index `1 <= i < size`
beats its parent; and from any consistent state with that property and with
the lock free each of the three paths of `heap_set` (removal, insertion,
update) returns, in the plain and in the instrumented model alike, and leads
to a state with that property and with the lock free. -/
theorem max_heap_invariant (nproc : Nat) (cmp : Nat → Nat → Bool)
    (hs : StrictWeakOrder cmp) :
    (∀ h, Reachable nproc cmp h → ∀ i, 1 ≤ i → i < h.size →
      ∃ x y, rd h.elements (parent i) = some x ∧ rd h.elements i = some y ∧
        cmp x.dl y.dl = false) ∧
    (∀ h, h.lock = false → Consistent nproc h → h.cmp_dl = cmp → Heap h →
      ∀ p, 0 ≤ p → p < (nproc : Int) → ∀ d,
        (ix h p ≠ IDX_INVALID →
          ∃ h', heap_set h p d false = some (h', some (-1)) ∧
            Checked.heap_set h p d false = Except.ok (h', some (-1)) ∧
            h'.lock = false ∧ h'.size = h.size - 1 ∧ Heap h') ∧
        (ix h p = IDX_INVALID →
          ∃ h', heap_set h p d true = some (h', none) ∧
            Checked.heap_set h p d true = Except.ok (h', none) ∧
            h'.lock = false ∧ h'.size = h.size + 1 ∧ Heap h') ∧
        (ix h p ≠ IDX_INVALID →
          ∃ h', heap_set h p d true = some (h', none) ∧
            Checked.heap_set h p d true = Except.ok (h', none) ∧
            h'.lock = false ∧ h'.size = h.size ∧ Heap h')) := by
  constructor
  · intro h hr i i0 i1
    obtain ⟨hc, _, hm⟩ := hr.consistent
    have hsz := hc.size_le
    have hp0 := parent_nonneg i0
    have hp1 := parent_lt i0
    have e := hr.heap hs i i0 i1
    unfold EdgeOK at e
    rw [hm] at e
    exact ⟨el h (parent i), el h i, rd_elements h _ hp0 (by rw [hc.len_el]; omega),
      rd_elements h _ (by omega) (by rw [hc.len_el]; omega), e⟩
  · intro h hl hc hm hh p p0 p1 d
    have hs' : StrictWeakOrder h.cmp_dl := by rw [hm]; exact hs
    refine ⟨?_, ?_, ?_⟩
    · intro hp
      obtain ⟨h', e, _, l, _, z, k⟩ := heap_set_remove_spec hc p p0 p1 hp d
      exact ⟨h', e, sim_some (e ▸ heap_set_sim h p d false hl), l, z, (k hs' hh).2⟩
    · intro hp
      obtain ⟨h', e, _, l, _, z, _, k⟩ := heap_set_valid_spec hc p p0 p1 d
      rw [if_pos hp] at z
      exact ⟨h', e, sim_some (e ▸ heap_set_sim h p d true hl), l, z, k hs' hh⟩
    · intro hp
      obtain ⟨h', e, _, l, _, z, _, k⟩ := heap_set_valid_spec hc p p0 p1 d
      rw [if_neg hp] at z
      exact ⟨h', e, sim_some (e ▸ heap_set_sim h p d true hl), l, z, k hs' hh⟩

/-- The removal of processor 1 from a reachable two-entry heap under the
less-than comparator, for claim C17. -/
theorem max_heap_invariant_witness :
    StrictWeakOrder lt_cmp ∧ lt_two.lock = false ∧
      ∃ h', heap_set lt_two 1 0 false = some (h', some (-1)) ∧
        Checked.heap_set lt_two 1 0 false = Except.ok (h', some (-1)) ∧
        h'.lock = false ∧ h'.size = lt_two.size - 1 ∧ Heap h' :=
  ⟨lt_cmp_strictWeakOrder, rfl,
    ((max_heap_invariant 2 lt_cmp lt_cmp_strictWeakOrder).2 lt_two rfl
      lt_two_reachable.consistent.1 rfl (lt_two_reachable.heap lt_cmp_strictWeakOrder)
      1 (by decide) (by decide) 0).1 (by decide)⟩

/-- Claim C18 (both repair passes of removal are needed), with the less-than
comparator.  Removing processor 3 from `up_before` frees slot 3; the relocated
entry of processor 5 ends in slot 1, and `max_heapify` alone would leave it in
slot 3 below a parent it beats.  Removing processor 0 from `down_before` frees
slot 0; the relocated entry of processor 3 ends in slot 2, and the sift-up loop
alone would leave it at the root below a child that beats it. -/
theorem both_repairs_needed :
    (Reachable 6 lt_cmp up_before ∧ rd up_before.cpu_to_idx 3 = some 3 ∧
      rd up_before.elements (up_before.size - 1) = some { dl := 12, cpu := 5 } ∧
      heap_set up_before 3 0 false = some (up_after, some (-1)) ∧
      rd up_after.cpu_to_idx 5 = some 1 ∧ (1 : Int) < 3 ∧
      max_heapify (rem_state up_before 3) 3 = some up_without_sift ∧
      rd up_without_sift.elements (parent 3) = some { dl := 5, cpu := 1 } ∧
      rd up_without_sift.elements 3 = some { dl := 12, cpu := 5 } ∧
      up_without_sift.cmp_dl 5 12 = true) ∧
    (Reachable 4 lt_cmp down_before ∧ rd down_before.cpu_to_idx 0 = some 0 ∧
      rd down_before.elements (down_before.size - 1) = some { dl := 5, cpu := 3 } ∧
      heap_set down_before 0 0 false = some (down_after, some (-1)) ∧
      rd down_after.cpu_to_idx 3 = some 2 ∧ (0 : Int) < 2 ∧
      sift_up (rem_state down_before 0) 0 = some (down_without_heapify, 0) ∧
      rd down_without_heapify.elements 0 = some { dl := 5, cpu := 3 } ∧
      rd down_without_heapify.elements (left_child 0) = some { dl := 10, cpu := 1 } ∧
      down_without_heapify.cmp_dl 5 10 = true) :=
  ⟨⟨up_before_reachable, by decide, by decide, by rfl, by decide, by decide, by rfl,
      by decide, by decide, by decide⟩,
    ⟨down_before_reachable, by decide, by decide, by rfl, by decide, by decide, by rfl,
      by decide, by decide, by decide⟩⟩

/-! ## The child indices on `int` agree with the mathematical ones in range -/

theorem int32_eq (x : Int) (h0 : -2147483648 ≤ x) (h1 : x ≤ 2147483647) : int32 x = x := by
  unfold int32; omega

theorem machine_left_child_eq (i : Int) (h0 : 0 ≤ i) (h1 : i ≤ 1073741822) :
    Machine.left_child i = left_child i := by
  unfold Machine.left_child left_child
  rw [int32_eq (i * 2) (by omega) (by omega), int32_eq _ (by omega) (by omega)]
  omega

theorem machine_right_child_eq (i : Int) (h0 : 0 ≤ i) (h1 : i ≤ 1073741822) :
    Machine.right_child i = right_child i := by
  unfold Machine.right_child right_child
  rw [int32_eq (i * 2) (by omega) (by omega), int32_eq _ (by omega) (by omega)]
  omega

theorem exchange_size {h h' : array_heap_t} {a b : Int} (e : exchange h a b = some h') :
    h'.size = h.size := by
  unfold exchange at e
  simp only [Option.bind_eq_bind, Option.pure_def, Option.bind_eq_some] at e
  obtain ⟨_, _, _, _, _, _, _, _, _, _, _, _, _, _, _, _, e⟩ := e
  cases e
  rfl

theorem bind_congr_some {α β : Type} {x : Option α} {f g : α → Option β}
    (hfg : ∀ a, x = some a → f a = g a) : x >>= f = x >>= g := by
  cases x with
  | none => rfl
  | some a => exact hfg a rfl

theorem machine_max_heapify_fuel_eq :
    ∀ (fuel : Nat) (h : array_heap_t) (idx : Int), 0 ≤ idx → idx ≤ 1073741822 →
      h.size ≤ 1073741823 →
      Machine.max_heapify_fuel fuel h idx = max_heapify_fuel fuel h idx := by
  intro fuel
  induction fuel with
  | zero => intro h idx _ _ _; rfl
  | succ n ih =>
    intro h idx h0 h1 hs
    have tail : ∀ lg : Int, (lg ≠ idx → 0 ≤ lg ∧ lg < h.size) →
        (if lg ≠ idx then do
            let h ← exchange h lg idx
            Machine.max_heapify_fuel n h lg
          else pure h) =
        (if lg ≠ idx then do
            let h ← exchange h lg idx
            max_heapify_fuel n h lg
          else pure h) := by
      intro lg hb
      by_cases hne : lg ≠ idx
      · rw [if_pos hne, if_pos hne]
        obtain ⟨b0, b1⟩ := hb hne
        refine bind_congr_some (fun h1 e => ?_)
        exact ih h1 lg b0 (by omega) (by rw [exchange_size e]; exact hs)
      · rw [if_neg hne, if_neg hne]
    unfold Machine.max_heapify_fuel max_heapify_fuel
    rw [machine_left_child_eq idx h0 h1, machine_right_child_eq idx h0 h1]
    have l0 : 0 ≤ left_child idx := by unfold left_child; omega
    have r0 : 0 ≤ right_child idx := by unfold right_child; omega
    by_cases hc : left_child idx < h.size
    · simp only [hc, if_true, bind_assoc, pure_bind]
      refine bind_congr_some (fun x _ => ?_)
      refine bind_congr_some (fun y _ => ?_)
      by_cases hr : right_child idx < h.size
      · simp only [hr, if_true, bind_assoc, pure_bind]
        refine bind_congr_some (fun x2 _ => ?_)
        refine bind_congr_some (fun y2 _ => ?_)
        refine tail _ (fun _ => ?_)
        by_cases c2 : h.cmp_dl x2.dl y2.dl = true
        · rw [if_pos c2]; exact ⟨r0, hr⟩
        · rw [if_neg c2]
          by_cases c1 : h.cmp_dl x.dl y.dl = true
          · rw [if_pos c1]; exact ⟨l0, hc⟩
          · rw [if_neg c1]; exact ⟨h0, by unfold left_child at hc; omega⟩
      · simp only [hr, if_false, pure_bind, Bool.false_eq_true]
        refine tail _ (fun _ => ?_)
        by_cases c1 : h.cmp_dl x.dl y.dl = true
        · rw [if_pos c1]; exact ⟨l0, hc⟩
        · rw [if_neg c1]; exact ⟨h0, by unfold left_child at hc; omega⟩
    · simp only [hc, if_false, pure_bind, Bool.false_eq_true]
      have hr : ¬ right_child idx < h.size := by
        unfold left_child at hc; unfold right_child; omega
      simp only [hr, if_false, pure_bind, Bool.false_eq_true]
      refine tail _ (fun hne => ?_)
      exact absurd rfl hne

theorem machine_max_heapify_eq (h : array_heap_t) (idx : Int) (h0 : 0 ≤ idx)
    (h1 : idx ≤ 1073741822) (hs : h.size ≤ 1073741823) :
    Machine.max_heapify h idx = max_heapify h idx :=
  machine_max_heapify_fuel_eq _ h idx h0 h1 hs

theorem sift_up_fuel_le :
    ∀ (fuel : Nat) (h : array_heap_t) (idx : Int) (r : array_heap_t × Int),
      sift_up_fuel fuel h idx = some r → r.2 ≤ idx := by
  intro fuel
  induction fuel with
  | zero => intro h idx r e; simp [sift_up_fuel] at e
  | succ n ih =>
    intro h idx r e
    unfold sift_up_fuel at e
    by_cases hpos : idx > 0
    · rw [if_pos hpos] at e
      simp only [Option.bind_eq_bind, Option.pure_def, Option.bind_eq_some] at e
      obtain ⟨x, _, y, _, e⟩ := e
      by_cases c : h.cmp_dl x.dl y.dl = true
      · rw [if_pos c] at e
        simp only [Option.bind_eq_some] at e
        obtain ⟨h1, _, e⟩ := e
        have := ih h1 (parent idx) r e
        have := parent_lt (i := idx) (by omega)
        omega
      · rw [if_neg c] at e
        cases e
        exact le_refl _
    · rw [if_neg hpos] at e
      cases e
      exact le_refl _

theorem machine_heap_set_insert_eq {nproc : Nat} {h : array_heap_t} (hc : Consistent nproc h)
    (p : Int) (p0 : 0 ≤ p) (p1 : p < (nproc : Int)) (hp : ix h p = IDX_INVALID) (d : Nat) :
    Machine.heap_set h p d true =
      (sift_up (ins_state h p d) h.size).bind fun r => some (pthread_spin_unlock r.1, none) := by
  have hla := hc.len_el
  have hli := hc.len_idx
  have hs0 := hc.size_nonneg
  have hs1 := hc.size_lt_of_absent p p0 p1 hp
  have hlt : h.size < (h.elements.length : Int) := by omega
  have hpl : p < (h.cpu_to_idx.length : Int) := by omega
  have r1 : rd h.cpu_to_idx p = some IDX_INVALID := by
    rw [← hp]; exact rd_cpu_to_idx h p p0 (by omega)
  simp [Machine.heap_set, Machine.heap_change_key, set_dl, set_cpu, set_idx,
    pthread_spin_lock, r1, rd_set_same, rd_in_bounds, wr_eq_set, hs0, hlt, p0, hpl, ins_state]
  simp only [Option.bind_assoc, Option.some_bind]

theorem machine_heap_set_update_eq {nproc : Nat} {h : array_heap_t} (hc : Consistent nproc h)
    (p : Int) (p0 : 0 ≤ p) (p1 : p < (nproc : Int)) (hp : ix h p ≠ IDX_INVALID) (d : Nat) :
    Machine.heap_set h p d true =
      (if h.cmp_dl d (el h (ix h p)).dl = true then
          Machine.max_heapify (upd_state h (ix h p) d) (ix h p)
        else (sift_up (upd_state h (ix h p) d) (ix h p)).bind fun r => some r.1).bind
        fun h' => some (pthread_spin_unlock h', none) := by
  have hla := hc.len_el
  have hli := hc.len_idx
  have hsz := hc.size_le
  have hpl : p < (h.cpu_to_idx.length : Int) := by omega
  have r1 : rd h.cpu_to_idx p = some (ix h p) := rd_cpu_to_idx h p p0 hpl
  obtain ⟨q0, q1, q2⟩ := (hc.idx_ok p p0 p1).resolve_left hp
  have hlt : ix h p < (h.elements.length : Int) := by omega
  have hbeq : (ix h p == IDX_INVALID) = false := by simpa using hp
  have r2 : rd h.elements (ix h p) = some (el h (ix h p)) := rd_elements h _ q0 hlt
  simp [Machine.heap_set, Machine.heap_change_key, set_dl, pthread_spin_lock, r1, r2, hbeq, hp,
    wr_eq_set, q0, hlt, upd_state]

theorem machine_heap_set_remove_eq {nproc : Nat} {h : array_heap_t} (hc : Consistent nproc h)
    (p : Int) (p0 : 0 ≤ p) (p1 : p < (nproc : Int)) (hp : ix h p ≠ IDX_INVALID) (d : Nat) :
    Machine.heap_set h p d false =
      (sift_up (rem_state h p) (ix h p)).bind fun r =>
        (Machine.max_heapify r.1 r.2).bind fun h' =>
          some (pthread_spin_unlock h', some (-1)) := by
  have hla := hc.len_el
  have hli := hc.len_idx
  have hsz := hc.size_le
  have hpl : p < (h.cpu_to_idx.length : Int) := by omega
  have r1 : rd h.cpu_to_idx p = some (ix h p) := rd_cpu_to_idx h p p0 hpl
  obtain ⟨q0, q1, q2⟩ := (hc.idx_ok p p0 p1).resolve_left hp
  have hlt : ix h p < (h.elements.length : Int) := by omega
  have hbeq : (ix h p == IDX_INVALID) = false := by simpa using hp
  have l0 : 0 ≤ h.size - 1 := by omega
  have l1 : h.size - 1 < (h.elements.length : Int) := by omega
  obtain ⟨c0, c1, c2⟩ := hc.cpu_ok (h.size - 1) l0 (by omega)
  have c1' : (el h (h.size - 1)).cpu < (h.cpu_to_idx.length : Int) := by omega
  have r2 : rd h.elements (h.size - 1) = some (el h (h.size - 1)) := rd_elements h _ l0 l1
  simp [Machine.heap_set, set_dl, set_cpu, set_idx, pthread_spin_lock, r1, r2, hbeq, hp,
    rd_set_same, rd_in_bounds, wr_eq_set, q0, hlt, c0, c1', p0, hpl, rem_state]

theorem machine_heap_set_absent (h : array_heap_t) (p : Int) (d : Nat)
    (hp : rd h.cpu_to_idx p = some IDX_INVALID) :
    Machine.heap_set h p d false = some (pthread_spin_unlock h, some (-1)) := by
  simp [Machine.heap_set, pthread_spin_lock, pthread_spin_unlock, hp]

theorem machine_heap_set_eq {nproc : Nat} {h : array_heap_t} (hc : Consistent nproc h)
    (hn : nproc ≤ 1073741823) (p : Int) (p0 : 0 ≤ p) (p1 : p < (nproc : Int)) (d : Nat)
    (v : Bool) : Machine.heap_set h p d v = heap_set h p d v := by
  have hsz := hc.size_le
  have hnb : (nproc : Int) ≤ 1073741823 := by exact_mod_cast hn
  by_cases hp : ix h p = IDX_INVALID
  · cases v with
    | true => rw [machine_heap_set_insert_eq hc p p0 p1 hp d, heap_set_insert_eq hc p p0 p1 hp d]
    | false =>
      have hrd : rd h.cpu_to_idx p = some IDX_INVALID := by
        rw [← hp]; exact rd_cpu_to_idx h p p0 (by rw [hc.len_idx]; exact p1)
      rw [machine_heap_set_absent h p d hrd, heap_set_absent h p d hrd]
  · obtain ⟨q0, q1, _⟩ := (hc.idx_ok p p0 p1).resolve_left hp
    cases v with
    | true =>
      rw [machine_heap_set_update_eq hc p p0 p1 hp d, heap_set_update_eq hc p p0 p1 hp d,
        machine_max_heapify_eq _ _ q0 (by omega) (by show h.size ≤ 1073741823; omega)]
    | false =>
      rw [machine_heap_set_remove_eq hc p p0 p1 hp d, heap_set_remove_eq hc p p0 p1 hp d]
      obtain ⟨h1, idx1, e1, c1, z1, _, i0, _⟩ := sift_up_rem_state hc p p0 p1 hp
      have hle : idx1 ≤ ix h p := sift_up_fuel_le _ _ _ (h1, idx1) e1
      rw [e1]
      show (Machine.max_heapify h1 idx1).bind _ = (max_heapify h1 idx1).bind _
      rw [machine_max_heapify_eq h1 idx1 i0 (by omega) (by omega)]

/-! ## Completion and lock discipline: claims C19 and C20 -/

theorem heap_set_total {nproc : Nat} {h : array_heap_t} (hc : Consistent nproc h)
    (p : Int) (p0 : 0 ≤ p) (p1 : p < (nproc : Int)) (d : Nat) (v : Bool) :
    ∃ h' r, heap_set h p d v = some (h', r) := by
  cases v with
  | true =>
    obtain ⟨h', e, _⟩ := heap_set_valid_spec hc p p0 p1 d
    exact ⟨h', none, e⟩
  | false =>
    by_cases hp : ix h p = IDX_INVALID
    · have hrd : rd h.cpu_to_idx p = some IDX_INVALID := by
        rw [← hp]; exact rd_cpu_to_idx h p p0 (by rw [hc.len_idx]; exact p1)
      exact ⟨_, _, heap_set_absent h p d hrd⟩
    · obtain ⟨h', e, _⟩ := heap_set_remove_spec hc p p0 p1 hp d
      exact ⟨h', some (-1), e⟩

theorem not_budget_of_post {α : Type} {b : Bool} {x : Except fault_kind α} {Q : α → Prop}
    (hx : Post (inner_fault b) x Q) : x ≠ Except.error fault_kind.budget := by
  intro he
  rcases post_error hx he with h | ⟨h, _⟩ <;> cases h

theorem heap_set_held (h : array_heap_t) (p : Int) (d : Nat) (v : Bool)
    (hl : h.lock = true) : Checked.heap_set h p d v = Except.error fault_kind.deadlock := by
  unfold Checked.heap_set Checked.pthread_spin_lock
  rw [hl]
  rfl

/-- Claim C19 as stated fails from `idx = 2 ^ 30 - 1` on.  The two-entry heap
`lt_two` is reachable, with `0 <= size <= nproc = 2`.  For `idx = 2 ^ 30` the
child index `(idx << 1) + 1` computed on `int` is negative: it is not above
`idx` and it is below `size`, so the first test of `max_heapify` passes and the
call reads `elements[idx]` outside the block instead of completing; on
mathematical integers the same call returns.  For `idx = 2 ^ 30 - 1` the right
child overflows in the same way, and `idx = 2 ^ 30 - 2` is the last index in
range. -/
theorem child_index_overflow_counterexample :
    Reachable 2 lt_cmp lt_two ∧ 0 ≤ lt_two.size ∧ lt_two.size ≤ 2 ∧
      (0 : Int) ≤ 1073741824 ∧
      Machine.left_child 1073741824 = -2147483647 ∧
      ¬ (1073741824 < Machine.left_child 1073741824) ∧
      Machine.left_child 1073741824 < lt_two.size ∧
      rd lt_two.elements 1073741824 = none ∧
      Machine.max_heapify lt_two 1073741824 = none ∧
      max_heapify lt_two 1073741824 = some lt_two ∧
      Machine.right_child 1073741823 = -2147483648 ∧
      Machine.max_heapify lt_two 1073741823 = none ∧
      Machine.max_heapify lt_two 1073741822 = some lt_two :=
  ⟨lt_two_reachable, by decide, by decide, by decide, by decide, by decide, by decide,
    by decide, by rfl, by rfl, by decide, by rfl, by rfl⟩

/-- Claim C19, amended.  Every operation completes within the range of `int`,
for every comparator.
`max_heapify`: for `0 <= idx <= 2 ^ 30 - 2` and `size <= 2 ^ 30 - 1` the child
indices computed on `int` are `2 * idx + 1` and `2 * idx + 2`, the recursive
call is on a child index above `idx` and below `size`, the run on `int` is the
run on mathematical integers, a budget of more than `size - idx` calls is never
exhausted, and on a state with consistent arrays the call returns.
Sift-up: the parent of a positive index is smaller and not negative, so a
budget of more than `idx` rounds is never exhausted, and on a state with
consistent arrays the loop returns with a final index in `[0, idx]`.
`heap_set` and `heap_change_key` never exhaust the budgets they give to their
loops, and for `nproc <= 2 ^ 30 - 1` on every reachable state `heap_set`
returns for every processor id in `[0, nproc)`, every deadline and both values
of `is_valid`, with the same result on `int` and on mathematical integers. -/
theorem operations_complete (nproc : Nat) (cmp : Nat → Nat → Bool) :
    (∀ (h : array_heap_t) (idx : Int), 0 ≤ idx → idx ≤ 1073741822 →
      h.size ≤ 1073741823 →
      Machine.left_child idx = 2 * idx + 1 ∧ Machine.right_child idx = 2 * idx + 2 ∧
      (largest_of h idx ≠ idx → idx < largest_of h idx ∧ largest_of h idx < h.size) ∧
      (∀ fuel : Nat, Machine.max_heapify_fuel fuel h idx = max_heapify_fuel fuel h idx) ∧
      (∀ fuel : Nat, 0 < fuel → h.size - idx < (fuel : Int) →
        Checked.max_heapify_fuel fuel h idx ≠ Except.error fault_kind.budget) ∧
      Checked.max_heapify h idx ≠ Except.error fault_kind.budget ∧
      (∀ (d : Nat) (wv : Bool),
        Checked.heap_change_key h idx d wv ≠ Except.error fault_kind.budget) ∧
      (Consistent nproc h → ∃ h', Machine.max_heapify h idx = some h' ∧
        max_heapify h idx = some h')) ∧
    (∀ (h : array_heap_t) (idx : Int),
      (0 < idx → 0 ≤ parent idx ∧ parent idx < idx) ∧
      (∀ fuel : Nat, 0 < fuel → idx < (fuel : Int) →
        Checked.sift_up_fuel fuel h idx ≠ Except.error fault_kind.budget) ∧
      Checked.sift_up h idx ≠ Except.error fault_kind.budget ∧
      (Consistent nproc h → 0 ≤ idx → idx < h.size →
        ∃ h' r, sift_up h idx = some (h', r) ∧ 0 ≤ r ∧ r ≤ idx)) ∧
    (∀ (h : array_heap_t) (p : Int) (d : Nat) (v : Bool),
      h.size ≤ 1073741823 → (h.elements.length : Int) ≤ 1073741823 →
      Checked.heap_set h p d v ≠ Except.error fault_kind.budget) ∧
    (∀ h : array_heap_t, Reachable nproc cmp h → nproc ≤ 1073741823 →
      ∀ (p : Int) (d : Nat) (v : Bool), 0 ≤ p → p < (nproc : Int) →
        ∃ h' r, Machine.heap_set h p d v = some (h', r) ∧
          heap_set h p d v = some (h', r) ∧
          Checked.heap_set h p d v = Except.ok (h', r)) := by
  refine ⟨?_, ?_, ?_, ?_⟩
  · intro h idx h0 h1 hs
    refine ⟨?_, ?_, fun hne => ?_, fun fuel => ?_, fun fuel f0 f1 => ?_, ?_, fun d wv => ?_,
      fun hc => ?_⟩
    · rw [machine_left_child_eq idx h0 h1]; rfl
    · rw [machine_right_child_eq idx h0 h1]; rfl
    · obtain ⟨b0, b1, _⟩ := largest_of_bounds h idx h0 hne
      exact ⟨b0, b1⟩
    · exact machine_max_heapify_fuel_eq fuel h idx h0 h1 hs
    · exact not_budget_of_post (max_heapify_fuel_post h.lock fuel h idx rfl h0 f0 f1)
    · exact not_budget_of_post (max_heapify_post h.lock h idx rfl h0)
    · exact not_budget_of_post (heap_change_key_post h.lock h idx d wv rfl)
    · have hs0 := hc.size_nonneg
      obtain ⟨h', e, _⟩ := max_heapify_fuel_same (h.size.toNat + 1) h idx hc h0 (by omega)
        (by push_cast; omega)
      exact ⟨h', (machine_max_heapify_eq h idx h0 h1 hs).trans e, e⟩
  · intro h idx
    refine ⟨fun hpos => ⟨parent_nonneg (by omega), parent_lt (by omega)⟩,
      fun fuel f0 f1 => ?_, ?_, fun hc h0 h1 => ?_⟩
    · exact not_budget_of_post (sift_up_fuel_post h.lock fuel h idx rfl f0 f1)
    · exact not_budget_of_post (sift_up_post h.lock h idx rfl)
    · obtain ⟨h', r, e, _, r0, r1⟩ := sift_up_fuel_same (idx.toNat + 1) h idx hc h0 h1
        (by push_cast; omega)
      exact ⟨h', r, e, r0, r1⟩
  · intro h p d v _ _
    cases hl : h.lock with
    | false => exact not_budget_of_post (heap_set_post h p d v hl)
    | true =>
      rw [heap_set_held h p d v hl]
      intro he
      cases he
  · intro h hr hn p d v p0 p1
    obtain ⟨hc, hl, _⟩ := hr.consistent
    obtain ⟨h', r, e⟩ := heap_set_total hc p p0 p1 d v
    exact ⟨h', r, (machine_heap_set_eq hc hn p p0 p1 d v).trans e, e,
      sim_some (e ▸ heap_set_sim h p d v hl)⟩

/-- Claim C19 at work on the two-entry heap `lt_two`, with the comparator
`a < b`: the removal of processor 0, which runs the sift-up loop and
`max_heapify`, returns, with child indices on `int` and on mathematical
integers alike. -/
theorem operations_complete_witness :
    Reachable 2 lt_cmp lt_two ∧ 2 ≤ 1073741823 ∧
      ∃ h' r, Machine.heap_set lt_two 0 0 false = some (h', r) ∧
        heap_set lt_two 0 0 false = some (h', r) ∧
        Checked.heap_set lt_two 0 0 false = Except.ok (h', r) :=
  ⟨lt_two_reachable, by decide,
    (operations_complete 2 lt_cmp).2.2.2 lt_two lt_two_reachable (by decide) 0 0 false
      (by decide) (by decide)⟩

theorem guarded_run {α : Type} {x : Except fault_kind (array_heap_t × α)}
    {y : Option (array_heap_t × α)}
    (hp : Post (inner_fault true) x (fun r => r.1.lock = false)) (hs : SimR Eq x y) :
    (∀ e, x = Except.error e → e = fault_kind.bounds) ∧
      (∀ r, x = Except.ok r → r.1.lock = false) ∧
      (∀ r, y = some r → x = Except.ok r ∧ r.1.lock = false) := by
  refine ⟨fun e he => inner_fault_true (post_error hp he), fun r hr => post_ok hp hr,
    fun r hr => ?_⟩
  have ok := sim_some (hr ▸ hs)
  exact ⟨ok, post_ok hp ok⟩

/-- The return paths of the instrumented model on concrete heaps: the early
return for an absent processor, the removal, the update, and the self-check that
finds a violation and dumps the heap.  A guarded read with the lock free and a
second acquisition of a held lock are faults of the instrumented model. -/
theorem lock_paths_examples :
    Checked.heap_set lt_one 1 0 false = Except.ok (lt_one, some (-1)) ∧
      Checked.heap_set sc_full 3 0 false = Except.ok (sc_removed, some (-1)) ∧
      Checked.heap_set sc_removed 1 30 true = Except.ok (sc_updated, none) ∧
      Checked.array_heap_check (pthread_spin_unlock up_without_sift) 6 =
        Except.ok (pthread_spin_unlock up_without_sift, 0) ∧
      Checked.load_size lt_two = Except.error fault_kind.unlocked ∧
      Checked.array_heap_save (pthread_spin_lock lt_two) 2 =
        Except.error fault_kind.deadlock :=
  ⟨by rfl, by rfl, by rfl, by rfl, by rfl, by rfl⟩

/-- Claim C20.  Lock discipline, with the spinlock as a held/free flag and every
access to `size`, `elements` and `cpu_to_idx` of the four locking functions
checked against it.  Started with the lock free, each of `heap_set`,
`array_heap_check`, `array_heap_save` and `array_heap_check_cpu` can only fail by
an access outside an array: it never touches a guarded field without holding
the lock, never takes the lock while holding it (`array_heap_check` has
released it when it calls the dump) and never releases a free lock; every
return leaves the lock free, and every return of the plain model is such a
return.  `heap_maximum` and `array_heap_find` do not take the lock: their
result does not depend on the flag, they run while the lock is held, and they
hand back no changed state. -/
theorem lock_discipline (h : array_heap_t) (hfree : h.lock = false) (nproc : Nat)
    (p : Int) (d : Nat) (v : Bool) :
    ((∀ e, Checked.heap_set h p d v = Except.error e → e = fault_kind.bounds) ∧
      (∀ r, Checked.heap_set h p d v = Except.ok r → r.1.lock = false) ∧
      (∀ r, heap_set h p d v = some r →
        Checked.heap_set h p d v = Except.ok r ∧ r.1.lock = false)) ∧
    ((∀ e, Checked.array_heap_check h nproc = Except.error e → e = fault_kind.bounds) ∧
      (∀ r, Checked.array_heap_check h nproc = Except.ok r → r.1.lock = false) ∧
      (∀ r, array_heap_check h nproc = some r →
        Checked.array_heap_check h nproc = Except.ok r ∧ r.1.lock = false)) ∧
    ((∀ e, Checked.array_heap_save h nproc = Except.error e → e = fault_kind.bounds) ∧
      (∀ r, Checked.array_heap_save h nproc = Except.ok r → r.1.lock = false) ∧
      (∀ r, array_heap_save h nproc = some r →
        Checked.array_heap_save h nproc = Except.ok r ∧ r.1.lock = false)) ∧
    ((∀ e, Checked.array_heap_check_cpu h p d = Except.error e → e = fault_kind.bounds) ∧
      (∀ r, Checked.array_heap_check_cpu h p d = Except.ok r → r.1.lock = false) ∧
      (∀ r, array_heap_check_cpu h p d = some r →
        Checked.array_heap_check_cpu h p d = Except.ok r ∧ r.1.lock = false)) ∧
    (∀ b : Bool,
      Checked.array_heap_find { h with lock := b } = Checked.array_heap_find h ∧
      Checked.heap_maximum { h with lock := b } = Checked.heap_maximum h ∧
      (∀ e, Checked.array_heap_find { h with lock := b } = Except.error e →
        e = fault_kind.bounds) ∧
      (∀ r, array_heap_find { h with lock := b } = some r →
        Checked.array_heap_find h = Except.ok r)) :=
  ⟨guarded_run (heap_set_post h p d v hfree) (heap_set_sim h p d v hfree),
    guarded_run (array_heap_check_post h nproc hfree) (array_heap_check_sim h nproc hfree),
    guarded_run (array_heap_save_post h nproc hfree) (array_heap_save_sim h nproc hfree),
    guarded_run (array_heap_check_cpu_post h p d hfree) (array_heap_check_cpu_sim h p d hfree),
    fun b => ⟨rfl, rfl, fun _ he => post_error (array_heap_find_post _) he,
      fun _ hr => sim_some (hr ▸ array_heap_find_sim { h with lock := b })⟩⟩

/-- Claim C20 at work on the two-entry heap `lt_two` with its lock free, for the
update of processor 1. -/
theorem lock_discipline_witness :
    lt_two.lock = false ∧
      (∀ r, heap_set lt_two 1 7 true = some r →
        Checked.heap_set lt_two 1 7 true = Except.ok r ∧ r.1.lock = false) ∧
      (∀ r, array_heap_check lt_two 2 = some r →
        Checked.array_heap_check lt_two 2 = Except.ok r ∧ r.1.lock = false) :=
  ⟨rfl, (lock_discipline lt_two rfl 2 1 7 true).1.2.2,
    (lock_discipline lt_two rfl 2 1 7 true).2.1.2.2⟩

end ArrayHeap
